import Mathlib

/-!
# Ring ORAM core of RingOBIRTree

A shallow embedding of `src/ringoram.cpp` (with `src/block.h`) and theorems about it.

Conventions of the embedding.

* `int` values that may be negative (block indices, leaf ids) are `Int`; counters that start
  at zero and are only incremented (`count`, `round`, `G`) and bucket positions, which
  `Path_bucket` confines to `[0, num_bucket)`, are `Nat`. Integers are unbounded: the 32-bit
  wrap of `G`, of `count` and of the shifts `1 << L`, `1 << (L + 1)` (for `N` beyond `2^30`)
  is outside the model.
* The server storage and the position map are total maps from positions / block indices.
* The outcomes of `get_random` and of `std::shuffle` are explicit arguments (`Coins`).
* `ReadPath` and `access` return `Option`: `none` stands for the out-of-bounds slot read the
  source performs when a bucket has neither the wanted block nor an unread dummy slot.
-/

set_option autoImplicit false

namespace RingORAM

/-! ## Data model -/

/-- Payload bytes (`vector<char>`). -/
abbrev Bytes := List (Fin 256)

/-- The class `block` of `block.h`. -/
structure block where
  leaf_id : Int
  blockindex : Int
  data : Bytes
deriving DecidableEq, Repr

/-- The method `block::IsDummy`: the dummy block has index `-1`. -/
def block.IsDummy (b : block) : Bool := b.blockindex == -1

/-- Modelled from the spec: the member `dummyBlock` of `ringoram` (declared in `ringoram.h`,
built by `block::block()` of `block.cpp`, neither under `src/`): the dedicated sentinel whose
`block_index` is `-1`. -/
def dummyBlock : block := ⟨-1, -1, []⟩

/-- The class `bucket` (its header is not under `src/`): the fields `ringoram.cpp` uses. -/
structure bucket where
  blocks : List block
  ptrs : List Int
  valids : List Bool
  count : Nat
deriving DecidableEq, Repr

/-- The enumeration `Operation`. -/
inductive Operation where
  | READ
  | WRITE
deriving DecidableEq, Repr

/-- Floor of the binary logarithm, by halving (`fuel` bounds the number of halvings). -/
def log2Fuel : Nat → Nat → Nat
  | 0, _ => 0
  | fuel + 1, n => if n < 2 then 0 else log2Fuel fuel (n / 2) + 1

/-- The expression `floor(log2(n))` for `n ≥ 1`. -/
def floorLog2 (n : Nat) : Nat := log2Fuel n n

/-- The expression `ceil(log2(n))` for `n ≥ 1`. -/
def ceilLog2 (n : Nat) : Nat := if n ≤ 1 then 0 else floorLog2 (n - 1) + 1

/-- The constants of `param.h` (not under `src/`), the block count `N` given to the
constructor, and the two operations of the cipher `CryptoUtils` (`decrypt` returns `none`
where the cipher throws). -/
structure Params where
  N : Nat
  realBlockEachbkt : Nat
  dummyBlockEachbkt : Nat
  EvictRound : Nat
  encrypt : Bytes → Bytes
  decrypt : Bytes → Option Bytes

/-- The member `L = ceil(log2(N))`. -/
def Params.L (P : Params) : Nat := ceilLog2 P.N

/-- The member `num_bucket = (1 << (L + 1)) - 1`. -/
def Params.num_bucket (P : Params) : Nat := 2 ^ (P.L + 1) - 1

/-- The member `num_leaves = 1 << L`. -/
def Params.num_leaves (P : Params) : Nat := 2 ^ P.L

/-- Modelled from the spec: the constant `maxblockEachbkt` of `param.h`, the `Z + S` slots of
a bucket. -/
def Params.maxblockEachbkt (P : Params) : Nat := P.realBlockEachbkt + P.dummyBlockEachbkt

/-- The mutable members of `ringoram` together with the server storage it owns. -/
structure ringoram where
  positionmap : Nat → Int
  stash : List block
  storage : Nat → bucket
  round : Nat
  G : Nat

/-- Outcome of `std::shuffle` on the block list of one `WriteBucket` call. -/
abbrev Shuffle := List block → List block

/-- The random outcomes consumed by one `access`: the leaf drawn by `get_random`, and the
shuffles of the `WriteBucket` calls of `EvictPath` and of `EarlyReshuffle`, by level. -/
structure Coins where
  leaf : Int
  evict : Nat → Shuffle
  reshuffle : Nat → Shuffle

/-! ## Operations -/

/-- The method `ringoram::Path_bucket`. The shift `L - level` is only meaningful for
`level ≤ L`, which every call site guarantees. -/
def Path_bucket (P : Params) (leaf : Int) (level : Nat) : Nat :=
  let result : Int := (2 : Int) ^ level - 1 + (leaf >>> (P.L - level))
  if result < 0 ∨ result ≥ (P.num_bucket : Int) then 0 else result.toNat

/-- The method `ringoram::GetlevelFromPos`. -/
def GetlevelFromPos (pos : Nat) : Nat := floorLog2 (pos + 1)

/-- The method `ringoram::FindBlock`. -/
def FindBlock (bkt : bucket) (offset : Nat) : block := bkt.blocks.getD offset dummyBlock

/-- Modelled from the spec: `bucket::GetDummyblockOffset` (class `bucket` is not under
`src/`): the next unread dummy slot, that is the first slot that is a dummy and still valid;
`none` when the bucket has no unread dummy slot left. -/
def GetDummyblockOffset (P : Params) (bkt : bucket) : Option Nat :=
  (List.range P.maxblockEachbkt).find?
    (fun i => bkt.ptrs.getD i 0 == -1 && bkt.valids.getD i false)

/-- The method `ringoram::GetBlockOffset`. -/
def GetBlockOffset (P : Params) (bkt : bucket) (blockindex : Int) : Option Nat :=
  match (List.range (P.realBlockEachbkt + P.dummyBlockEachbkt)).find?
      (fun i => bkt.ptrs.getD i 0 == blockindex && bkt.valids.getD i false) with
  | some i => some i
  | none => GetDummyblockOffset P bkt

/-- The method `ringoram::encrypt_data`. -/
def encrypt_data (P : Params) (data : Bytes) : Bytes :=
  if data.isEmpty then data else P.encrypt data

/-- The method `ringoram::decrypt_data`. -/
def decrypt_data (P : Params) (encrypted_data : Bytes) : Bytes :=
  if encrypted_data.isEmpty then encrypted_data
  else if encrypted_data.length % 16 ≠ 0 then encrypted_data
  else match P.decrypt encrypted_data with
    | some decrypted => decrypted
    | none => encrypted_data

/-- The call `storage->SetBucket(pos, bkt)`; also the write-back of a bucket that was changed
through the reference `storage->GetBucket(pos)`. -/
def SetBucket (pos : Nat) (bkt : bucket) (st : ringoram) : ringoram :=
  { st with storage := Function.update st.storage pos bkt }

/-- One iteration of the loop of `ringoram::ReadBucket` over slot `j`. -/
def ReadBucket.step (P : Params) (bkt : bucket) (stash : List block) (j : Nat) : List block :=
  if bkt.ptrs.getD j 0 ≠ -1 ∧ bkt.valids.getD j false = true ∧
      (bkt.blocks.getD j dummyBlock).IsDummy = false then
    let encrypted_block := bkt.blocks.getD j dummyBlock
    stash ++ [⟨encrypted_block.leaf_id, encrypted_block.blockindex,
      decrypt_data P encrypted_block.data⟩]
  else stash

/-- The method `ringoram::ReadBucket`. -/
def ReadBucket (P : Params) (pos : Nat) (st : ringoram) : ringoram :=
  let bkt := st.storage pos
  let stash := (List.range P.maxblockEachbkt).foldl (ReadBucket.step P bkt) st.stash
  { st with stash := stash }

/-- The first loop of `ringoram::WriteBucket`: walks the stash while fewer than
`realBlockEachbkt` blocks are collected; returns `blocksTobucket` and the remaining stash. -/
def WriteBucket.collect (P : Params) (position level : Nat) :
    List block → List block → List block × List block
  | [], blocksTobucket => (blocksTobucket, [])
  | it :: rest, blocksTobucket =>
    if blocksTobucket.length < P.realBlockEachbkt then
      if Path_bucket P it.leaf_id level = position then
        if it.IsDummy = false then
          WriteBucket.collect P position level rest
            (blocksTobucket ++ [⟨it.leaf_id, it.blockindex, encrypt_data P it.data⟩])
        else WriteBucket.collect P position level rest blocksTobucket
      else
        let r := WriteBucket.collect P position level rest blocksTobucket
        (r.1, it :: r.2)
    else (blocksTobucket, it :: rest)

/-- The method `ringoram::WriteBucket`; `shuffle` is the outcome of `std::shuffle`. -/
def WriteBucket (P : Params) (shuffle : Shuffle) (position : Nat) (st : ringoram) : ringoram :=
  let level := GetlevelFromPos position
  let r := WriteBucket.collect P position level st.stash []
  let padded := r.1 ++
    List.replicate (P.realBlockEachbkt + P.dummyBlockEachbkt - r.1.length) dummyBlock
  let blocksTobucket := shuffle padded
  let bktTowrite : bucket :=
    { blocks := blocksTobucket
      ptrs := (List.range P.maxblockEachbkt).map
        (fun i => (blocksTobucket.getD i dummyBlock).blockindex)
      valids := List.replicate P.maxblockEachbkt true
      count := 0 }
  SetBucket position bktTowrite { st with stash := r.2 }

/-- One iteration of the loop of `ringoram::ReadPath` at level `i`. -/
def ReadPath.step (P : Params) (leafid blockindex : Int) (acc : block × ringoram) (i : Nat) :
    Option (block × ringoram) :=
  let position := Path_bucket P leafid i
  let bkt := acc.2.storage position
  match GetBlockOffset P bkt blockindex with
  | none => none
  | some offset =>
    let blk := FindBlock bkt offset
    let bkt1 : bucket := { bkt with valids := bkt.valids.set offset false, count := bkt.count + 1 }
    let interestblock := if blk.blockindex = blockindex then blk else acc.1
    let bkt2 : bucket :=
      if offset < P.maxblockEachbkt then
        { bkt1 with valids := bkt1.valids.set offset false, count := bkt1.count + 1 }
      else bkt1
    some (interestblock, SetBucket position bkt2 acc.2)

/-- The loop of `ringoram::ReadPath` over a list of levels. -/
def ReadPath.loop (P : Params) (leafid blockindex : Int) :
    List Nat → block × ringoram → Option (block × ringoram)
  | [], acc => some acc
  | i :: rest, acc =>
    match ReadPath.step P leafid blockindex acc i with
    | none => none
    | some acc1 => ReadPath.loop P leafid blockindex rest acc1

/-- The method `ringoram::ReadPath`. -/
def ReadPath (P : Params) (leafid blockindex : Int) (st : ringoram) : Option (block × ringoram) :=
  ReadPath.loop P leafid blockindex (List.range (P.L + 1)) (dummyBlock, st)

/-- The assignment `storage->GetBucket(pos).count = 0`. -/
def resetCount (pos : Nat) (st : ringoram) : ringoram :=
  SetBucket pos { st.storage pos with count := 0 } st

/-- The method `ringoram::EvictPath`; `shuffles i` is the shuffle of the write at level `i`. -/
def EvictPath (P : Params) (shuffles : Nat → Shuffle) (st : ringoram) : ringoram :=
  let l : Int := ((st.G % 2 ^ P.L : Nat) : Int)
  let st1 : ringoram := { st with G := st.G + 1 }
  let st2 := (List.range (P.L + 1)).foldl (fun s i => ReadBucket P (Path_bucket P l i) s) st1
  (List.range (P.L + 1)).reverse.foldl
    (fun s i => resetCount (Path_bucket P l i) (WriteBucket P (shuffles i) (Path_bucket P l i) s))
    st2

/-- One iteration of the loop of `ringoram::EarlyReshuffle` at level `i`. -/
def EarlyReshuffle.step (P : Params) (shuffles : Nat → Shuffle) (l : Int) (st : ringoram)
    (i : Nat) : ringoram :=
  if (st.storage (Path_bucket P l i)).count ≥ P.dummyBlockEachbkt then
    resetCount (Path_bucket P l i)
      (WriteBucket P (shuffles i) (Path_bucket P l i) (ReadBucket P (Path_bucket P l i) st))
  else st

/-- The method `ringoram::EarlyReshuffle`. -/
def EarlyReshuffle (P : Params) (shuffles : Nat → Shuffle) (l : Int) (st : ringoram) : ringoram :=
  (List.range (P.L + 1)).foldl (EarlyReshuffle.step P shuffles l) st

/-- The stash scan of `ringoram::access`: the data of the first entry with the wanted index
(empty when there is none) and the stash with that entry erased. -/
def takeFromStash (blockindex : Int) : List block → Bytes × List block
  | [] => ([], [])
  | it :: rest =>
    if it.blockindex = blockindex then (it.data, rest)
    else
      let r := takeFromStash blockindex rest
      (r.1, it :: r.2)

/-- The method `ringoram::access`, with the random outcomes `c` of this call. -/
def access (P : Params) (c : Coins) (blockindex : Int) (op : Operation) (data : Bytes)
    (st : ringoram) : Option (Bytes × ringoram) :=
  if blockindex < 0 ∨ blockindex ≥ (P.N : Int) then some ([], st)
  else
    let oldLeaf := st.positionmap blockindex.toNat
    let st1 : ringoram :=
      { st with positionmap := Function.update st.positionmap blockindex.toNat c.leaf }
    match ReadPath P oldLeaf blockindex st1 with
    | none => none
    | some (interestblock, st2) =>
      let found : Bytes × List block :=
        if interestblock.blockindex = blockindex then
          (if interestblock.IsDummy = false then decrypt_data P interestblock.data
            else interestblock.data, st2.stash)
        else takeFromStash blockindex st2.stash
      let blockdata := if op = Operation.WRITE then data else found.1
      let st3 : ringoram :=
        { st2 with stash := found.2 ++ [⟨st2.positionmap blockindex.toNat, blockindex, blockdata⟩] }
      let st4 : ringoram := { st3 with round := (st3.round + 1) % P.EvictRound }
      let st5 := if st4.round = 0 then EvictPath P c.evict st4 else st4
      some (blockdata, EarlyReshuffle P c.reshuffle oldLeaf st5)

/-- Modelled from the spec: the constructor `bucket(Z, S)` (class `bucket` is not under
`src/`): a bucket of `Z + S` slots filled with dummies, none of them read yet. -/
def bucket.init (P : Params) : bucket :=
  { blocks := List.replicate P.maxblockEachbkt dummyBlock
    ptrs := List.replicate P.maxblockEachbkt (-1)
    valids := List.replicate P.maxblockEachbkt true
    count := 0 }

/-- The constructor `ringoram::ringoram`; `leaves i` is the outcome of the `get_random` call
that fills `positionmap[i]`. The statics `round` and `G` start at zero. -/
def ringoram.init (P : Params) (leaves : Nat → Int) : ringoram :=
  { positionmap := leaves
    stash := []
    storage := fun _ => bucket.init P
    round := 0
    G := 0 }

end RingORAM

namespace RingORAM

/-! ## Specification-side definitions -/

/-- A leaf id that `get_random` can return: a value in `[0, num_leaves)`. -/
def ValidLeaf (P : Params) (leaf : Int) : Prop := 0 ≤ leaf ∧ leaf < (P.num_leaves : Int)

instance (P : Params) (leaf : Int) : Decidable (ValidLeaf P leaf) := by
  unfold ValidLeaf; infer_instance

/-- The assumption on the cipher: decrypting an encrypted payload gives the payload back. -/
def CipherCorrect (P : Params) : Prop := ∀ x : Bytes, decrypt_data P (encrypt_data P x) = x

/-- What `std::shuffle` guarantees: the result is a rearrangement of its input. -/
def IsShuffle (shuffle : Shuffle) : Prop := ∀ l : List block, List.Perm (shuffle l) l

/-- Random outcomes one `access` can really draw. -/
def ValidCoins (P : Params) (c : Coins) : Prop :=
  ValidLeaf P c.leaf ∧ (∀ i, IsShuffle (c.evict i)) ∧ (∀ i, IsShuffle (c.reshuffle i))

/-- Shape of a bucket: `Z + S` slots, and `ptrs` mirrors the block indices. -/
def bucket.WF (P : Params) (b : bucket) : Prop :=
  b.blocks.length = P.maxblockEachbkt ∧ b.valids.length = P.maxblockEachbkt ∧
    b.ptrs = b.blocks.map (fun blk => blk.blockindex)

/-- The plaintext block `ReadBucket` pushes for slot `j`, if it pushes one. -/
def slotEntry (P : Params) (b : bucket) (j : Nat) : Option block :=
  if b.ptrs.getD j 0 ≠ -1 ∧ b.valids.getD j false = true ∧
      (b.blocks.getD j dummyBlock).IsDummy = false then
    some ⟨(b.blocks.getD j dummyBlock).leaf_id, (b.blocks.getD j dummyBlock).blockindex,
      decrypt_data P (b.blocks.getD j dummyBlock).data⟩
  else none

/-- The plaintext blocks held in the real slots of a bucket, in slot order. -/
def drain (P : Params) (b : bucket) : List block :=
  (List.range P.maxblockEachbkt).filterMap (slotEntry P b)

/-- Number of dummy slots of a bucket not read yet. -/
def validDummies (P : Params) (b : bucket) : Nat :=
  (List.range P.maxblockEachbkt).countP
    (fun i => b.ptrs.getD i 0 == -1 && b.valids.getD i false)

/-- What one iteration of `ReadPath` does to the bucket it visits, for an offset in range. -/
def invalidate (b : bucket) (offset : Nat) : bucket :=
  { b with valids := (b.valids.set offset false).set offset false, count := b.count + 1 + 1 }

/-- The ciphertext block `WriteBucket` builds from a stash entry. -/
def encryptBlock (P : Params) (e : block) : block :=
  ⟨e.leaf_id, e.blockindex, encrypt_data P e.data⟩

/-- The plaintext block a bucket slot holding `blk` stands for, if the slot is real. -/
def plainOf (P : Params) (blk : block) : Option block :=
  if blk.blockindex ≠ -1 then some ⟨blk.leaf_id, blk.blockindex, decrypt_data P blk.data⟩
  else none

/-- The bucket `WriteBucket` installs, given the shuffled block list. -/
def freshBucket (P : Params) (blocksTobucket : List block) : bucket :=
  { blocks := blocksTobucket
    ptrs := (List.range P.maxblockEachbkt).map
      (fun i => (blocksTobucket.getD i dummyBlock).blockindex)
    valids := List.replicate P.maxblockEachbkt true
    count := 0 }

/-- The plaintext blocks held in the real slots of the buckets at the positions `U`. -/
def heldIn (P : Params) (storage : Nat → bucket) (U : Finset Nat) : Multiset block :=
  ∑ p ∈ U, (drain P (storage p) : Multiset block)

/-- The plaintext blocks the ORAM holds: the stash and the real slots of the buckets at the
positions `U`. -/
def view (P : Params) (st : ringoram) (U : Finset Nat) : Multiset block :=
  (st.stash : Multiset block) + heldIn P st.storage U

/-- The plaintext blocks the ORAM holds, as a list: the stash, then the real slots of the
buckets by position. -/
def viewList (P : Params) (st : ringoram) : List block :=
  st.stash ++ (List.range P.num_bucket).flatMap (fun p => drain P (st.storage p))

/-- The plaintext stored for block index `i`: the payload of the block held for `i`, empty
when no block is held for `i`. -/
def stored (P : Params) (st : ringoram) (i : Int) : Bytes :=
  match (viewList P st).find? (fun e => e.blockindex = i) with
  | some e => e.data
  | none => []

/-- The structural invariant of the ORAM, relative to the set `U` of bucket positions whose
content counts (during an eviction the buckets already drained are left out): buckets are
well formed, every held block has a valid index and carries the leaf the position map assigns
to its index, every block of a bucket lies on the path of its leaf, no index is held twice,
and the position map holds valid leaves. -/
structure Inv (P : Params) (st : ringoram) (U : Finset Nat) : Prop where
  wf : ∀ p, (st.storage p).WF P
  idx : ∀ e ∈ view P st U, 0 ≤ e.blockindex ∧ e.blockindex < (P.N : Int)
  leaf : ∀ e ∈ view P st U, e.leaf_id = st.positionmap e.blockindex.toNat
  place : ∀ p ∈ U, ∀ e ∈ drain P (st.storage p),
    Path_bucket P e.leaf_id (GetlevelFromPos p) = p
  nodup : ((view P st U).map (fun e => e.blockindex)).Nodup
  pm : ∀ i, i < P.N → ValidLeaf P (st.positionmap i)

/-- Dummy budget: the reads a bucket took since it was written are covered by the dummies it
was written with. -/
def Dum (P : Params) (st : ringoram) : Prop :=
  ∀ p, 2 * P.dummyBlockEachbkt ≤ 2 * validDummies P (st.storage p) + (st.storage p).count

/-- Count bound between two calls of `access`. -/
def Cnt (P : Params) (st : ringoram) : Prop :=
  ∀ p, (st.storage p).count < P.dummyBlockEachbkt

/-- The position map holds a valid leaf for every block index. -/
def PmValid (P : Params) (st : ringoram) : Prop :=
  ∀ i, i < P.N → ValidLeaf P (st.positionmap i)

/-- The states the ORAM can be in between two calls: the constructed state, and every state
a returning `access` call leads to, for any arguments and any random outcome. -/
inductive Reachable (P : Params) : ringoram → Prop where
  | init (leaves : Nat → Int) (h : ∀ i, i < P.N → ValidLeaf P (leaves i)) :
      Reachable P (ringoram.init P leaves)
  | step (st st2 : ringoram) (c : Coins) (i : Int) (op : Operation) (d out : Bytes) :
      Reachable P st → ValidCoins P c → access P c i op d st = some (out, st2) →
      Reachable P st2

/-- The arguments of one call of `access`. -/
structure Request where
  blockindex : Int
  op : Operation
  data : Bytes

/-- A sequence of `access` calls, each with its random outcomes: the payloads returned, in
order, and the final state. -/
def run (P : Params) : ringoram → List (Coins × Request) → Option (List Bytes × ringoram)
  | st, [] => some ([], st)
  | st, cr :: rest =>
    match access P cr.1 cr.2.blockindex cr.2.op cr.2.data st with
    | none => none
    | some r =>
      match run P r.2 rest with
      | none => none
      | some rs => some (r.1 :: rs.1, rs.2)

/-- Plain-array reading of a history of calls (newest first): the payload of the most recent
write to index `i`, empty when `i` was never written. -/
def mostRecentWrite (i : Int) : List Request → Bytes
  | [] => []
  | r :: older =>
    if r.op = Operation.WRITE ∧ r.blockindex = i then r.data else mostRecentWrite i older

/-- What a plain array answers to a sequence of calls made after the history `hist` (newest
first): a write answers its own data, a read the most recent write to its index. -/
def arrayOutputs : List Request → List Request → List Bytes
  | _, [] => []
  | hist, r :: rest =>
    (if r.op = Operation.WRITE then r.data else mostRecentWrite r.blockindex hist) ::
      arrayOutputs (r :: hist) rest

/-- The multiset of `(block_index, plaintext)` pairs over all real slots and the stash. -/
def pairs (P : Params) (st : ringoram) : Multiset (Int × Bytes) :=
  (view P st (Finset.range P.num_bucket)).map (fun e => (e.blockindex, e.data))

/-- The test of the first loop of `WriteBucket` for moving a stash entry into the bucket at
`position` of level `level`: the entry is not a dummy and the path of its leaf passes through
`position`. -/
def fitsAt (P : Params) (position level : Nat) (e : block) : Bool :=
  decide (Path_bucket P e.leaf_id level = position) && !e.IsDummy

/-- The indices held in the real slots of a bucket (`valids[k]` true and `ptrs[k] != -1`), in
slot order. -/
def realIndices (P : Params) (b : bucket) : List Int :=
  (List.range P.maxblockEachbkt).filterMap (fun k =>
    if b.valids.getD k false = true ∧ b.ptrs.getD k 0 ≠ -1 then some (b.ptrs.getD k 0)
    else none)

/-- The leaf and the index of a block, without its payload. -/
def tagOf (e : block) : Int × Int := (e.leaf_id, e.blockindex)

/-- The block indices the ORAM holds: those of the stash entries, then those of the real slots
of the buckets by position. -/
def heldIndices (P : Params) (st : ringoram) : List Int :=
  st.stash.map (fun e => e.blockindex) ++
    (List.range P.num_bucket).flatMap (fun p => realIndices P (st.storage p))

/-- The non-dummy plaintext blocks the ORAM holds: the non-dummy entries of the stash and the
real slots of the buckets at the positions `U`. -/
def realView (P : Params) (st : ringoram) (U : Finset Nat) : Multiset block :=
  (view P st U).filter (fun e => e.IsDummy = false)

/-- A bucket as `WriteBucket(pos)` leaves it: `Z + S` blocks, `ptrs` mirroring the block
indices, every slot valid, count zero, at most `Z` non-dummy blocks, and every non-dummy
block on the path of its leaf (`Path_bucket(leaf_id, level of pos) = pos`). -/
def bucket.Rebuilt (P : Params) (pos : Nat) (b : bucket) : Prop :=
  b.blocks.length = P.realBlockEachbkt + P.dummyBlockEachbkt ∧
    b.ptrs = b.blocks.map (fun blk => blk.blockindex) ∧
    b.valids = List.replicate (P.realBlockEachbkt + P.dummyBlockEachbkt) true ∧
    b.count = 0 ∧
    b.blocks.countP (fun blk => !blk.IsDummy) ≤ P.realBlockEachbkt ∧
    ∀ blk ∈ b.blocks, blk.IsDummy = false →
      Path_bucket P blk.leaf_id (GetlevelFromPos pos) = pos

instance (P : Params) (pos : Nat) (b : bucket) : Decidable (b.Rebuilt P pos) := by
  unfold bucket.Rebuilt; infer_instance

/-! ### The configuration of the spec's concrete scenarios -/

/-- The parameters `N = 16`, `Z = 4`, `S = 5`, `A = 3` of the spec's scenarios (so `L = 4`),
with the identity as cipher. -/
def scenarioParams : Params :=
  { N := 16, realBlockEachbkt := 4, dummyBlockEachbkt := 5, EvictRound := 3,
    encrypt := fun x => x, decrypt := fun x => some x }

/-- Random outcomes for the scenarios: the new leaf is 7 and no shuffle moves a block. -/
def scenarioCoins : Coins :=
  { leaf := 7, evict := fun _ l => l, reshuffle := fun _ l => l }

/-- A freshly constructed ORAM whose position map assigns leaf 2 to every block. -/
def scenarioInit : ringoram := ringoram.init scenarioParams (fun _ => 2)

/-- A stash of six blocks of leaf 8 (more than `Z = 4`) on the scenario ORAM. -/
def scenarioFullStash : ringoram :=
  { scenarioInit with
    stash := [⟨8, 0, []⟩, ⟨8, 1, []⟩, ⟨8, 2, []⟩, ⟨8, 3, []⟩, ⟨8, 4, []⟩, ⟨8, 5, []⟩] }

/-- A payload of 16 equal bytes. -/
def scenarioPayload (x : Fin 256) : Bytes := List.replicate 16 x

/-- A root bucket after three reads: slot 0 holds block 3 of leaf 2, still valid; slot 1
holds the stale copy of block 5, read and invalidated, like the dummy slots 2 and 3; the
count stands at 6 (two per read). -/
def scenarioUsedRoot : bucket :=
  { blocks := [⟨2, 3, scenarioPayload 1⟩, ⟨2, 5, scenarioPayload 2⟩] ++
      List.replicate 7 dummyBlock
    ptrs := [3, 5] ++ List.replicate 7 (-1)
    valids := [true, false, false, false] ++ List.replicate 5 true
    count := 6 }

/-- The scenario ORAM with the root bucket `scenarioUsedRoot`, block 5 remapped to leaf 7 and
held in the stash. -/
def scenarioUsed : ringoram :=
  { SetBucket 0 scenarioUsedRoot scenarioInit with
    positionmap := Function.update (fun _ => 2) 5 7
    stash := [⟨7, 5, scenarioPayload 2⟩] }

end RingORAM

namespace RingORAM

/-! ## Path arithmetic -/

theorem log2Fuel_eq_log (fuel n : Nat) (h : n ≤ fuel) : log2Fuel fuel n = Nat.log 2 n := by
  induction fuel generalizing n with
  | zero =>
    have : n = 0 := by omega
    subst this
    simp [log2Fuel]
  | succ f ih =>
    unfold log2Fuel
    split_ifs with h2
    · exact (Nat.log_of_lt h2).symm
    · have h3 : 2 ≤ n := by omega
      rw [Nat.log_of_one_lt_of_le (by norm_num) h3, ih (n / 2) (by omega)]

theorem floorLog2_eq_log (n : Nat) : floorLog2 n = Nat.log 2 n :=
  log2Fuel_eq_log n n le_rfl

theorem num_bucket_pos (P : Params) : 0 < P.num_bucket := by
  unfold Params.num_bucket
  have : 2 ≤ 2 ^ (P.L + 1) := by
    calc 2 = 2 ^ 1 := by norm_num
      _ ≤ 2 ^ (P.L + 1) := Nat.pow_le_pow_right (by norm_num) (by omega)
  omega

/-- Every value of `Path_bucket` is a position of the storage. -/
theorem Path_bucket_lt (P : Params) (leaf : Int) (level : Nat) :
    Path_bucket P leaf level < P.num_bucket := by
  unfold Path_bucket
  simp only
  split_ifs with h
  · exact num_bucket_pos P
  · push_neg at h
    omega

theorem div_pow_lt (P : Params) (n level : Nat) (hn : n < 2 ^ P.L) (hl : level ≤ P.L) :
    n / 2 ^ (P.L - level) < 2 ^ level := by
  rw [Nat.div_lt_iff_lt_mul (by positivity)]
  rw [← pow_add]
  have : level + (P.L - level) = P.L := by omega
  rw [this]; exact hn

/-- On a valid leaf and a level of the tree the bounds check of `Path_bucket` passes. -/
theorem Path_bucket_eq (P : Params) (leaf : Int) (level : Nat) (hleaf : ValidLeaf P leaf)
    (hl : level ≤ P.L) :
    Path_bucket P leaf level = 2 ^ level - 1 + leaf.toNat / 2 ^ (P.L - level) := by
  obtain ⟨h0, h1⟩ := hleaf
  lift leaf to ℕ using h0
  have hn : leaf < 2 ^ P.L := by
    unfold Params.num_leaves at h1; exact_mod_cast h1
  have hq := div_pow_lt P leaf level hn hl
  have hp : 1 ≤ 2 ^ level := Nat.one_le_two_pow
  have hle : 2 ^ (level + 1) ≤ 2 ^ (P.L + 1) := Nat.pow_le_pow_right (by norm_num) (by omega)
  have hs : 2 ^ (level + 1) = 2 * 2 ^ level := by rw [pow_succ]; ring
  unfold Path_bucket
  simp only [Int.shiftRight_eq_div_pow, Int.toNat_ofNat]
  have hcast : ((2 : Int) ^ level - 1 + (leaf : Int) / ((2 ^ (P.L - level) : ℕ) : Int)) =
      ((2 ^ level - 1 + leaf / 2 ^ (P.L - level) : ℕ) : Int) := by
    push_cast [Nat.cast_sub hp]
    ring
  rw [hcast]
  have hlt : 2 ^ level - 1 + leaf / 2 ^ (P.L - level) < P.num_bucket := by
    unfold Params.num_bucket; omega
  rw [if_neg]
  · exact Int.toNat_ofNat _
  · push_neg
    constructor
    · exact Int.ofNat_nonneg _
    · exact_mod_cast hlt

/-- The level of a bucket on a path is the level it was computed for. -/
theorem GetlevelFromPos_Path_bucket (P : Params) (leaf : Int) (level : Nat)
    (hleaf : ValidLeaf P leaf) (hl : level ≤ P.L) :
    GetlevelFromPos (Path_bucket P leaf level) = level := by
  rw [Path_bucket_eq P leaf level hleaf hl]
  obtain ⟨h0, h1⟩ := hleaf
  lift leaf to ℕ using h0
  have hn : leaf < 2 ^ P.L := by
    unfold Params.num_leaves at h1; exact_mod_cast h1
  have hq := div_pow_lt P leaf level hn hl
  have hp : 1 ≤ 2 ^ level := Nat.one_le_two_pow
  have hs : 2 ^ (level + 1) = 2 * 2 ^ level := by rw [pow_succ]; ring
  unfold GetlevelFromPos
  rw [floorLog2_eq_log]
  simp only [Int.toNat_ofNat]
  generalize leaf / 2 ^ (P.L - level) = q at hq ⊢
  apply Nat.log_eq_of_pow_le_of_lt_pow
  · generalize 2 ^ level = t at hp hq ⊢
    omega
  · rw [hs]
    generalize 2 ^ level = t at hp hq ⊢
    omega

/-- The buckets of one path lie at pairwise different positions. -/
theorem Path_bucket_inj (P : Params) (leaf : Int) (i j : Nat) (hleaf : ValidLeaf P leaf)
    (hi : i ≤ P.L) (hj : j ≤ P.L) (h : Path_bucket P leaf i = Path_bucket P leaf j) : i = j := by
  rw [← GetlevelFromPos_Path_bucket P leaf i hleaf hi, h,
    GetlevelFromPos_Path_bucket P leaf j hleaf hj]

end RingORAM

namespace RingORAM

/-! ## Buckets -/

theorem getD_set_false (l : List Bool) (k j : Nat) :
    (l.set k false).getD j false = if j = k then false else l.getD j false := by
  simp only [List.getD_eq_getElem?_getD, List.getElem?_set]
  by_cases h : k = j
  · subst h
    by_cases hk : k < l.length <;> simp [hk]
  · have h2 : ¬ j = k := fun e => h e.symm
    simp [h, h2]

theorem invalidate_valids_getD (b : bucket) (k j : Nat) :
    (invalidate b k).valids.getD j false = if j = k then false else b.valids.getD j false := by
  unfold invalidate
  simp only [getD_set_false]
  split_ifs <;> rfl

theorem invalidate_WF (P : Params) (b : bucket) (k : Nat) (h : b.WF P) :
    (invalidate b k).WF P := by
  obtain ⟨h1, h2, h3⟩ := h
  refine ⟨h1, ?_, h3⟩
  simp [invalidate, h2]

theorem slotEntry_invalidate (P : Params) (b : bucket) (k j : Nat) :
    slotEntry P (invalidate b k) j = if j = k then none else slotEntry P b j := by
  unfold slotEntry
  rw [invalidate_valids_getD]
  by_cases h : j = k
  · simp [h]
  · simp only [h, if_false]
    rfl

theorem filterMap_range_perm {α : Type} (f g : Nat → Option α) (n k : Nat) (hk : k < n)
    (hfg : ∀ j, j ≠ k → g j = f j) (hg : g k = none) :
    List.Perm ((List.range n).filterMap f) ((f k).toList ++ (List.range n).filterMap g) := by
  induction n with
  | zero => omega
  | succ n ih =>
    rw [List.range_succ, List.filterMap_append, List.filterMap_append]
    by_cases h : k = n
    · subst h
      have e : (List.range k).filterMap g = (List.range k).filterMap f := by
        apply List.filterMap_congr
        intro j hj
        exact hfg j (by simp at hj; omega)
      rw [e]
      simp only [List.filterMap_cons, List.filterMap_nil, hg]
      rw [List.append_nil]
      cases hf : f k with
      | none => simp
      | some a =>
        simp only [Option.toList]
        exact List.perm_append_comm
    · have hlt : k < n := by omega
      have e : [n].filterMap g = [n].filterMap f := by
        apply List.filterMap_congr
        intro j hj
        simp at hj
        exact hfg j (by omega)
      rw [e, ← List.append_assoc]
      exact List.Perm.append_right _ (ih hlt)

theorem countP_range_update (p q : Nat → Bool) (n k : Nat) (hk : k < n)
    (hpq : ∀ j, j ≠ k → q j = p j) (hq : q k = false) :
    (List.range n).countP p = (List.range n).countP q + (if p k then 1 else 0) := by
  induction n with
  | zero => omega
  | succ n ih =>
    rw [List.range_succ, List.countP_append, List.countP_append]
    by_cases h : k = n
    · subst h
      have e : (List.range k).countP q = (List.range k).countP p := by
        apply List.countP_congr
        intro j hj
        rw [hpq j (by simp at hj; omega)]
      rw [e]
      simp [List.countP_cons, hq]
    · have hlt : k < n := by omega
      have e : [n].countP q = [n].countP p := by
        apply List.countP_congr
        intro j hj
        simp at hj
        rw [hpq j (by omega)]
      rw [e, ih hlt]
      omega

/-- Invalidating a slot removes exactly the entry of that slot from the bucket's content. -/
theorem drain_invalidate (P : Params) (b : bucket) (k : Nat) (hk : k < P.maxblockEachbkt) :
    (drain P b : Multiset block) =
      ((slotEntry P b k).toList : Multiset block) + (drain P (invalidate b k) : Multiset block) := by
  rw [Multiset.coe_add, Multiset.coe_eq_coe]
  unfold drain
  apply filterMap_range_perm _ _ _ k hk
  · intro j hj
    rw [slotEntry_invalidate, if_neg hj]
  · rw [slotEntry_invalidate, if_pos rfl]

/-- Invalidating a slot uses up at most one unread dummy. -/
theorem validDummies_invalidate (P : Params) (b : bucket) (k : Nat)
    (hk : k < P.maxblockEachbkt) :
    validDummies P b =
      validDummies P (invalidate b k) +
        (if (b.ptrs.getD k 0 == -1 && b.valids.getD k false) = true then 1 else 0) := by
  unfold validDummies
  apply countP_range_update _ _ _ k hk
  · intro j hj
    rw [invalidate_valids_getD, if_neg hj]
    rfl
  · rw [invalidate_valids_getD, if_pos rfl]
    simp

end RingORAM

namespace RingORAM

/-! ## Slot selection and bucket draining -/

theorem WF_ptrs_getD (P : Params) (b : bucket) (h : b.WF P) (j : Nat)
    (hj : j < P.maxblockEachbkt) :
    b.ptrs.getD j 0 = (b.blocks.getD j dummyBlock).blockindex := by
  obtain ⟨h1, _, h3⟩ := h
  rw [h3]
  simp only [List.getD_eq_getElem?_getD, List.getElem?_map]
  have hj2 : j < b.blocks.length := by omega
  simp [List.getElem?_eq_getElem hj2]

/-- The slot `GetBlockOffset` returns is in range and still valid, and it holds either the
wanted index or a dummy (the latter only when no valid slot holds the wanted index). -/
theorem GetBlockOffset_some (P : Params) (b : bucket) (i : Int) (off : Nat)
    (h : GetBlockOffset P b i = some off) :
    off < P.maxblockEachbkt ∧ b.valids.getD off false = true ∧
      (b.ptrs.getD off 0 = i ∨
        (b.ptrs.getD off 0 = -1 ∧
          ∀ k, k < P.maxblockEachbkt → ¬ (b.ptrs.getD k 0 = i ∧ b.valids.getD k false = true))) := by
  unfold GetBlockOffset at h
  split at h
  · rename_i j hj
    have e : j = off := by simpa using h
    subst e
    have h1 := List.find?_some hj
    have h2 := List.mem_of_find?_eq_some hj
    simp only [Bool.and_eq_true, beq_iff_eq] at h1
    simp only [List.mem_range] at h2
    exact ⟨h2, h1.2, Or.inl h1.1⟩
  · rename_i hnone
    unfold GetDummyblockOffset at h
    have h1 := List.find?_some h
    have h2 := List.mem_of_find?_eq_some h
    simp only [Bool.and_eq_true, beq_iff_eq] at h1
    simp only [List.mem_range] at h2
    refine ⟨h2, h1.2, Or.inr ⟨h1.1, ?_⟩⟩
    intro k hk hc
    rw [List.find?_eq_none] at hnone
    have := hnone k (by simpa [Params.maxblockEachbkt] using hk)
    simp only [Bool.and_eq_true, beq_iff_eq] at this
    exact this hc

/-- The function `GetBlockOffset` finds a slot as long as an unread dummy is left. -/
theorem GetBlockOffset_isSome (P : Params) (b : bucket) (i : Int)
    (h : 1 ≤ validDummies P b) : ∃ off, GetBlockOffset P b i = some off := by
  unfold GetBlockOffset
  split
  · rename_i j _
    exact ⟨j, rfl⟩
  · unfold GetDummyblockOffset
    cases hf : (List.range P.maxblockEachbkt).find?
        (fun i => b.ptrs.getD i 0 == -1 && b.valids.getD i false) with
    | some off => exact ⟨off, rfl⟩
    | none =>
      exfalso
      rw [List.find?_eq_none] at hf
      unfold validDummies at h
      have : (List.range P.maxblockEachbkt).countP
          (fun i => b.ptrs.getD i 0 == -1 && b.valids.getD i false) = 0 := by
        rw [List.countP_eq_zero]
        exact hf
      omega

/-- A slot holding a real index contributes its decrypted block to the bucket's content. -/
theorem slotEntry_of_valid (P : Params) (b : bucket) (hb : b.WF P) (j : Nat)
    (hj : j < P.maxblockEachbkt) (hv : b.valids.getD j false = true)
    (hp : b.ptrs.getD j 0 ≠ -1) :
    slotEntry P b j = some ⟨(FindBlock b j).leaf_id, b.ptrs.getD j 0,
      decrypt_data P (FindBlock b j).data⟩ := by
  have hm := WF_ptrs_getD P b hb j hj
  unfold slotEntry FindBlock
  rw [if_pos]
  · rw [hm]
  · refine ⟨hp, hv, ?_⟩
    unfold block.IsDummy
    rw [← hm]
    simpa using hp

theorem slotEntry_of_dummy (P : Params) (b : bucket) (j : Nat)
    (hp : b.ptrs.getD j 0 = -1) : slotEntry P b j = none := by
  unfold slotEntry
  rw [if_neg]
  intro h
  exact h.1 hp

/-- Every entry of a bucket's content comes from a valid slot that holds its index. -/
theorem mem_drain (P : Params) (b : bucket) (hb : b.WF P) (e : block) (he : e ∈ drain P b) :
    ∃ j, j < P.maxblockEachbkt ∧ b.valids.getD j false = true ∧ b.ptrs.getD j 0 = e.blockindex ∧
      e.blockindex ≠ -1 ∧ slotEntry P b j = some e := by
  unfold drain at he
  rw [List.mem_filterMap] at he
  obtain ⟨j, hj, hs⟩ := he
  rw [List.mem_range] at hj
  refine ⟨j, hj, ?_⟩
  have hs2 := hs
  unfold slotEntry at hs
  split at hs
  · rename_i hc
    have hm := WF_ptrs_getD P b hb j hj
    have e2 : e = _ := (Option.some.inj hs).symm
    refine ⟨hc.2.1, ?_, ?_, hs2⟩
    · rw [e2, hm]
    · rw [e2]
      rw [← hm]; exact hc.1
  · exact absurd hs (by simp)

theorem mem_drain_of_slot (P : Params) (b : bucket) (j : Nat) (e : block)
    (hj : j < P.maxblockEachbkt) (hs : slotEntry P b j = some e) : e ∈ drain P b := by
  unfold drain
  rw [List.mem_filterMap]
  exact ⟨j, List.mem_range.mpr hj, hs⟩

theorem ReadBucket_step_eq (P : Params) (bkt : bucket) (stash : List block) (j : Nat) :
    ReadBucket.step P bkt stash j = stash ++ (slotEntry P bkt j).toList := by
  unfold ReadBucket.step slotEntry
  split_ifs <;> simp

theorem foldl_ReadBucket_step (P : Params) (bkt : bucket) (l : List Nat) (stash : List block) :
    l.foldl (ReadBucket.step P bkt) stash = stash ++ l.filterMap (slotEntry P bkt) := by
  induction l generalizing stash with
  | nil => simp
  | cons j l ih =>
    rw [List.foldl_cons, ih, ReadBucket_step_eq, List.filterMap_cons]
    cases slotEntry P bkt j <;> simp

/-- The procedure `ReadBucket` appends the content of the bucket to the stash and changes
nothing else. -/
theorem ReadBucket_eq (P : Params) (pos : Nat) (st : ringoram) :
    ReadBucket P pos st = { st with stash := st.stash ++ drain P (st.storage pos) } := by
  unfold ReadBucket drain
  simp only [foldl_ReadBucket_step]

end RingORAM

namespace RingORAM

/-! ## Writing a bucket -/

theorem map_getD_range {α β : Type} (l : List α) (d : α) (f : α → β) (n : Nat)
    (hn : l.length = n) : (List.range n).map (fun i => f (l.getD i d)) = l.map f := by
  subst hn
  apply List.ext_getElem
  · simp
  · intro i h1 h2
    simp only [List.getElem_map, List.getElem_range]
    have hi : i < l.length := by simpa using h2
    simp [List.getD_eq_getElem?_getD, List.getElem?_eq_getElem hi]

/-- What the first loop of `WriteBucket` does: it moves some entries that belong at the
position out of the stash (encrypted, in stash order), erases matching dummy entries, and
keeps every other entry. -/
theorem collect_spec (P : Params) (position level : Nat) (s acc : List block) :
    ∃ taken dropped : List block,
      (WriteBucket.collect P position level s acc).1 = acc ++ taken.map (encryptBlock P) ∧
      List.Perm s (taken ++ dropped ++ (WriteBucket.collect P position level s acc).2) ∧
      (∀ e ∈ taken, Path_bucket P e.leaf_id level = position ∧ e.IsDummy = false) ∧
      (∀ e ∈ dropped, e.IsDummy = true) ∧
      (WriteBucket.collect P position level s acc).1.length ≤ max acc.length P.realBlockEachbkt := by
  induction s generalizing acc with
  | nil =>
    refine ⟨[], [], ?_, ?_, ?_, ?_, ?_⟩ <;> simp [WriteBucket.collect]
  | cons it rest ih =>
    unfold WriteBucket.collect
    split_ifs with h1 h2 h3
    · obtain ⟨taken, dropped, e1, e2, e3, e4, e5⟩ := ih (acc ++ [encryptBlock P it])
      refine ⟨it :: taken, dropped, ?_, ?_, ?_, e4, ?_⟩
      · rw [show (⟨it.leaf_id, it.blockindex, encrypt_data P it.data⟩ : block) =
          encryptBlock P it from rfl, e1]
        simp
      · simpa using e2
      · intro e he
        rcases List.mem_cons.mp he with rfl | he
        · exact ⟨h2, h3⟩
        · exact e3 e he
      · rw [show (⟨it.leaf_id, it.blockindex, encrypt_data P it.data⟩ : block) =
          encryptBlock P it from rfl]
        refine le_trans e5 ?_
        simp only [List.length_append, List.length_singleton]
        omega
    · obtain ⟨taken, dropped, e1, e2, e3, e4, e5⟩ := ih acc
      refine ⟨taken, it :: dropped, e1, ?_, e3, ?_, e5⟩
      · have : List.Perm (it :: rest)
            (it :: (taken ++ dropped ++ (WriteBucket.collect P position level rest acc).2)) :=
          List.Perm.cons it e2
        refine this.trans ?_
        simp only [List.append_assoc]
        exact (List.perm_middle).symm
      · intro e he
        rcases List.mem_cons.mp he with rfl | he
        · simpa using h3
        · exact e4 e he
    · obtain ⟨taken, dropped, e1, e2, e3, e4, e5⟩ := ih acc
      refine ⟨taken, dropped, e1, ?_, e3, e4, e5⟩
      have : List.Perm (it :: rest)
          (it :: (taken ++ dropped ++ (WriteBucket.collect P position level rest acc).2)) :=
        List.Perm.cons it e2
      refine this.trans ?_
      exact (List.perm_middle).symm
    · refine ⟨[], [], ?_, ?_, ?_, ?_, ?_⟩ <;> simp

theorem WriteBucket_eq (P : Params) (shuffle : Shuffle) (position : Nat) (st : ringoram) :
    WriteBucket P shuffle position st =
      SetBucket position
        (freshBucket P (shuffle
          ((WriteBucket.collect P position (GetlevelFromPos position) st.stash []).1 ++
            List.replicate (P.realBlockEachbkt + P.dummyBlockEachbkt -
              (WriteBucket.collect P position (GetlevelFromPos position) st.stash []).1.length)
              dummyBlock)))
        { st with
          stash := (WriteBucket.collect P position (GetlevelFromPos position) st.stash []).2 } :=
  rfl

theorem freshBucket_WF (P : Params) (l : List block) (hl : l.length = P.maxblockEachbkt) :
    (freshBucket P l).WF P := by
  refine ⟨hl, by simp [freshBucket], ?_⟩
  exact map_getD_range l dummyBlock (fun blk => blk.blockindex) _ hl

theorem slotEntry_freshBucket (P : Params) (l : List block) (j : Nat)
    (hj : j < P.maxblockEachbkt) :
    slotEntry P (freshBucket P l) j = plainOf P (l.getD j dummyBlock) := by
  have hp : (freshBucket P l).ptrs.getD j 0 = (l.getD j dummyBlock).blockindex := by
    simp [freshBucket, List.getD_eq_getElem?_getD, List.getElem?_map, List.getElem?_range hj]
  have hv : (freshBucket P l).valids.getD j false = true := by
    simp [freshBucket, List.getD_eq_getElem?_getD, List.getElem?_replicate, hj]
  unfold slotEntry plainOf
  rw [hp, hv]
  simp only [freshBucket, block.IsDummy]
  by_cases h : (l.getD j dummyBlock).blockindex = -1
  · simp [h]
  · simp [h]

/-- The content of a freshly written bucket: the real blocks of its list, decrypted. -/
theorem drain_freshBucket (P : Params) (l : List block) (hl : l.length = P.maxblockEachbkt) :
    drain P (freshBucket P l) = l.filterMap (plainOf P) := by
  unfold drain
  have e : (List.range P.maxblockEachbkt).filterMap (slotEntry P (freshBucket P l)) =
      (List.range P.maxblockEachbkt).filterMap (fun j => plainOf P (l.getD j dummyBlock)) := by
    apply List.filterMap_congr
    intro j hj
    exact slotEntry_freshBucket P l j (List.mem_range.mp hj)
  rw [e]
  have := map_getD_range l dummyBlock id _ hl
  simp only [id, List.map_id] at this
  conv_rhs => rw [← this]
  rw [List.filterMap_map]
  rfl

theorem validDummies_freshBucket (P : Params) (l : List block)
    (hl : l.length = P.maxblockEachbkt) :
    validDummies P (freshBucket P l) = l.countP (fun blk => blk.blockindex == -1) := by
  unfold validDummies
  have e : (List.range P.maxblockEachbkt).countP
      (fun i => (freshBucket P l).ptrs.getD i 0 == -1 && (freshBucket P l).valids.getD i false) =
      (List.range P.maxblockEachbkt).countP
        (fun i => (fun blk : block => blk.blockindex == -1) (l.getD i dummyBlock)) := by
    apply List.countP_congr
    intro j hj
    have hj2 := List.mem_range.mp hj
    have hp : (freshBucket P l).ptrs.getD j 0 = (l.getD j dummyBlock).blockindex := by
      simp [freshBucket, List.getD_eq_getElem?_getD, List.getElem?_map, List.getElem?_range hj2]
    have hv : (freshBucket P l).valids.getD j false = true := by
      simp [freshBucket, List.getD_eq_getElem?_getD, List.getElem?_replicate, hj2]
    rw [hp, hv]
    simp
  rw [e]
  have := map_getD_range l dummyBlock id _ hl
  simp only [id, List.map_id] at this
  conv_rhs => rw [← this]
  rw [List.countP_map]
  rfl

theorem plainOf_encryptBlock (P : Params) (hc : CipherCorrect P) (e : block)
    (he : e.IsDummy = false) : plainOf P (encryptBlock P e) = some e := by
  unfold plainOf encryptBlock
  have : e.blockindex ≠ -1 := by simpa [block.IsDummy] using he
  simp only [this, ne_eq, not_false_eq_true, if_true]
  rw [hc e.data]

theorem filterMap_plainOf_taken (P : Params) (hc : CipherCorrect P) (taken : List block)
    (h : ∀ e ∈ taken, e.IsDummy = false) :
    (taken.map (encryptBlock P)).filterMap (plainOf P) = taken := by
  induction taken with
  | nil => rfl
  | cons e t ih =>
    rw [List.map_cons, List.filterMap_cons, plainOf_encryptBlock P hc e (h e (by simp))]
    simp only
    rw [ih (fun x hx => h x (by simp [hx]))]

theorem filterMap_plainOf_replicate (P : Params) (n : Nat) :
    (List.replicate n dummyBlock).filterMap (plainOf P) = [] := by
  induction n with
  | zero => rfl
  | succ n ih =>
    rw [List.replicate_succ, List.filterMap_cons]
    simp [plainOf, dummyBlock, ih]

end RingORAM

namespace RingORAM

/-- The bucket written by `WriteBucket`, in terms of the stash entries it takes. -/
theorem WriteBucket_blocks (P : Params) (shuffle : Shuffle) (hs : IsShuffle shuffle)
    (p : Nat) (st : ringoram) :
    ∃ (taken dropped : List block) (blocks : List block),
      (WriteBucket P shuffle p st).storage p = freshBucket P blocks ∧
      List.Perm blocks (taken.map (encryptBlock P) ++
        List.replicate (P.maxblockEachbkt - taken.length) dummyBlock) ∧
      taken.length ≤ P.realBlockEachbkt ∧
      List.Perm st.stash (taken ++ dropped ++ (WriteBucket P shuffle p st).stash) ∧
      (∀ e ∈ taken, Path_bucket P e.leaf_id (GetlevelFromPos p) = p ∧ e.IsDummy = false) ∧
      (∀ e ∈ dropped, e.IsDummy = true) := by
  obtain ⟨taken, dropped, e1, e2, e3, e4, e5⟩ :=
    collect_spec P p (GetlevelFromPos p) st.stash []
  rw [List.nil_append] at e1
  have hlen : taken.length ≤ P.realBlockEachbkt := by
    have := e5
    rw [e1] at this
    simpa using this
  refine ⟨taken, dropped, shuffle
    ((WriteBucket.collect P p (GetlevelFromPos p) st.stash []).1 ++
      List.replicate (P.realBlockEachbkt + P.dummyBlockEachbkt -
        (WriteBucket.collect P p (GetlevelFromPos p) st.stash []).1.length) dummyBlock),
    ?_, ?_, hlen, ?_, e3, e4⟩
  · rw [WriteBucket_eq]
    simp only [SetBucket, Function.update_same]
  · refine (hs _).trans ?_
    rw [e1]
    simp [Params.maxblockEachbkt]
  · rw [WriteBucket_eq]
    exact e2

theorem WriteBucket_other (P : Params) (shuffle : Shuffle) (p q : Nat) (st : ringoram)
    (h : q ≠ p) : (WriteBucket P shuffle p st).storage q = st.storage q := by
  rw [WriteBucket_eq]
  simp only [SetBucket, Function.update_noteq h]

theorem WriteBucket_fields (P : Params) (shuffle : Shuffle) (p : Nat) (st : ringoram) :
    (WriteBucket P shuffle p st).positionmap = st.positionmap ∧
      (WriteBucket P shuffle p st).round = st.round ∧ (WriteBucket P shuffle p st).G = st.G :=
  ⟨rfl, rfl, rfl⟩

theorem length_padded (P : Params) (taken : List block) (h : taken.length ≤ P.realBlockEachbkt) :
    (taken.map (encryptBlock P) ++
      List.replicate (P.maxblockEachbkt - taken.length) dummyBlock).length = P.maxblockEachbkt := by
  simp only [List.length_append, List.length_map, List.length_replicate, Params.maxblockEachbkt]
  omega

/-- Summary of `WriteBucket` on a stash without dummy entries: the new bucket is well formed,
has count zero and at least `S` unread dummies, and its content is exactly what left the
stash. -/
theorem WriteBucket_spec (P : Params) (hc : CipherCorrect P) (shuffle : Shuffle)
    (hs : IsShuffle shuffle) (p : Nat) (st : ringoram)
    (hnd : ∀ e ∈ st.stash, e.IsDummy = false) :
    ∃ taken : List block,
      List.Perm st.stash (taken ++ (WriteBucket P shuffle p st).stash) ∧
      List.Perm (drain P ((WriteBucket P shuffle p st).storage p)) taken ∧
      (∀ e ∈ taken, Path_bucket P e.leaf_id (GetlevelFromPos p) = p) ∧
      ((WriteBucket P shuffle p st).storage p).WF P ∧
      P.dummyBlockEachbkt ≤ validDummies P ((WriteBucket P shuffle p st).storage p) ∧
      ((WriteBucket P shuffle p st).storage p).count = 0 := by
  obtain ⟨taken, dropped, blocks, e1, e2, e3, e4, e5, e6⟩ := WriteBucket_blocks P shuffle hs p st
  have hd : dropped = [] := by
    cases dropped with
    | nil => rfl
    | cons d ds =>
      exfalso
      have hm : d ∈ st.stash := e4.mem_iff.mpr (by simp)
      have := hnd d hm
      rw [e6 d (by simp)] at this
      exact absurd this (by simp)
  subst hd
  rw [List.append_nil] at e4
  have hlen : blocks.length = P.maxblockEachbkt := by
    rw [e2.length_eq]
    exact length_padded P taken e3
  refine ⟨taken, e4, ?_, fun e he => (e5 e he).1, ?_, ?_, ?_⟩
  · rw [e1, drain_freshBucket P blocks hlen]
    refine (e2.filterMap (plainOf P)).trans ?_
    rw [List.filterMap_append, filterMap_plainOf_replicate, List.append_nil,
      filterMap_plainOf_taken P hc taken (fun e he => (e5 e he).2)]
  · rw [e1]
    exact freshBucket_WF P blocks hlen
  · rw [e1, validDummies_freshBucket P blocks hlen, e2.countP_eq, List.countP_append]
    have : (List.replicate (P.maxblockEachbkt - taken.length) dummyBlock).countP
        (fun blk => blk.blockindex == -1) = P.maxblockEachbkt - taken.length := by
      rw [List.countP_replicate]
      simp [dummyBlock]
    rw [this]
    unfold Params.maxblockEachbkt
    omega
  · rw [e1]
    rfl

end RingORAM

namespace RingORAM

/-! ## Reading a path -/

/-- One iteration of `ReadPath` on a bucket with an unread dummy left: the selected slot is
invalidated and the bucket's count grows (twice, by the two increments of the source). -/
theorem ReadPath_step_struct (P : Params) (leaf i : Int) (acc : block × ringoram) (k : Nat)
    (hvd : 1 ≤ validDummies P (acc.2.storage (Path_bucket P leaf k))) :
    ∃ off, GetBlockOffset P (acc.2.storage (Path_bucket P leaf k)) i = some off ∧
      off < P.maxblockEachbkt ∧
      (acc.2.storage (Path_bucket P leaf k)).valids.getD off false = true ∧
      ReadPath.step P leaf i acc k =
        some (if (FindBlock (acc.2.storage (Path_bucket P leaf k)) off).blockindex = i
            then FindBlock (acc.2.storage (Path_bucket P leaf k)) off else acc.1,
          SetBucket (Path_bucket P leaf k)
            (invalidate (acc.2.storage (Path_bucket P leaf k)) off) acc.2) := by
  obtain ⟨off, hoff⟩ := GetBlockOffset_isSome P (acc.2.storage (Path_bucket P leaf k)) i hvd
  obtain ⟨h1, h2, _⟩ := GetBlockOffset_some P _ i off hoff
  refine ⟨off, hoff, h1, h2, ?_⟩
  unfold ReadPath.step
  simp only [hoff, h1, if_true]
  rfl

/-- The loop of `ReadPath` over pairwise different levels of the tree: it returns, keeps the
stash, the position map and the counters, leaves the buckets off the visited levels alone,
and invalidates in each visited bucket the slot `GetBlockOffset` selects. -/
theorem ReadPath_loop_struct (P : Params) (leaf i : Int) (hleaf : ValidLeaf P leaf)
    (ks : List Nat) (hnd : ks.Nodup) (hks : ∀ k ∈ ks, k ≤ P.L) (acc : block × ringoram)
    (hvd : ∀ k ∈ ks, 1 ≤ validDummies P (acc.2.storage (Path_bucket P leaf k))) :
    ∃ blk st2, ReadPath.loop P leaf i ks acc = some (blk, st2) ∧
      st2.stash = acc.2.stash ∧ st2.positionmap = acc.2.positionmap ∧
      st2.round = acc.2.round ∧ st2.G = acc.2.G ∧
      (∀ p, (∀ k ∈ ks, p ≠ Path_bucket P leaf k) → st2.storage p = acc.2.storage p) ∧
      (∀ k ∈ ks, ∃ off, GetBlockOffset P (acc.2.storage (Path_bucket P leaf k)) i = some off ∧
        off < P.maxblockEachbkt ∧
        (acc.2.storage (Path_bucket P leaf k)).valids.getD off false = true ∧
        st2.storage (Path_bucket P leaf k) =
          invalidate (acc.2.storage (Path_bucket P leaf k)) off) := by
  induction ks generalizing acc with
  | nil =>
    exact ⟨acc.1, acc.2, rfl, rfl, rfl, rfl, rfl, fun _ _ => rfl, fun k hk => absurd hk (by simp)⟩
  | cons k0 rest ih =>
    obtain ⟨off, hoff, hlt, hval, hstep⟩ :=
      ReadPath_step_struct P leaf i acc k0 (hvd k0 (by simp))
    have hnd2 : rest.Nodup := (List.nodup_cons.mp hnd).2
    have hk0 : k0 ∉ rest := (List.nodup_cons.mp hnd).1
    have hne : ∀ k ∈ rest, Path_bucket P leaf k ≠ Path_bucket P leaf k0 := by
      intro k hk e
      have := Path_bucket_inj P leaf k k0 hleaf (hks k (by simp [hk])) (hks k0 (by simp)) e
      exact hk0 (this ▸ hk)
    set acc1 : block × ringoram :=
      (if (FindBlock (acc.2.storage (Path_bucket P leaf k0)) off).blockindex = i
          then FindBlock (acc.2.storage (Path_bucket P leaf k0)) off else acc.1,
        SetBucket (Path_bucket P leaf k0)
          (invalidate (acc.2.storage (Path_bucket P leaf k0)) off) acc.2) with hacc1
    have hsame : ∀ k ∈ rest, acc1.2.storage (Path_bucket P leaf k) =
        acc.2.storage (Path_bucket P leaf k) := by
      intro k hk
      simp only [hacc1, SetBucket, Function.update_noteq (hne k hk)]
    obtain ⟨blk, st2, e1, e2, e3, e4, e5, e6, e7⟩ := ih hnd2
      (fun k hk => hks k (by simp [hk])) acc1
      (fun k hk => by rw [hsame k hk]; exact hvd k (by simp [hk]))
    refine ⟨blk, st2, ?_, e2, e3, e4, e5, ?_, ?_⟩
    · unfold ReadPath.loop
      rw [hstep]
      exact e1
    · intro p hp
      rw [e6 p (fun k hk => hp k (by simp [hk]))]
      simp only [hacc1, SetBucket, Function.update_noteq (hp k0 (by simp))]
    · intro k hk
      rcases List.mem_cons.mp hk with rfl | hk
      · refine ⟨off, hoff, hlt, hval, ?_⟩
        rw [e6 _ (fun k' hk' => (hne k' hk').symm)]
        simp only [hacc1, SetBucket, Function.update_same]
      · obtain ⟨off2, f1, f2, f3, f4⟩ := e7 k hk
        rw [hsame k hk] at f1 f3 f4
        exact ⟨off2, f1, f2, f3, f4⟩

end RingORAM

namespace RingORAM

theorem heldIn_update (P : Params) (storage : Nat → bucket) (U : Finset Nat) (p : Nat)
    (b : bucket) (X : Multiset block) (hp : p ∈ U)
    (h : (drain P (storage p) : Multiset block) = X + (drain P b : Multiset block)) :
    heldIn P storage U = X + heldIn P (Function.update storage p b) U := by
  unfold heldIn
  rw [← Finset.add_sum_erase U _ hp, ← Finset.add_sum_erase U _ hp, Function.update_same, h,
    add_assoc]
  congr 2
  apply Finset.sum_congr rfl
  intro q hq
  rw [Function.update_noteq (Finset.ne_of_mem_erase hq)]

theorem mem_heldIn (P : Params) (storage : Nat → bucket) (U : Finset Nat) (e : block) :
    e ∈ heldIn P storage U ↔ ∃ p ∈ U, e ∈ drain P (storage p) := by
  unfold heldIn
  rw [Multiset.mem_sum]
  simp

/-- What the selected slot holds when a real index is looked up: either the wanted block, or a
dummy, and then the bucket does not hold the wanted index at all. -/
theorem GetBlockOffset_sem (P : Params) (b : bucket) (i : Int) (off : Nat) (hb : b.WF P)
    (hi : i ≠ -1) (hoff : GetBlockOffset P b i = some off) :
    (slotEntry P b off =
        some ⟨(FindBlock b off).leaf_id, i, decrypt_data P (FindBlock b off).data⟩ ∧
      (FindBlock b off).blockindex = i) ∨
    (slotEntry P b off = none ∧ (FindBlock b off).blockindex ≠ i ∧
      ∀ e ∈ drain P b, e.blockindex ≠ i) := by
  obtain ⟨h1, h2, h3⟩ := GetBlockOffset_some P b i off hoff
  have hm := WF_ptrs_getD P b hb off h1
  rcases h3 with h3 | ⟨h3, h4⟩
  · left
    constructor
    · rw [slotEntry_of_valid P b hb off h1 h2 (by rw [h3]; exact hi), h3]
    · unfold FindBlock
      rw [← hm, h3]
  · right
    refine ⟨slotEntry_of_dummy P b off h3, ?_, ?_⟩
    · unfold FindBlock
      rw [← hm, h3]
      exact fun e => hi e.symm
    · intro e he hei
      obtain ⟨j, hj, hv, hp, _, _⟩ := mem_drain P b hb e he
      exact h4 j hj ⟨by rw [hp, hei], hv⟩

/-- The loop of `ReadPath` looking for a real index `i` of which the buckets hold at most one
copy: the copies it meets are removed from the buckets, the block it returns is the copy it
met (still encrypted), and afterwards no visited bucket holds `i`. -/
theorem ReadPath_loop_sem (P : Params) (leaf i : Int) (hleaf : ValidLeaf P leaf) (hi : i ≠ -1)
    (U : Finset Nat) (ks : List Nat) (hnd : ks.Nodup) (hks : ∀ k ∈ ks, k ≤ P.L)
    (hU : ∀ k ∈ ks, Path_bucket P leaf k ∈ U) (acc : block × ringoram)
    (hwf : ∀ p, (acc.2.storage p).WF P)
    (hvd : ∀ k ∈ ks, 1 ≤ validDummies P (acc.2.storage (Path_bucket P leaf k)))
    (hone : (heldIn P acc.2.storage U).countP (fun e => e.blockindex = i) ≤ 1) :
    ∃ blk st2 R, ReadPath.loop P leaf i ks acc = some (blk, st2) ∧
      heldIn P acc.2.storage U = R + heldIn P st2.storage U ∧
      (∀ e ∈ R, e.blockindex = i ∧ blk.blockindex = i ∧ decrypt_data P blk.data = e.data) ∧
      (R = 0 → blk = acc.1) ∧
      (∀ k ∈ ks, ∀ e ∈ drain P (st2.storage (Path_bucket P leaf k)), e.blockindex ≠ i) := by
  induction ks generalizing acc with
  | nil =>
    refine ⟨acc.1, acc.2, 0, rfl, by simp, by simp, fun _ => rfl, by simp⟩
  | cons k0 rest ih =>
    obtain ⟨off, hoff, hlt, hval, hstep⟩ :=
      ReadPath_step_struct P leaf i acc k0 (hvd k0 (by simp))
    have hnd2 : rest.Nodup := (List.nodup_cons.mp hnd).2
    have hk0 : k0 ∉ rest := (List.nodup_cons.mp hnd).1
    have hne : ∀ k ∈ rest, Path_bucket P leaf k ≠ Path_bucket P leaf k0 := by
      intro k hk e
      have := Path_bucket_inj P leaf k k0 hleaf (hks k (by simp [hk])) (hks k0 (by simp)) e
      exact hk0 (this ▸ hk)
    obtain ⟨b0, hb0⟩ : ∃ b, b = acc.2.storage (Path_bucket P leaf k0) := ⟨_, rfl⟩
    rw [← hb0] at hoff hval hstep
    obtain ⟨acc1, hacc1⟩ : ∃ a : block × ringoram, a =
        (if (FindBlock b0 off).blockindex = i then FindBlock b0 off else acc.1,
          SetBucket (Path_bucket P leaf k0) (invalidate b0 off) acc.2) := ⟨_, rfl⟩
    rw [← hacc1] at hstep
    have hst1 : acc1.2.storage = Function.update acc.2.storage (Path_bucket P leaf k0)
        (invalidate b0 off) := by rw [hacc1]; rfl
    have hsame : ∀ k ∈ rest, acc1.2.storage (Path_bucket P leaf k) =
        acc.2.storage (Path_bucket P leaf k) := by
      intro k hk
      rw [hst1, Function.update_noteq (hne k hk)]
    have hwf1 : ∀ p, (acc1.2.storage p).WF P := by
      intro p
      rw [hst1]
      by_cases hp : p = Path_bucket P leaf k0
      · subst hp
        rw [Function.update_same]
        exact invalidate_WF P _ off (hb0 ▸ hwf _)
      · rw [Function.update_noteq hp]
        exact hwf p
    have hvd1 : ∀ k ∈ rest, 1 ≤ validDummies P (acc1.2.storage (Path_bucket P leaf k)) :=
      fun k hk => by rw [hsame k hk]; exact hvd k (by simp [hk])
    have hupd := heldIn_update P acc.2.storage U (Path_bucket P leaf k0) (invalidate b0 off)
      ((slotEntry P b0 off).toList : Multiset block) (hU k0 (by simp))
      (by rw [← hb0]; exact drain_invalidate P b0 off hlt)
    rw [← hst1] at hupd
    obtain ⟨blk', st', f1, _, _, _, _, f6, _⟩ := ReadPath_loop_struct P leaf i hleaf rest hnd2
      (fun k hk => hks k (by simp [hk])) acc1 hvd1
    have hloop : ReadPath.loop P leaf i (k0 :: rest) acc = ReadPath.loop P leaf i rest acc1 := by
      conv_lhs => unfold ReadPath.loop
      rw [hstep]
    rcases GetBlockOffset_sem P b0 i off (hb0 ▸ hwf _) hi hoff with ⟨hs, hf⟩ | ⟨hs, hf, hno⟩
    · -- the wanted block is in this bucket
      rw [hs] at hupd
      have hone1 : (heldIn P acc1.2.storage U).countP (fun e => e.blockindex = i) = 0 := by
        rw [hupd, Multiset.countP_add] at hone
        have h1 : Multiset.countP (fun e : block => e.blockindex = i)
            (((some (⟨(FindBlock b0 off).leaf_id, i,
              decrypt_data P (FindBlock b0 off).data⟩ : block)).toList : List block) :
              Multiset block) = 1 := by
          rw [Multiset.coe_countP]
          simp [Option.toList, List.countP_cons]
        rw [h1] at hone
        omega
      obtain ⟨blk, st2, R, e1, e2, e3, e4, e5⟩ := ih hnd2 (fun k hk => hks k (by simp [hk]))
        (fun k hk => hU k (by simp [hk])) acc1 hwf1 hvd1 (by omega)
      have hR : R = 0 := by
        rw [Multiset.eq_zero_iff_forall_not_mem]
        intro e he
        have hmem : e ∈ heldIn P acc1.2.storage U := by
          rw [e2]; exact Multiset.mem_add.mpr (Or.inl he)
        rw [Multiset.countP_eq_zero] at hone1
        exact hone1 e hmem (e3 e he).1
      have hblk : blk = FindBlock b0 off := by
        rw [e4 hR, hacc1]
        simp only [hf, if_true]
      refine ⟨blk, st2, (([(⟨(FindBlock b0 off).leaf_id, i,
        decrypt_data P (FindBlock b0 off).data⟩ : block)] : List block) : Multiset block),
        ?_, ?_, ?_, ?_, ?_⟩
      · rw [hloop]; exact e1
      · rw [hupd, e2, hR, zero_add]
        rfl
      · intro e he
        have : e = ⟨(FindBlock b0 off).leaf_id, i, decrypt_data P (FindBlock b0 off).data⟩ := by
          simpa using he
        subst this
        exact ⟨rfl, by rw [hblk]; exact hf, by rw [hblk]⟩
      · intro h0
        exact absurd h0 (by simp)
      · intro k hk e he hei
        have hmem : e ∈ heldIn P st2.storage U :=
          (mem_heldIn P _ U e).mpr ⟨_, hU k hk, he⟩
        have hmem1 : e ∈ heldIn P acc1.2.storage U := by
          rw [e2]; exact Multiset.mem_add.mpr (Or.inr hmem)
        rw [Multiset.countP_eq_zero] at hone1
        exact hone1 e hmem1 hei
    · -- a dummy slot is read
      rw [hs] at hupd
      simp only [Option.toList, Multiset.coe_nil, zero_add] at hupd
      obtain ⟨blk, st2, R, e1, e2, e3, e4, e5⟩ := ih hnd2 (fun k hk => hks k (by simp [hk]))
        (fun k hk => hU k (by simp [hk])) acc1 hwf1 hvd1 (by rw [← hupd]; exact hone)
      have hst : st2 = st' := by
        rw [f1] at e1
        exact ((Prod.mk.inj (Option.some.inj e1)).2).symm
      refine ⟨blk, st2, R, ?_, ?_, e3, ?_, ?_⟩
      · rw [hloop]; exact e1
      · rw [hupd]; exact e2
      · intro h0
        rw [e4 h0, hacc1]
        simp only [hf, if_false]
      · intro k hk e he
        rcases List.mem_cons.mp hk with rfl | hk
        · rw [hst, f6 _ (fun k' hk' => (hne k' hk').symm), hst1, Function.update_same] at he
          have hd := drain_invalidate P b0 off hlt
          rw [hs] at hd
          simp only [Option.toList, Multiset.coe_nil, zero_add] at hd
          have he2 : e ∈ (drain P (invalidate b0 off) : Multiset block) := Multiset.mem_coe.mpr he
          rw [← hd] at he2
          exact hno e (Multiset.mem_coe.mp he2)
        · exact e5 k hk e he

end RingORAM

namespace RingORAM

/-- Summary of `ReadPath` on a valid leaf, for a real index `i` of which the buckets hold at
most one copy, placed on the path of `leaf` if at all. -/
theorem ReadPath_spec (P : Params) (leaf i : Int) (hleaf : ValidLeaf P leaf) (hi : i ≠ -1)
    (U : Finset Nat) (st : ringoram) (hU : ∀ k, k ≤ P.L → Path_bucket P leaf k ∈ U)
    (hwf : ∀ p, (st.storage p).WF P) (hvd : ∀ p, 1 ≤ validDummies P (st.storage p))
    (hone : (heldIn P st.storage U).countP (fun e => e.blockindex = i) ≤ 1)
    (hplace : ∀ p ∈ U, ∀ e ∈ drain P (st.storage p), e.blockindex = i →
      ∃ k, k ≤ P.L ∧ p = Path_bucket P leaf k) :
    ∃ blk st2, ReadPath P leaf i st = some (blk, st2) ∧
      st2.stash = st.stash ∧ st2.positionmap = st.positionmap ∧
      st2.round = st.round ∧ st2.G = st.G ∧
      (∀ p, (st2.storage p).WF P) ∧
      (∀ p, (∀ k, k ≤ P.L → p ≠ Path_bucket P leaf k) → st2.storage p = st.storage p) ∧
      (∀ k, k ≤ P.L → ∃ off, GetBlockOffset P (st.storage (Path_bucket P leaf k)) i = some off ∧
        off < P.maxblockEachbkt ∧
        (st.storage (Path_bucket P leaf k)).valids.getD off false = true ∧
        st2.storage (Path_bucket P leaf k) = invalidate (st.storage (Path_bucket P leaf k)) off) ∧
      heldIn P st2.storage U = (heldIn P st.storage U).filter (fun e => e.blockindex ≠ i) ∧
      (∀ e ∈ heldIn P st.storage U, e.blockindex = i →
        blk.blockindex = i ∧ decrypt_data P blk.data = e.data) ∧
      ((∀ e ∈ heldIn P st.storage U, e.blockindex ≠ i) → blk = dummyBlock) := by
  have hmem : ∀ k, k ∈ List.range (P.L + 1) ↔ k ≤ P.L := by
    intro k; rw [List.mem_range]; omega
  obtain ⟨blk, st2, f1, f2, f3, f4, f5, f6, f7⟩ := ReadPath_loop_struct P leaf i hleaf
    (List.range (P.L + 1)) (List.nodup_range _) (fun k hk => (hmem k).mp hk) (dummyBlock, st)
    (fun k _ => hvd _)
  obtain ⟨blk', st2', R, e1, e2, e3, e4, e5⟩ := ReadPath_loop_sem P leaf i hleaf hi U
    (List.range (P.L + 1)) (List.nodup_range _) (fun k hk => (hmem k).mp hk)
    (fun k hk => hU k ((hmem k).mp hk)) (dummyBlock, st) hwf (fun k _ => hvd _) hone
  rw [f1] at e1
  obtain ⟨rfl, rfl⟩ := Prod.mk.inj (Option.some.inj e1)
  simp only at f2 f3 f4 f5 f6 f7 e2 e4
  have hnone : ∀ e ∈ heldIn P st2.storage U, e.blockindex ≠ i := by
    intro e he hei
    obtain ⟨p, hp, hep⟩ := (mem_heldIn P _ U e).mp he
    by_cases hpath : ∃ k, k ≤ P.L ∧ p = Path_bucket P leaf k
    · obtain ⟨k, hk, rfl⟩ := hpath
      exact e5 k ((hmem k).mpr hk) e hep hei
    · push_neg at hpath
      rw [f6 p (fun k hk => hpath k ((hmem k).mp hk))] at hep
      obtain ⟨k, hk, hpk⟩ := hplace p hp e hep hei
      exact hpath k hk hpk
  refine ⟨blk, st2, f1, f2, f3, f4, f5, ?_, ?_, ?_, ?_, ?_, ?_⟩
  · intro p
    by_cases hpath : ∃ k, k ≤ P.L ∧ p = Path_bucket P leaf k
    · obtain ⟨k, hk, rfl⟩ := hpath
      obtain ⟨off, _, _, _, h4⟩ := f7 k ((hmem k).mpr hk)
      rw [h4]
      exact invalidate_WF P _ off (hwf _)
    · push_neg at hpath
      rw [f6 p (fun k hk => hpath k ((hmem k).mp hk))]
      exact hwf p
  · intro p hp
    exact f6 p (fun k hk => hp k ((hmem k).mp hk))
  · intro k hk
    exact f7 k ((hmem k).mpr hk)
  · rw [e2, Multiset.filter_add]
    have h1 : R.filter (fun e => e.blockindex ≠ i) = 0 := by
      rw [Multiset.filter_eq_nil]
      intro e he
      simpa using (e3 e he).1
    have h2 : (heldIn P st2.storage U).filter (fun e => e.blockindex ≠ i) =
        heldIn P st2.storage U := by
      rw [Multiset.filter_eq_self]
      exact hnone
    rw [h1, h2, zero_add]
  · intro e he hei
    rw [e2] at he
    rcases Multiset.mem_add.mp he with h | h
    · exact (e3 e h).2
    · exact absurd hei (hnone e h)
  · intro hno
    apply e4
    rw [Multiset.eq_zero_iff_forall_not_mem]
    intro e he
    have : e ∈ heldIn P st.storage U := by
      rw [e2]; exact Multiset.mem_add.mpr (Or.inl he)
    exact hno e this (e3 e he).1

end RingORAM

namespace RingORAM

/-! ## The invariant across `ReadBucket` and `WriteBucket` -/

theorem ReadBucket_view (P : Params) (p : Nat) (st : ringoram) (U : Finset Nat) (hp : p ∈ U) :
    view P (ReadBucket P p st) (U.erase p) = view P st U := by
  rw [ReadBucket_eq]
  unfold view heldIn
  simp only
  rw [← Multiset.coe_add, add_assoc,
    Finset.add_sum_erase U (fun q => (drain P (st.storage q) : Multiset block)) hp]

theorem ReadBucket_Inv (P : Params) (p : Nat) (st : ringoram) (U : Finset Nat) (hp : p ∈ U)
    (h : Inv P st U) : Inv P (ReadBucket P p st) (U.erase p) := by
  have hv := ReadBucket_view P p st U hp
  have hs : (ReadBucket P p st).storage = st.storage := by rw [ReadBucket_eq]
  have hpm : (ReadBucket P p st).positionmap = st.positionmap := by rw [ReadBucket_eq]
  constructor
  · intro q; rw [hs]; exact h.wf q
  · rw [hv]; exact h.idx
  · rw [hv, hpm]; exact h.leaf
  · intro q hq e he
    rw [hs] at he
    exact h.place q (Finset.mem_of_mem_erase hq) e he
  · rw [hv]; exact h.nodup
  · rw [hpm]; exact h.pm

theorem stash_not_dummy (P : Params) (st : ringoram) (U : Finset Nat) (h : Inv P st U) :
    ∀ e ∈ st.stash, e.IsDummy = false := by
  intro e he
  have hm : e ∈ view P st U := by
    unfold view
    exact Multiset.mem_add.mpr (Or.inl (Multiset.mem_coe.mpr he))
  have := (h.idx e hm).1
  unfold block.IsDummy
  simp only [beq_eq_false_iff_ne, ne_eq]
  omega

theorem WriteBucket_view (P : Params) (hc : CipherCorrect P) (shuffle : Shuffle)
    (hs : IsShuffle shuffle) (p : Nat) (st : ringoram) (U : Finset Nat) (hp : p ∉ U)
    (hnd : ∀ e ∈ st.stash, e.IsDummy = false) :
    view P (WriteBucket P shuffle p st) (insert p U) = view P st U := by
  obtain ⟨taken, e1, e2, _, _, _, _⟩ := WriteBucket_spec P hc shuffle hs p st hnd
  unfold view heldIn
  rw [Finset.sum_insert hp]
  have h1 : ∑ q ∈ U, (drain P ((WriteBucket P shuffle p st).storage q) : Multiset block) =
      ∑ q ∈ U, (drain P (st.storage q) : Multiset block) := by
    apply Finset.sum_congr rfl
    intro q hq
    rw [WriteBucket_other P shuffle p q st (fun e => hp (e ▸ hq))]
  rw [h1, ← add_assoc]
  congr 1
  rw [Multiset.coe_eq_coe.mpr e2, Multiset.coe_eq_coe.mpr e1, Multiset.coe_add,
    Multiset.coe_eq_coe]
  exact List.perm_append_comm

theorem WriteBucket_Inv (P : Params) (hc : CipherCorrect P) (shuffle : Shuffle)
    (hs : IsShuffle shuffle) (p : Nat) (st : ringoram) (U : Finset Nat) (hp : p ∉ U)
    (h : Inv P st U) : Inv P (WriteBucket P shuffle p st) (insert p U) := by
  have hnd := stash_not_dummy P st U h
  have hv := WriteBucket_view P hc shuffle hs p st U hp hnd
  obtain ⟨taken, e1, e2, e3, e4, _, _⟩ := WriteBucket_spec P hc shuffle hs p st hnd
  have hpm : (WriteBucket P shuffle p st).positionmap = st.positionmap := rfl
  constructor
  · intro q
    by_cases hq : q = p
    · subst hq; exact e4
    · rw [WriteBucket_other P shuffle p q st hq]; exact h.wf q
  · rw [hv]; exact h.idx
  · rw [hv, hpm]; exact h.leaf
  · intro q hq e he
    by_cases hqp : q = p
    · subst hqp
      exact e3 e (e2.mem_iff.mp he)
    · rw [WriteBucket_other P shuffle p q st hqp] at he
      rcases Finset.mem_insert.mp hq with h1 | h1
      · exact absurd h1 hqp
      · exact h.place q h1 e he
  · rw [hv]; exact h.nodup
  · rw [hpm]; exact h.pm

theorem resetCount_WriteBucket (P : Params) (shuffle : Shuffle) (p : Nat) (st : ringoram) :
    resetCount p (WriteBucket P shuffle p st) = WriteBucket P shuffle p st := by
  rw [WriteBucket_eq]
  unfold resetCount SetBucket
  simp only [Function.update_same, Function.update_idem]
  rfl

theorem WriteBucket_Dum (P : Params) (shuffle : Shuffle) (hs : IsShuffle shuffle) (p : Nat)
    (st : ringoram) (h : Dum P st) : Dum P (WriteBucket P shuffle p st) := by
  intro q
  by_cases hq : q = p
  · subst hq
    obtain ⟨taken, dropped, blocks, e1, e2, e3, _, e5, _⟩ := WriteBucket_blocks P shuffle hs q st
    have hlen : blocks.length = P.maxblockEachbkt := by
      rw [e2.length_eq]; exact length_padded P taken e3
    rw [e1, validDummies_freshBucket P blocks hlen, e2.countP_eq, List.countP_append]
    have : (List.replicate (P.maxblockEachbkt - taken.length) dummyBlock).countP
        (fun blk => blk.blockindex == -1) = P.maxblockEachbkt - taken.length := by
      rw [List.countP_replicate]
      simp [dummyBlock]
    rw [this]
    unfold Params.maxblockEachbkt
    simp only [freshBucket]
    omega
  · rw [WriteBucket_other P shuffle p q st hq]; exact h q

theorem WriteBucket_count (P : Params) (shuffle : Shuffle) (p : Nat) (st : ringoram) :
    ((WriteBucket P shuffle p st).storage p).count = 0 := by
  rw [WriteBucket_eq]
  simp [SetBucket, freshBucket]

theorem ReadBucket_storage (P : Params) (p : Nat) (st : ringoram) :
    (ReadBucket P p st).storage = st.storage := by rw [ReadBucket_eq]

end RingORAM

namespace RingORAM

/-! ## Eviction and early reshuffle -/

theorem Path_bucket_ne (P : Params) (l : Int) (hl : ValidLeaf P l) (k0 : Nat) (rest : List Nat)
    (hnd : (k0 :: rest).Nodup) (hks : ∀ k ∈ k0 :: rest, k ≤ P.L) :
    ∀ k ∈ rest, Path_bucket P l k ≠ Path_bucket P l k0 := by
  intro k hk e
  have := Path_bucket_inj P l k k0 hl (hks k (by simp [hk])) (hks k0 (by simp)) e
  exact (List.nodup_cons.mp hnd).1 (this ▸ hk)

/-- The first loop of `EvictPath`: the buckets of the path are drained into the stash. -/
theorem foldl_ReadBucket_spec (P : Params) (l : Int) (hl : ValidLeaf P l) (ks : List Nat)
    (hnd : ks.Nodup) (hks : ∀ k ∈ ks, k ≤ P.L) (U : Finset Nat) (st : ringoram)
    (hU : ∀ k ∈ ks, Path_bucket P l k ∈ U) (h : Inv P st U) :
    Inv P (ks.foldl (fun s i => ReadBucket P (Path_bucket P l i) s) st)
        (U \ (ks.map (Path_bucket P l)).toFinset) ∧
      view P (ks.foldl (fun s i => ReadBucket P (Path_bucket P l i) s) st)
        (U \ (ks.map (Path_bucket P l)).toFinset) = view P st U ∧
      (ks.foldl (fun s i => ReadBucket P (Path_bucket P l i) s) st).storage = st.storage ∧
      (ks.foldl (fun s i => ReadBucket P (Path_bucket P l i) s) st).positionmap =
        st.positionmap ∧
      (ks.foldl (fun s i => ReadBucket P (Path_bucket P l i) s) st).round = st.round ∧
      (ks.foldl (fun s i => ReadBucket P (Path_bucket P l i) s) st).G = st.G := by
  induction ks generalizing st U with
  | nil => simpa using h
  | cons k0 rest ih =>
    have hne := Path_bucket_ne P l hl k0 rest hnd hks
    have h1 := ReadBucket_Inv P (Path_bucket P l k0) st U (hU k0 (by simp)) h
    have hv1 := ReadBucket_view P (Path_bucket P l k0) st U (hU k0 (by simp))
    obtain ⟨e1, e2, e3, e4, e5, e6⟩ := ih (List.nodup_cons.mp hnd).2
      (fun k hk => hks k (by simp [hk])) (U.erase (Path_bucket P l k0))
      (ReadBucket P (Path_bucket P l k0) st)
      (fun k hk => Finset.mem_erase.mpr ⟨hne k hk, hU k (by simp [hk])⟩) h1
    have hset : U.erase (Path_bucket P l k0) \ (rest.map (Path_bucket P l)).toFinset =
        U \ ((k0 :: rest).map (Path_bucket P l)).toFinset := by
      ext q
      simp only [Finset.mem_sdiff, Finset.mem_erase, List.map_cons, List.toFinset_cons,
        Finset.mem_insert]
      tauto
    rw [hset] at e1 e2
    rw [List.foldl_cons]
    refine ⟨e1, e2.trans hv1, ?_, ?_, ?_, ?_⟩
    · rw [e3, ReadBucket_storage]
    · rw [e4, ReadBucket_eq]
    · rw [e5, ReadBucket_eq]
    · rw [e6, ReadBucket_eq]

/-- The second loop of `EvictPath`: the buckets of the path are rebuilt from the stash. -/
theorem foldl_WriteBucket_spec (P : Params) (hc : CipherCorrect P) (l : Int)
    (hl : ValidLeaf P l) (shuffles : Nat → Shuffle) (hs : ∀ i, IsShuffle (shuffles i))
    (js : List Nat) (hnd : js.Nodup) (hjs : ∀ j ∈ js, j ≤ P.L) (V : Finset Nat) (st : ringoram)
    (hV : ∀ j ∈ js, Path_bucket P l j ∉ V) (h : Inv P st V) (hd : Dum P st) :
    Inv P (js.foldl (fun s i => resetCount (Path_bucket P l i)
          (WriteBucket P (shuffles i) (Path_bucket P l i) s)) st)
        (V ∪ (js.map (Path_bucket P l)).toFinset) ∧
      view P (js.foldl (fun s i => resetCount (Path_bucket P l i)
          (WriteBucket P (shuffles i) (Path_bucket P l i) s)) st)
        (V ∪ (js.map (Path_bucket P l)).toFinset) = view P st V ∧
      Dum P (js.foldl (fun s i => resetCount (Path_bucket P l i)
          (WriteBucket P (shuffles i) (Path_bucket P l i) s)) st) ∧
      (∀ q, ((js.foldl (fun s i => resetCount (Path_bucket P l i)
          (WriteBucket P (shuffles i) (Path_bucket P l i) s)) st).storage q).count ≤
            (st.storage q).count) ∧
      (js.foldl (fun s i => resetCount (Path_bucket P l i)
          (WriteBucket P (shuffles i) (Path_bucket P l i) s)) st).positionmap = st.positionmap ∧
      (js.foldl (fun s i => resetCount (Path_bucket P l i)
          (WriteBucket P (shuffles i) (Path_bucket P l i) s)) st).round = st.round ∧
      (js.foldl (fun s i => resetCount (Path_bucket P l i)
          (WriteBucket P (shuffles i) (Path_bucket P l i) s)) st).G = st.G := by
  induction js generalizing st V with
  | nil => simpa using ⟨h, hd⟩
  | cons j0 rest ih =>
    have hne := Path_bucket_ne P l hl j0 rest hnd hjs
    have hnd0 := stash_not_dummy P st V h
    have h1 := WriteBucket_Inv P hc (shuffles j0) (hs j0) (Path_bucket P l j0) st V
      (hV j0 (by simp)) h
    have hv1 := WriteBucket_view P hc (shuffles j0) (hs j0) (Path_bucket P l j0) st V
      (hV j0 (by simp)) hnd0
    have hd1 := WriteBucket_Dum P (shuffles j0) (hs j0) (Path_bucket P l j0) st hd
    obtain ⟨e1, e2, e3, e4, e5, e6, e7⟩ := ih (List.nodup_cons.mp hnd).2
      (fun k hk => hjs k (by simp [hk])) (insert (Path_bucket P l j0) V)
      (WriteBucket P (shuffles j0) (Path_bucket P l j0) st)
      (fun k hk hm => by
        rcases Finset.mem_insert.mp hm with h2 | h2
        · exact hne k hk h2
        · exact hV k (by simp [hk]) h2) h1 hd1
    have hset : insert (Path_bucket P l j0) V ∪ (rest.map (Path_bucket P l)).toFinset =
        V ∪ ((j0 :: rest).map (Path_bucket P l)).toFinset := by
      ext q
      simp only [Finset.mem_union, Finset.mem_insert, List.map_cons, List.toFinset_cons]
      tauto
    rw [hset] at e1 e2
    rw [List.foldl_cons, resetCount_WriteBucket]
    refine ⟨e1, e2.trans hv1, e3, ?_, ?_, ?_, ?_⟩
    · intro q
      refine le_trans (e4 q) ?_
      by_cases hq : q = Path_bucket P l j0
      · subst hq; rw [WriteBucket_count]; exact Nat.zero_le _
      · rw [WriteBucket_other P _ _ q st hq]
    · rw [e5]; rfl
    · rw [e6]; rfl
    · rw [e7]; rfl

end RingORAM

namespace RingORAM

theorem Path_bucket_mem_range (P : Params) (l : Int) (k : Nat) :
    Path_bucket P l k ∈ Finset.range P.num_bucket :=
  Finset.mem_range.mpr (Path_bucket_lt P l k)

theorem validLeaf_G (P : Params) (G : Nat) : ValidLeaf P ((G % 2 ^ P.L : Nat) : Int) := by
  constructor
  · exact Int.ofNat_nonneg _
  · unfold Params.num_leaves
    exact_mod_cast Nat.mod_lt G (by positivity)

/-- Summary of `EvictPath`: the invariant and the held blocks are kept, no count grows, and
`G` advances by one. -/
theorem EvictPath_spec (P : Params) (hc : CipherCorrect P) (shuffles : Nat → Shuffle)
    (hs : ∀ i, IsShuffle (shuffles i)) (st : ringoram)
    (h : Inv P st (Finset.range P.num_bucket)) (hd : Dum P st) :
    Inv P (EvictPath P shuffles st) (Finset.range P.num_bucket) ∧
      view P (EvictPath P shuffles st) (Finset.range P.num_bucket) =
        view P st (Finset.range P.num_bucket) ∧
      Dum P (EvictPath P shuffles st) ∧
      (∀ q, ((EvictPath P shuffles st).storage q).count ≤ (st.storage q).count) ∧
      (EvictPath P shuffles st).positionmap = st.positionmap ∧
      (EvictPath P shuffles st).round = st.round ∧
      (EvictPath P shuffles st).G = st.G + 1 := by
  have hl := validLeaf_G P st.G
  obtain ⟨st1, hst1⟩ : ∃ s : ringoram, s = { st with G := st.G + 1 } := ⟨_, rfl⟩
  have h1 : Inv P st1 (Finset.range P.num_bucket) := by
    rw [hst1]
    exact ⟨h.wf, h.idx, h.leaf, h.place, h.nodup, h.pm⟩
  have hmem : ∀ k, k ∈ List.range (P.L + 1) → k ≤ P.L := by
    intro k hk; rw [List.mem_range] at hk; omega
  obtain ⟨a1, a2, a3, a4, a5, a6⟩ := foldl_ReadBucket_spec P _ hl (List.range (P.L + 1))
    (List.nodup_range _) hmem (Finset.range P.num_bucket) st1
    (fun k _ => Path_bucket_mem_range P _ k) h1
  have hd2 : Dum P ((List.range (P.L + 1)).foldl
      (fun s i => ReadBucket P (Path_bucket P ((st.G % 2 ^ P.L : Nat) : Int) i) s) st1) := by
    intro q
    rw [a3, hst1]
    exact hd q
  obtain ⟨b1, b2, b3, b4, b5, b6, b7⟩ := foldl_WriteBucket_spec P hc _ hl shuffles hs
    (List.range (P.L + 1)).reverse (List.nodup_reverse.mpr (List.nodup_range _))
    (fun k hk => hmem k (List.mem_reverse.mp hk)) _ _
    (fun j hj hm => by
      have := (Finset.mem_sdiff.mp hm).2
      apply this
      rw [List.mem_toFinset, List.mem_map]
      exact ⟨j, List.mem_reverse.mp hj, rfl⟩) a1 hd2
  have hset : Finset.range P.num_bucket \
        ((List.range (P.L + 1)).map (Path_bucket P ((st.G % 2 ^ P.L : Nat) : Int))).toFinset ∪
      ((List.range (P.L + 1)).reverse.map
        (Path_bucket P ((st.G % 2 ^ P.L : Nat) : Int))).toFinset =
      Finset.range P.num_bucket := by
    ext q
    simp only [Finset.mem_union, Finset.mem_sdiff, List.mem_toFinset, List.mem_map,
      List.mem_reverse]
    constructor
    · rintro (⟨hq, _⟩ | ⟨k, _, rfl⟩)
      · exact hq
      · exact Path_bucket_mem_range P _ k
    · intro hq
      by_cases hx : ∃ a, a ∈ List.range (P.L + 1) ∧
          Path_bucket P ((st.G % 2 ^ P.L : Nat) : Int) a = q
      · exact Or.inr hx
      · exact Or.inl ⟨hq, hx⟩
  rw [hset] at b1 b2
  have hev : EvictPath P shuffles st = (List.range (P.L + 1)).reverse.foldl
      (fun s i => resetCount (Path_bucket P ((st.G % 2 ^ P.L : Nat) : Int) i)
        (WriteBucket P (shuffles i) (Path_bucket P ((st.G % 2 ^ P.L : Nat) : Int) i) s))
      ((List.range (P.L + 1)).foldl
        (fun s i => ReadBucket P (Path_bucket P ((st.G % 2 ^ P.L : Nat) : Int) i) s) st1) := by
    rw [hst1]; rfl
  rw [hev]
  refine ⟨b1, ?_, b3, ?_, ?_, ?_, ?_⟩
  · rw [b2, a2, hst1]; rfl
  · intro q
    refine le_trans (b4 q) ?_
    rw [a3, hst1]
  · rw [b5, a4, hst1]
  · rw [b6, a5, hst1]
  · rw [b7, a6, hst1]

/-- One iteration of `EarlyReshuffle`. -/
theorem EarlyReshuffle_step_spec (P : Params) (hc : CipherCorrect P)
    (hS : 1 ≤ P.dummyBlockEachbkt) (shuffles : Nat → Shuffle)
    (hs : ∀ i, IsShuffle (shuffles i)) (l : Int) (k : Nat) (st : ringoram)
    (h : Inv P st (Finset.range P.num_bucket)) (hd : Dum P st) :
    Inv P (EarlyReshuffle.step P shuffles l st k) (Finset.range P.num_bucket) ∧
      view P (EarlyReshuffle.step P shuffles l st k) (Finset.range P.num_bucket) =
        view P st (Finset.range P.num_bucket) ∧
      Dum P (EarlyReshuffle.step P shuffles l st k) ∧
      (∀ q, ((EarlyReshuffle.step P shuffles l st k).storage q).count ≤ (st.storage q).count) ∧
      ((EarlyReshuffle.step P shuffles l st k).storage (Path_bucket P l k)).count <
        P.dummyBlockEachbkt ∧
      (EarlyReshuffle.step P shuffles l st k).positionmap = st.positionmap ∧
      (EarlyReshuffle.step P shuffles l st k).round = st.round ∧
      (EarlyReshuffle.step P shuffles l st k).G = st.G := by
  unfold EarlyReshuffle.step
  split_ifs with hcnt
  · have hp := Path_bucket_mem_range P l k
    have h1 := ReadBucket_Inv P (Path_bucket P l k) st _ hp h
    have hv1 := ReadBucket_view P (Path_bucket P l k) st _ hp
    have hnd := stash_not_dummy P _ _ h1
    have hne : Path_bucket P l k ∉ (Finset.range P.num_bucket).erase (Path_bucket P l k) :=
      Finset.not_mem_erase _ _
    have h2 := WriteBucket_Inv P hc (shuffles k) (hs k) (Path_bucket P l k) _ _ hne h1
    have hv2 := WriteBucket_view P hc (shuffles k) (hs k) (Path_bucket P l k) _ _ hne hnd
    rw [Finset.insert_erase hp] at h2 hv2
    have hd1 : Dum P (ReadBucket P (Path_bucket P l k) st) := by
      intro q; rw [ReadBucket_storage]; exact hd q
    have hd2 := WriteBucket_Dum P (shuffles k) (hs k) (Path_bucket P l k) _ hd1
    rw [resetCount_WriteBucket]
    refine ⟨h2, hv2.trans hv1, hd2, ?_, ?_, ?_, ?_, ?_⟩
    · intro q
      by_cases hq : q = Path_bucket P l k
      · subst hq; rw [WriteBucket_count]; exact Nat.zero_le _
      · rw [WriteBucket_other P _ _ q _ hq, ReadBucket_storage]
    · rw [WriteBucket_count]; omega
    · show (ReadBucket P (Path_bucket P l k) st).positionmap = _
      rw [ReadBucket_eq]
    · show (ReadBucket P (Path_bucket P l k) st).round = _
      rw [ReadBucket_eq]
    · show (ReadBucket P (Path_bucket P l k) st).G = _
      rw [ReadBucket_eq]
  · exact ⟨h, rfl, hd, fun _ => le_rfl, by omega, rfl, rfl, rfl⟩

/-- The loop of `EarlyReshuffle` over a list of levels. -/
theorem EarlyReshuffle_loop_spec (P : Params) (hc : CipherCorrect P)
    (hS : 1 ≤ P.dummyBlockEachbkt) (shuffles : Nat → Shuffle)
    (hs : ∀ i, IsShuffle (shuffles i)) (l : Int) (ks : List Nat) (st : ringoram)
    (h : Inv P st (Finset.range P.num_bucket)) (hd : Dum P st) :
    Inv P (ks.foldl (EarlyReshuffle.step P shuffles l) st) (Finset.range P.num_bucket) ∧
      view P (ks.foldl (EarlyReshuffle.step P shuffles l) st) (Finset.range P.num_bucket) =
        view P st (Finset.range P.num_bucket) ∧
      Dum P (ks.foldl (EarlyReshuffle.step P shuffles l) st) ∧
      (∀ q, ((ks.foldl (EarlyReshuffle.step P shuffles l) st).storage q).count ≤
        (st.storage q).count) ∧
      (∀ k ∈ ks, ((ks.foldl (EarlyReshuffle.step P shuffles l) st).storage
        (Path_bucket P l k)).count < P.dummyBlockEachbkt) ∧
      (ks.foldl (EarlyReshuffle.step P shuffles l) st).positionmap = st.positionmap ∧
      (ks.foldl (EarlyReshuffle.step P shuffles l) st).round = st.round ∧
      (ks.foldl (EarlyReshuffle.step P shuffles l) st).G = st.G := by
  induction ks generalizing st with
  | nil => exact ⟨h, rfl, hd, fun _ => le_rfl, fun k hk => absurd hk (by simp), rfl, rfl, rfl⟩
  | cons k0 rest ih =>
    obtain ⟨a1, a2, a3, a4, a5, a6, a7, a8⟩ :=
      EarlyReshuffle_step_spec P hc hS shuffles hs l k0 st h hd
    obtain ⟨b1, b2, b3, b4, b5, b6, b7, b8⟩ := ih (EarlyReshuffle.step P shuffles l st k0) a1 a3
    rw [List.foldl_cons]
    refine ⟨b1, b2.trans a2, b3, fun q => le_trans (b4 q) (a4 q), ?_, b6.trans a6,
      b7.trans a7, b8.trans a8⟩
    intro k hk
    rcases List.mem_cons.mp hk with rfl | hk
    · exact lt_of_le_of_lt (b4 _) a5
    · exact b5 k hk

end RingORAM

namespace RingORAM

/-! ## Counts and dummy budget, independently of the cipher -/

theorem foldl_ReadBucket_light (P : Params) (l : Int) (ks : List Nat) (st : ringoram) :
    (ks.foldl (fun s i => ReadBucket P (Path_bucket P l i) s) st).storage = st.storage ∧
      (ks.foldl (fun s i => ReadBucket P (Path_bucket P l i) s) st).positionmap =
        st.positionmap ∧
      (ks.foldl (fun s i => ReadBucket P (Path_bucket P l i) s) st).round = st.round ∧
      (ks.foldl (fun s i => ReadBucket P (Path_bucket P l i) s) st).G = st.G := by
  induction ks generalizing st with
  | nil => exact ⟨rfl, rfl, rfl, rfl⟩
  | cons k0 rest ih =>
    obtain ⟨e1, e2, e3, e4⟩ := ih (ReadBucket P (Path_bucket P l k0) st)
    rw [List.foldl_cons]
    refine ⟨?_, ?_, ?_, ?_⟩
    · rw [e1, ReadBucket_storage]
    · rw [e2, ReadBucket_eq]
    · rw [e3, ReadBucket_eq]
    · rw [e4, ReadBucket_eq]

theorem foldl_WriteBucket_light (P : Params) (l : Int) (shuffles : Nat → Shuffle)
    (hs : ∀ i, IsShuffle (shuffles i)) (js : List Nat) (st : ringoram) (hd : Dum P st) :
    Dum P (js.foldl (fun s i => resetCount (Path_bucket P l i)
          (WriteBucket P (shuffles i) (Path_bucket P l i) s)) st) ∧
      (∀ q, ((js.foldl (fun s i => resetCount (Path_bucket P l i)
          (WriteBucket P (shuffles i) (Path_bucket P l i) s)) st).storage q).count ≤
            (st.storage q).count) ∧
      (∀ j ∈ js, ((js.foldl (fun s i => resetCount (Path_bucket P l i)
          (WriteBucket P (shuffles i) (Path_bucket P l i) s)) st).storage
            (Path_bucket P l j)).count = 0) ∧
      (js.foldl (fun s i => resetCount (Path_bucket P l i)
          (WriteBucket P (shuffles i) (Path_bucket P l i) s)) st).positionmap = st.positionmap ∧
      (js.foldl (fun s i => resetCount (Path_bucket P l i)
          (WriteBucket P (shuffles i) (Path_bucket P l i) s)) st).round = st.round ∧
      (js.foldl (fun s i => resetCount (Path_bucket P l i)
          (WriteBucket P (shuffles i) (Path_bucket P l i) s)) st).G = st.G := by
  induction js generalizing st with
  | nil => exact ⟨hd, fun _ => le_rfl, fun j hj => absurd hj (by simp), rfl, rfl, rfl⟩
  | cons j0 rest ih =>
    have hd1 := WriteBucket_Dum P (shuffles j0) (hs j0) (Path_bucket P l j0) st hd
    obtain ⟨e3, e4, e4b, e5, e6, e7⟩ := ih (WriteBucket P (shuffles j0) (Path_bucket P l j0) st) hd1
    rw [List.foldl_cons, resetCount_WriteBucket]
    refine ⟨e3, ?_, ?_, ?_, ?_, ?_⟩
    · intro q
      refine le_trans (e4 q) ?_
      by_cases hq : q = Path_bucket P l j0
      · subst hq; rw [WriteBucket_count]; exact Nat.zero_le _
      · rw [WriteBucket_other P _ _ q st hq]
    · intro j hj
      rcases List.mem_cons.mp hj with rfl | hj
      · have := e4 (Path_bucket P l j)
        rw [WriteBucket_count] at this
        omega
      · exact e4b j hj
    · rw [e5]; rfl
    · rw [e6]; rfl
    · rw [e7]; rfl

/-- What `EvictPath` does to the counters, whatever the cipher: the counts of the buckets on
the path of `G mod 2^L` are zero, no other count changes upward, and `G` advances by one. -/
theorem EvictPath_light (P : Params) (shuffles : Nat → Shuffle)
    (hs : ∀ i, IsShuffle (shuffles i)) (st : ringoram) (hd : Dum P st) :
    Dum P (EvictPath P shuffles st) ∧
      (∀ q, ((EvictPath P shuffles st).storage q).count ≤ (st.storage q).count) ∧
      (∀ k, k ≤ P.L → ((EvictPath P shuffles st).storage
        (Path_bucket P ((st.G % 2 ^ P.L : Nat) : Int) k)).count = 0) ∧
      (EvictPath P shuffles st).positionmap = st.positionmap ∧
      (EvictPath P shuffles st).round = st.round ∧
      (EvictPath P shuffles st).G = st.G + 1 := by
  obtain ⟨st1, hst1⟩ : ∃ s : ringoram, s = { st with G := st.G + 1 } := ⟨_, rfl⟩
  obtain ⟨a3, a4, a5, a6⟩ := foldl_ReadBucket_light P ((st.G % 2 ^ P.L : Nat) : Int)
    (List.range (P.L + 1)) st1
  have hd2 : Dum P ((List.range (P.L + 1)).foldl
      (fun s i => ReadBucket P (Path_bucket P ((st.G % 2 ^ P.L : Nat) : Int) i) s) st1) := by
    intro q
    rw [a3, hst1]
    exact hd q
  obtain ⟨b3, b4, b4b, b5, b6, b7⟩ := foldl_WriteBucket_light P ((st.G % 2 ^ P.L : Nat) : Int)
    shuffles hs (List.range (P.L + 1)).reverse _ hd2
  have hev : EvictPath P shuffles st = (List.range (P.L + 1)).reverse.foldl
      (fun s i => resetCount (Path_bucket P ((st.G % 2 ^ P.L : Nat) : Int) i)
        (WriteBucket P (shuffles i) (Path_bucket P ((st.G % 2 ^ P.L : Nat) : Int) i) s))
      ((List.range (P.L + 1)).foldl
        (fun s i => ReadBucket P (Path_bucket P ((st.G % 2 ^ P.L : Nat) : Int) i) s) st1) := by
    rw [hst1]; rfl
  rw [hev]
  refine ⟨b3, ?_, ?_, ?_, ?_, ?_⟩
  · intro q
    refine le_trans (b4 q) ?_
    rw [a3, hst1]
  · intro k hk
    exact b4b k (List.mem_reverse.mpr (List.mem_range.mpr (by omega)))
  · rw [b5, a4, hst1]
  · rw [b6, a5, hst1]
  · rw [b7, a6, hst1]

theorem EarlyReshuffle_step_light (P : Params) (hS : 1 ≤ P.dummyBlockEachbkt)
    (shuffles : Nat → Shuffle) (hs : ∀ i, IsShuffle (shuffles i)) (l : Int) (k : Nat)
    (st : ringoram) (hd : Dum P st) :
    Dum P (EarlyReshuffle.step P shuffles l st k) ∧
      (∀ q, ((EarlyReshuffle.step P shuffles l st k).storage q).count ≤ (st.storage q).count) ∧
      ((EarlyReshuffle.step P shuffles l st k).storage (Path_bucket P l k)).count <
        P.dummyBlockEachbkt ∧
      (EarlyReshuffle.step P shuffles l st k).positionmap = st.positionmap ∧
      (EarlyReshuffle.step P shuffles l st k).round = st.round ∧
      (EarlyReshuffle.step P shuffles l st k).G = st.G := by
  unfold EarlyReshuffle.step
  split_ifs with hcnt
  · have hd1 : Dum P (ReadBucket P (Path_bucket P l k) st) := by
      intro q; rw [ReadBucket_storage]; exact hd q
    have hd2 := WriteBucket_Dum P (shuffles k) (hs k) (Path_bucket P l k) _ hd1
    rw [resetCount_WriteBucket]
    refine ⟨hd2, ?_, ?_, ?_, ?_, ?_⟩
    · intro q
      by_cases hq : q = Path_bucket P l k
      · subst hq; rw [WriteBucket_count]; exact Nat.zero_le _
      · rw [WriteBucket_other P _ _ q _ hq, ReadBucket_storage]
    · rw [WriteBucket_count]; omega
    · show (ReadBucket P (Path_bucket P l k) st).positionmap = _
      rw [ReadBucket_eq]
    · show (ReadBucket P (Path_bucket P l k) st).round = _
      rw [ReadBucket_eq]
    · show (ReadBucket P (Path_bucket P l k) st).G = _
      rw [ReadBucket_eq]
  · exact ⟨hd, fun _ => le_rfl, by omega, rfl, rfl, rfl⟩

theorem EarlyReshuffle_loop_light (P : Params) (hS : 1 ≤ P.dummyBlockEachbkt)
    (shuffles : Nat → Shuffle) (hs : ∀ i, IsShuffle (shuffles i)) (l : Int) (ks : List Nat)
    (st : ringoram) (hd : Dum P st) :
    Dum P (ks.foldl (EarlyReshuffle.step P shuffles l) st) ∧
      (∀ q, ((ks.foldl (EarlyReshuffle.step P shuffles l) st).storage q).count ≤
        (st.storage q).count) ∧
      (∀ k ∈ ks, ((ks.foldl (EarlyReshuffle.step P shuffles l) st).storage
        (Path_bucket P l k)).count < P.dummyBlockEachbkt) ∧
      (ks.foldl (EarlyReshuffle.step P shuffles l) st).positionmap = st.positionmap ∧
      (ks.foldl (EarlyReshuffle.step P shuffles l) st).round = st.round ∧
      (ks.foldl (EarlyReshuffle.step P shuffles l) st).G = st.G := by
  induction ks generalizing st with
  | nil => exact ⟨hd, fun _ => le_rfl, fun k hk => absurd hk (by simp), rfl, rfl, rfl⟩
  | cons k0 rest ih =>
    obtain ⟨a3, a4, a5, a6, a7, a8⟩ := EarlyReshuffle_step_light P hS shuffles hs l k0 st hd
    obtain ⟨b3, b4, b5, b6, b7, b8⟩ := ih (EarlyReshuffle.step P shuffles l st k0) a3
    rw [List.foldl_cons]
    refine ⟨b3, fun q => le_trans (b4 q) (a4 q), ?_, b6.trans a6, b7.trans a7, b8.trans a8⟩
    intro k hk
    rcases List.mem_cons.mp hk with rfl | hk
    · exact lt_of_le_of_lt (b4 _) a5
    · exact b5 k hk

end RingORAM

namespace RingORAM

/-! ## The plaintext stored for an index -/

theorem GetlevelFromPos_le (P : Params) (p : Nat) (hp : p < P.num_bucket) :
    GetlevelFromPos p ≤ P.L := by
  unfold GetlevelFromPos
  rw [floorLog2_eq_log]
  have : p + 1 < 2 ^ (P.L + 1) := by
    unfold Params.num_bucket at hp
    omega
  have := Nat.log_lt_of_lt_pow (by omega) this
  omega

theorem heldIn_range_eq (P : Params) (storage : Nat → bucket) (n : Nat) :
    heldIn P storage (Finset.range n) =
      (((List.range n).flatMap (fun p => drain P (storage p)) : List block) :
        Multiset block) := by
  unfold heldIn
  induction n with
  | zero => simp
  | succ n ih =>
    rw [Finset.sum_range_succ, ih, List.range_succ, List.flatMap_append, Multiset.coe_add]
    simp

theorem viewList_eq (P : Params) (st : ringoram) :
    ((viewList P st : List block) : Multiset block) = view P st (Finset.range P.num_bucket) := by
  unfold viewList view
  rw [heldIn_range_eq, Multiset.coe_add]

theorem countP_le_one_of_nodup (s : Multiset block) (i : Int)
    (h : (s.map (fun e => e.blockindex)).Nodup) :
    s.countP (fun e => e.blockindex = i) ≤ 1 := by
  have h1 := Multiset.nodup_iff_count_le_one.mp h i
  rw [Multiset.count_map] at h1
  rw [Multiset.countP_eq_card_filter]
  have e : s.filter (fun e => e.blockindex = i) = s.filter (fun e => i = e.blockindex) := by
    apply Multiset.filter_congr
    intro x _
    exact eq_comm
  rw [e]
  exact h1

theorem unique_of_nodup (s : Multiset block) (h : (s.map (fun e => e.blockindex)).Nodup)
    (a b : block) (ha : a ∈ s) (hb : b ∈ s) (hab : a.blockindex = b.blockindex) : a = b := by
  induction s using Quotient.inductionOn with
  | _ l =>
    simp only [Multiset.quot_mk_to_coe, Multiset.map_coe, Multiset.coe_nodup,
      Multiset.mem_coe] at h ha hb
    exact List.inj_on_of_nodup_map h ha hb hab

/-- The payload stored for an index is the payload of the block held for it. -/
theorem stored_of_mem (P : Params) (st : ringoram)
    (hn : ((view P st (Finset.range P.num_bucket)).map (fun e => e.blockindex)).Nodup)
    (e : block) (he : e ∈ view P st (Finset.range P.num_bucket)) :
    stored P st e.blockindex = e.data := by
  rw [← viewList_eq] at hn he
  unfold stored
  cases hf : (viewList P st).find? (fun x => x.blockindex = e.blockindex) with
  | none =>
    rw [List.find?_eq_none] at hf
    have := hf e (Multiset.mem_coe.mp he)
    simp at this
  | some x =>
    have h1 := List.find?_some hf
    have h2 := List.mem_of_find?_eq_some hf
    have : x = e := unique_of_nodup _ hn x e (Multiset.mem_coe.mpr h2) he (by simpa using h1)
    rw [this]

/-- No block held for an index: the payload stored for it is empty. -/
theorem stored_of_not_mem (P : Params) (st : ringoram) (i : Int)
    (h : ∀ e ∈ view P st (Finset.range P.num_bucket), e.blockindex ≠ i) :
    stored P st i = [] := by
  rw [← viewList_eq] at h
  unfold stored
  cases hf : (viewList P st).find? (fun x => x.blockindex = i) with
  | none => rfl
  | some x =>
    have h1 := List.find?_some hf
    have h2 := List.mem_of_find?_eq_some hf
    exact absurd (by simpa using h1) (h x (Multiset.mem_coe.mpr h2))

/-- The stash scan of `access` on a stash without repeated indices. -/
theorem takeFromStash_spec (i : Int) (s : List block)
    (hn : (s.map (fun e => e.blockindex)).Nodup) :
    (takeFromStash i s).2 = s.filter (fun e => e.blockindex ≠ i) ∧
      (∀ e ∈ s, e.blockindex = i → (takeFromStash i s).1 = e.data) ∧
      ((∀ e ∈ s, e.blockindex ≠ i) → (takeFromStash i s).1 = []) := by
  induction s with
  | nil => simp [takeFromStash]
  | cons it rest ih =>
    rw [List.map_cons, List.nodup_cons] at hn
    obtain ⟨ih1, ih2, ih3⟩ := ih hn.2
    unfold takeFromStash
    by_cases h : it.blockindex = i
    · simp only [h, if_true]
      have hrest : ∀ e ∈ rest, e.blockindex ≠ i := by
        intro e he hei
        apply hn.1
        rw [List.mem_map]
        exact ⟨e, he, by rw [hei, h]⟩
      refine ⟨?_, ?_, ?_⟩
      · rw [List.filter_cons]
        simp only [h, ne_eq, not_true_eq_false, decide_False, Bool.false_eq_true, if_false]
        symm
        rw [List.filter_eq_self]
        intro e he
        simpa using hrest e he
      · intro e he hei
        rcases List.mem_cons.mp he with rfl | he
        · rfl
        · exact absurd hei (hrest e he)
      · intro hall
        exact absurd h (hall it (by simp))
    · simp only [h, if_false]
      refine ⟨?_, ?_, ?_⟩
      · rw [List.filter_cons]
        simp only [ne_eq, h, not_false_eq_true, decide_True, if_true]
        rw [ih1]
      · intro e he hei
        rcases List.mem_cons.mp he with rfl | he
        · exact absurd hei h
        · exact ih2 e he hei
      · intro hall
        exact ih3 (fun e he => hall e (by simp [he]))

end RingORAM

namespace RingORAM

/-! ## One access -/

/-- The state of `access` after the block was put back into the stash and `round` advanced. -/
theorem access_unfold (P : Params) (c : Coins) (i : Int) (op : Operation) (d : Bytes)
    (st : ringoram) (hi0 : 0 ≤ i) (hiN : i < (P.N : Int)) (blk : block) (st2 : ringoram)
    (hrp : ReadPath P (st.positionmap i.toNat) i
      { st with positionmap := Function.update st.positionmap i.toNat c.leaf } = some (blk, st2))
    (data : Bytes) (stash2 : List block)
    (hfound : (if blk.blockindex = i then
        (if blk.IsDummy = false then decrypt_data P blk.data else blk.data, st2.stash)
      else takeFromStash i st2.stash) = (data, stash2))
    (st4 : ringoram)
    (hst4 : st4 = { st2 with
      stash := stash2 ++ [⟨st2.positionmap i.toNat, i, if op = Operation.WRITE then d else data⟩]
      round := (st2.round + 1) % P.EvictRound }) :
    access P c i op d st = some (if op = Operation.WRITE then d else data,
      EarlyReshuffle P c.reshuffle (st.positionmap i.toNat)
        (if st4.round = 0 then EvictPath P c.evict st4 else st4)) := by
  unfold access
  rw [if_neg (by omega)]
  simp only [hrp, hfound]
  rw [hst4]

end RingORAM

namespace RingORAM

theorem coe_append_singleton_add (a : List block) (new : block) (H : Multiset block) :
    ((a ++ [new] : List block) : Multiset block) + H = new ::ₘ ((a : Multiset block) + H) := by
  rw [← Multiset.coe_add, Multiset.coe_singleton, ← Multiset.singleton_add,
    add_comm (a : Multiset block) {new}, add_assoc]

theorem drain_invalidate_subset (P : Params) (b : bucket) (k : Nat)
    (hk : k < P.maxblockEachbkt) (e : block) (he : e ∈ drain P (invalidate b k)) :
    e ∈ drain P b := by
  have h := drain_invalidate P b k hk
  have : e ∈ (drain P b : Multiset block) := by
    rw [h]
    exact Multiset.mem_add.mpr (Or.inr (Multiset.mem_coe.mpr he))
  exact Multiset.mem_coe.mp this

/-- The first half of `access` on a valid index: the path of the old leaf is read, the block
is taken out of the buckets or the stash, and put back into the stash under the new leaf. -/
theorem access_read_spec (P : Params) (hS : 1 ≤ P.dummyBlockEachbkt) (c : Coins)
    (hleafc : ValidLeaf P c.leaf) (i : Int) (op : Operation) (d : Bytes) (st : ringoram)
    (hi0 : 0 ≤ i) (hiN : i < (P.N : Int)) (h : Inv P st (Finset.range P.num_bucket))
    (hd : Dum P st) (hcnt : Cnt P st) :
    ∃ blk st2 data stash2 st4,
      ReadPath P (st.positionmap i.toNat) i
        { st with positionmap := Function.update st.positionmap i.toNat c.leaf } =
          some (blk, st2) ∧
      (if blk.blockindex = i then
          (if blk.IsDummy = false then decrypt_data P blk.data else blk.data, st2.stash)
        else takeFromStash i st2.stash) = (data, stash2) ∧
      st4 = { st2 with
        stash := stash2 ++
          [⟨st2.positionmap i.toNat, i, if op = Operation.WRITE then d else data⟩]
        round := (st2.round + 1) % P.EvictRound } ∧
      data = stored P st i ∧
      Inv P st4 (Finset.range P.num_bucket) ∧ Dum P st4 ∧
      view P st4 (Finset.range P.num_bucket) =
        (⟨c.leaf, i, if op = Operation.WRITE then d else data⟩ : block) ::ₘ
          (view P st (Finset.range P.num_bucket)).filter (fun e => e.blockindex ≠ i) ∧
      (∀ p, (∀ k, k ≤ P.L → p ≠ Path_bucket P (st.positionmap i.toNat) k) →
        (st4.storage p).count < P.dummyBlockEachbkt) ∧
      st4.positionmap = Function.update st.positionmap i.toNat c.leaf ∧
      st4.G = st.G ∧ st4.round = (st.round + 1) % P.EvictRound := by
  have hj : i.toNat < P.N := by omega
  have hleaf : ValidLeaf P (st.positionmap i.toNat) := h.pm _ hj
  have hine : i ≠ -1 := by omega
  obtain ⟨st1, hst1⟩ : ∃ s : ringoram,
    s = { st with positionmap := Function.update st.positionmap i.toNat c.leaf } := ⟨_, rfl⟩
  have hs1 : st1.storage = st.storage := by rw [hst1]
  have hstash1 : st1.stash = st.stash := by rw [hst1]
  have hvd : ∀ p, 1 ≤ validDummies P (st1.storage p) := by
    intro p
    rw [hs1]
    have h1 := hd p
    have h2 := hcnt p
    omega
  have hview : view P st (Finset.range P.num_bucket) =
      (st.stash : Multiset block) + heldIn P st.storage (Finset.range P.num_bucket) := rfl
  have hnodup := h.nodup
  have hone0 := countP_le_one_of_nodup _ i hnodup
  have hone : (heldIn P st1.storage (Finset.range P.num_bucket)).countP
      (fun e => e.blockindex = i) ≤ 1 := by
    rw [hs1]
    rw [hview, Multiset.countP_add] at hone0
    omega
  have hplace : ∀ p ∈ Finset.range P.num_bucket, ∀ e ∈ drain P (st1.storage p),
      e.blockindex = i → ∃ k, k ≤ P.L ∧ p = Path_bucket P (st.positionmap i.toNat) k := by
    intro p hp e he hei
    rw [hs1] at he
    refine ⟨GetlevelFromPos p, GetlevelFromPos_le P p (Finset.mem_range.mp hp), ?_⟩
    have h1 := h.place p hp e he
    have hm : e ∈ view P st (Finset.range P.num_bucket) := by
      rw [hview]
      exact Multiset.mem_add.mpr (Or.inr ((mem_heldIn P _ _ e).mpr ⟨p, hp, he⟩))
    have h2 := h.leaf e hm
    rw [hei] at h2
    rw [← h2]
    exact h1.symm
  obtain ⟨blk, st2, r1, r2, r3, r4, r5, r6, r7, r8, r9, r10, r11⟩ :=
    ReadPath_spec P (st.positionmap i.toNat) i hleaf hine (Finset.range P.num_bucket) st1
      (fun k _ => Path_bucket_mem_range P _ k) (by rw [hs1]; exact h.wf) hvd hone hplace
  rw [hs1] at r7 r8 r9 r10 r11
  rw [hstash1] at r2
  have hpm2 : st2.positionmap = Function.update st.positionmap i.toNat c.leaf := by
    rw [r3, hst1]
  -- the stash holds no index twice
  have hstash_nodup : (st.stash.map (fun e => e.blockindex)).Nodup := by
    have : ((st.stash : Multiset block).map (fun e => e.blockindex)).Nodup := by
      apply Multiset.nodup_of_le _ hnodup
      apply Multiset.map_le_map
      rw [hview]
      exact Multiset.le_add_right _ _
    simpa using this
  -- what the lookup finds
  have hfound : ∃ data stash2,
      (if blk.blockindex = i then
          (if blk.IsDummy = false then decrypt_data P blk.data else blk.data, st2.stash)
        else takeFromStash i st2.stash) = (data, stash2) ∧
      data = stored P st i ∧
      stash2 = st.stash.filter (fun e => e.blockindex ≠ i) := by
    by_cases hex : ∃ e ∈ heldIn P st.storage (Finset.range P.num_bucket), e.blockindex = i
    · obtain ⟨e, he, hei⟩ := hex
      obtain ⟨hb1, hb2⟩ := r10 e he hei
      have hemem : e ∈ view P st (Finset.range P.num_bucket) := by
        rw [hview]; exact Multiset.mem_add.mpr (Or.inr he)
      have hnd : blk.IsDummy = false := by
        unfold block.IsDummy
        rw [hb1]
        simpa using hine
      refine ⟨decrypt_data P blk.data, st2.stash, ?_, ?_, ?_⟩
      · rw [if_pos hb1, if_pos hnd]
      · rw [hb2, ← hei]
        exact (stored_of_mem P st hnodup e hemem).symm
      · rw [r2]
        symm
        rw [List.filter_eq_self]
        intro x hx
        have hxmem : x ∈ view P st (Finset.range P.num_bucket) := by
          rw [hview]; exact Multiset.mem_add.mpr (Or.inl (Multiset.mem_coe.mpr hx))
        simp only [ne_eq, decide_eq_true_eq]
        intro hxi
        have hxe : x = e := unique_of_nodup _ hnodup x e hxmem hemem (by rw [hxi, hei])
        subst hxe
        -- the block would be held twice
        have hc2 : 2 ≤ (view P st (Finset.range P.num_bucket)).countP
            (fun e => e.blockindex = i) := by
          rw [hview, Multiset.countP_add]
          have c1 : 1 ≤ (st.stash : Multiset block).countP (fun e => e.blockindex = i) :=
            Multiset.countP_pos.mpr ⟨x, Multiset.mem_coe.mpr hx, hxi⟩
          have c2 : 1 ≤ (heldIn P st.storage (Finset.range P.num_bucket)).countP
              (fun e => e.blockindex = i) :=
            Multiset.countP_pos.mpr ⟨x, he, hxi⟩
          omega
        omega
    · push_neg at hex
      have hblk := r11 hex
      have hbi : ¬ blk.blockindex = i := by
        rw [hblk]
        simp only [dummyBlock]
        exact fun e => hine e.symm
      obtain ⟨t1, t2, t3⟩ := takeFromStash_spec i st.stash hstash_nodup
      refine ⟨(takeFromStash i st.stash).1, (takeFromStash i st.stash).2, ?_, ?_, t1⟩
      · rw [if_neg hbi, r2]
      · by_cases hs : ∃ e ∈ st.stash, e.blockindex = i
        · obtain ⟨e, he, hei⟩ := hs
          rw [t2 e he hei, ← hei]
          have hemem : e ∈ view P st (Finset.range P.num_bucket) := by
            rw [hview]; exact Multiset.mem_add.mpr (Or.inl (Multiset.mem_coe.mpr he))
          exact (stored_of_mem P st hnodup e hemem).symm
        · push_neg at hs
          rw [t3 hs]
          symm
          apply stored_of_not_mem
          intro e he
          rw [hview] at he
          rcases Multiset.mem_add.mp he with h1 | h1
          · exact hs e (Multiset.mem_coe.mp h1)
          · exact hex e h1
  obtain ⟨data, stash2, f1, f2, f3⟩ := hfound
  obtain ⟨st4, hst4⟩ : ∃ s : ringoram, s = { st2 with
      stash := stash2 ++
        [⟨st2.positionmap i.toNat, i, if op = Operation.WRITE then d else data⟩]
      round := (st2.round + 1) % P.EvictRound } := ⟨_, rfl⟩
  have hs4 : st4.storage = st2.storage := by rw [hst4]
  have hpm4 : st4.positionmap = Function.update st.positionmap i.toNat c.leaf := by
    rw [hst4]; exact hpm2
  have hnew : st2.positionmap i.toNat = c.leaf := by
    rw [hpm2, Function.update_same]
  have hview4 : view P st4 (Finset.range P.num_bucket) =
      (⟨c.leaf, i, if op = Operation.WRITE then d else data⟩ : block) ::ₘ
        (view P st (Finset.range P.num_bucket)).filter (fun e => e.blockindex ≠ i) := by
    have : view P st4 (Finset.range P.num_bucket) =
        ((stash2 ++ [⟨st2.positionmap i.toNat, i,
          if op = Operation.WRITE then d else data⟩] : List block) : Multiset block) +
          heldIn P st2.storage (Finset.range P.num_bucket) := by
      rw [hst4]; rfl
    rw [this, r9, hview, Multiset.filter_add, hnew, f3, Multiset.filter_coe,
      coe_append_singleton_add]
  -- each bucket only lost blocks
  have hsub : ∀ p, ∀ e ∈ drain P (st2.storage p), e ∈ drain P (st.storage p) := by
    intro p e he
    by_cases hpath : ∃ k, k ≤ P.L ∧ p = Path_bucket P (st.positionmap i.toNat) k
    · obtain ⟨k, hk, rfl⟩ := hpath
      obtain ⟨off, _, hoff, _, h4⟩ := r8 k hk
      rw [h4] at he
      exact drain_invalidate_subset P _ off hoff e he
    · push_neg at hpath
      rw [r7 p hpath] at he
      exact he
  refine ⟨blk, st2, data, stash2, st4, ?_, f1, hst4, f2, ?_, ?_, hview4, ?_, hpm4, ?_, ?_⟩
  · rw [← hst1]; exact r1
  · constructor
    · intro p; rw [hs4]; exact r6 p
    · intro e he
      rw [hview4] at he
      rcases Multiset.mem_cons.mp he with rfl | he
      · exact ⟨hi0, hiN⟩
      · exact h.idx e (Multiset.mem_of_mem_filter he)
    · intro e he
      rw [hview4] at he
      rw [hpm4]
      rcases Multiset.mem_cons.mp he with rfl | he
      · simp only [Function.update_same]
      · have hne := (Multiset.mem_filter.mp he).2
        have hmem := Multiset.mem_of_mem_filter he
        have h0 := (h.idx e hmem).1
        have : e.blockindex.toNat ≠ i.toNat := by
          intro heq
          apply hne
          omega
        rw [Function.update_noteq this]
        exact h.leaf e hmem
    · intro p hp e he
      rw [hs4] at he
      exact h.place p hp e (hsub p e he)
    · rw [hview4, Multiset.map_cons, Multiset.nodup_cons]
      constructor
      · intro hm
        obtain ⟨x, hx, hxi⟩ := Multiset.mem_map.mp hm
        exact (Multiset.mem_filter.mp hx).2 hxi
      · apply Multiset.nodup_of_le _ hnodup
        exact Multiset.map_le_map (Multiset.filter_le _ _)
    · intro k hk
      rw [hpm4]
      by_cases hki : k = i.toNat
      · subst hki; rw [Function.update_same]; exact hleafc
      · rw [Function.update_noteq hki]; exact h.pm k hk
  · intro p
    rw [hs4]
    by_cases hpath : ∃ k, k ≤ P.L ∧ p = Path_bucket P (st.positionmap i.toNat) k
    · obtain ⟨k, hk, rfl⟩ := hpath
      obtain ⟨off, _, hoff, _, h4⟩ := r8 k hk
      rw [h4]
      have h1 := validDummies_invalidate P (st.storage (Path_bucket P (st.positionmap i.toNat) k))
        off hoff
      have h2 := hd (Path_bucket P (st.positionmap i.toNat) k)
      have h3 : (invalidate (st.storage (Path_bucket P (st.positionmap i.toNat) k)) off).count =
          (st.storage (Path_bucket P (st.positionmap i.toNat) k)).count + 1 + 1 := rfl
      rw [h3]
      split_ifs at h1 <;> omega
    · push_neg at hpath
      rw [r7 p hpath]
      exact hd p
  · intro p hp
    rw [hs4, r7 p hp]
    exact hcnt p
  · rw [hst4]; simp only; rw [r5, hst1]
  · rw [hst4]; simp only; rw [r4, hst1]

end RingORAM

namespace RingORAM

/-- The invariant between two calls of `access`. -/
theorem access_spec (P : Params) (hc : CipherCorrect P) (hS : 1 ≤ P.dummyBlockEachbkt)
    (c : Coins) (hcoins : ValidCoins P c) (i : Int) (op : Operation) (d : Bytes)
    (st : ringoram) (hi0 : 0 ≤ i) (hiN : i < (P.N : Int))
    (h : Inv P st (Finset.range P.num_bucket)) (hd : Dum P st) (hcnt : Cnt P st) :
    ∃ st2, access P c i op d st =
        some (if op = Operation.WRITE then d else stored P st i, st2) ∧
      Inv P st2 (Finset.range P.num_bucket) ∧ Dum P st2 ∧ Cnt P st2 ∧
      view P st2 (Finset.range P.num_bucket) =
        (⟨c.leaf, i, if op = Operation.WRITE then d else stored P st i⟩ : block) ::ₘ
          (view P st (Finset.range P.num_bucket)).filter (fun e => e.blockindex ≠ i) ∧
      st2.positionmap = Function.update st.positionmap i.toNat c.leaf ∧
      st2.round = (st.round + 1) % P.EvictRound ∧
      st2.G = (if (st.round + 1) % P.EvictRound = 0 then st.G + 1 else st.G) := by
  obtain ⟨hleafc, hev, hre⟩ := hcoins
  obtain ⟨blk, st2, data, stash2, st4, a1, a2, a3, a4, a5, a6, a7, a8, a9, a10, a11⟩ :=
    access_read_spec P hS c hleafc i op d st hi0 hiN h hd hcnt
  have hacc := access_unfold P c i op d st hi0 hiN blk st2 a1 data stash2 a2 st4 a3
  rw [a4] at hacc a7
  -- the eviction, when it is due
  have h5 : ∃ st5, st5 = (if st4.round = 0 then EvictPath P c.evict st4 else st4) ∧
      Inv P st5 (Finset.range P.num_bucket) ∧ Dum P st5 ∧
      view P st5 (Finset.range P.num_bucket) = view P st4 (Finset.range P.num_bucket) ∧
      (∀ q, (st5.storage q).count ≤ (st4.storage q).count) ∧
      st5.positionmap = st4.positionmap ∧ st5.round = st4.round ∧
      st5.G = (if st4.round = 0 then st4.G + 1 else st4.G) := by
    by_cases hr : st4.round = 0
    · obtain ⟨b1, b2, b3, b4, b5, b6, b7⟩ := EvictPath_spec P hc c.evict hev st4 a5 a6
      refine ⟨EvictPath P c.evict st4, by rw [if_pos hr], b1, b3, b2, b4, b5, b6, ?_⟩
      rw [if_pos hr]; exact b7
    · refine ⟨st4, by rw [if_neg hr], a5, a6, rfl, fun _ => le_rfl, rfl, rfl, ?_⟩
      rw [if_neg hr]
  obtain ⟨st5, e0, e1, e2, e3, e4, e5, e6, e7⟩ := h5
  rw [← e0] at hacc
  obtain ⟨f1, f2, f3, f4, f5, f6, f7, f8⟩ := EarlyReshuffle_loop_spec P hc hS c.reshuffle hre
    (st.positionmap i.toNat) (List.range (P.L + 1)) st5 e1 e2
  refine ⟨EarlyReshuffle P c.reshuffle (st.positionmap i.toNat) st5, hacc, f1, f3, ?_, ?_, ?_,
    ?_, ?_⟩
  · intro p
    by_cases hpath : ∃ k, k ≤ P.L ∧ p = Path_bucket P (st.positionmap i.toNat) k
    · obtain ⟨k, hk, rfl⟩ := hpath
      exact f5 k (List.mem_range.mpr (by omega))
    · push_neg at hpath
      exact lt_of_le_of_lt (le_trans (f4 p) (e4 p)) (a8 p hpath)
  · exact (f2.trans e3).trans a7
  · exact (f6.trans e5).trans a9
  · exact (f7.trans e6).trans a11
  · exact (f8.trans e7).trans (by rw [a10, a11])

end RingORAM

namespace RingORAM

/-- A call of `access` with a valid index returns, and keeps the dummy budget, the count bound
and the validity of the position map; `round` advances modulo `EvictRound` and `G` advances
exactly when `round` wraps to zero. No assumption on the cipher is needed. -/
theorem access_light (P : Params) (hS : 1 ≤ P.dummyBlockEachbkt) (c : Coins)
    (hcoins : ValidCoins P c) (i : Int) (op : Operation) (d : Bytes) (st : ringoram)
    (hi0 : 0 ≤ i) (hiN : i < (P.N : Int)) (hpm : PmValid P st) (hd : Dum P st)
    (hcnt : Cnt P st) :
    ∃ out st2, access P c i op d st = some (out, st2) ∧
      PmValid P st2 ∧ Dum P st2 ∧ Cnt P st2 ∧
      st2.round = (st.round + 1) % P.EvictRound ∧
      st2.G = (if (st.round + 1) % P.EvictRound = 0 then st.G + 1 else st.G) := by
  obtain ⟨hleafc, hev, hre⟩ := hcoins
  have hj : i.toNat < P.N := by omega
  have hleaf : ValidLeaf P (st.positionmap i.toNat) := hpm _ hj
  obtain ⟨st1, hst1⟩ : ∃ s : ringoram,
    s = { st with positionmap := Function.update st.positionmap i.toNat c.leaf } := ⟨_, rfl⟩
  have hs1 : st1.storage = st.storage := by rw [hst1]
  have hmem : ∀ k, k ∈ List.range (P.L + 1) ↔ k ≤ P.L := by
    intro k; rw [List.mem_range]; omega
  have hvd : ∀ p, 1 ≤ validDummies P (st1.storage p) := by
    intro p
    rw [hs1]
    have h1 := hd p
    have h2 := hcnt p
    omega
  obtain ⟨blk, st2, r1, r2, r3, r4, r5, r7, r8⟩ := ReadPath_loop_struct P
    (st.positionmap i.toNat) i hleaf (List.range (P.L + 1)) (List.nodup_range _)
    (fun k hk => (hmem k).mp hk) (dummyBlock, st1) (fun k _ => hvd _)
  simp only at r2 r3 r4 r5 r7 r8
  rw [hs1] at r7 r8
  obtain ⟨data, stash2, hf⟩ : ∃ data stash2,
      (if blk.blockindex = i then
          (if blk.IsDummy = false then decrypt_data P blk.data else blk.data, st2.stash)
        else takeFromStash i st2.stash) = (data, stash2) := ⟨_, _, rfl⟩
  obtain ⟨st4, hst4⟩ : ∃ s : ringoram, s = { st2 with
      stash := stash2 ++
        [⟨st2.positionmap i.toNat, i, if op = Operation.WRITE then d else data⟩]
      round := (st2.round + 1) % P.EvictRound } := ⟨_, rfl⟩
  have hacc := access_unfold P c i op d st hi0 hiN blk st2 (by rw [← hst1]; exact r1)
    data stash2 hf st4 hst4
  have hs4 : st4.storage = st2.storage := by rw [hst4]
  have hpm4 : st4.positionmap = Function.update st.positionmap i.toNat c.leaf := by
    rw [hst4]; simp only; rw [r3, hst1]
  have hr4 : st4.round = (st.round + 1) % P.EvictRound := by
    rw [hst4]; simp only; rw [r4, hst1]
  have hG4 : st4.G = st.G := by
    rw [hst4]; simp only; rw [r5, hst1]
  have hd4 : Dum P st4 := by
    intro p
    rw [hs4]
    by_cases hpath : ∃ k, k ≤ P.L ∧ p = Path_bucket P (st.positionmap i.toNat) k
    · obtain ⟨k, hk, rfl⟩ := hpath
      obtain ⟨off, _, hoff, _, h4⟩ := r8 k ((hmem k).mpr hk)
      rw [h4]
      have h1 := validDummies_invalidate P (st.storage (Path_bucket P (st.positionmap i.toNat) k))
        off hoff
      have h2 := hd (Path_bucket P (st.positionmap i.toNat) k)
      have h3 : (invalidate (st.storage (Path_bucket P (st.positionmap i.toNat) k)) off).count =
          (st.storage (Path_bucket P (st.positionmap i.toNat) k)).count + 1 + 1 := rfl
      rw [h3]
      split_ifs at h1 <;> omega
    · push_neg at hpath
      rw [r7 p (fun k hk => hpath k ((hmem k).mp hk))]
      exact hd p
  have hoff4 : ∀ p, (∀ k, k ≤ P.L → p ≠ Path_bucket P (st.positionmap i.toNat) k) →
      (st4.storage p).count < P.dummyBlockEachbkt := by
    intro p hp
    rw [hs4, r7 p (fun k hk => hp k ((hmem k).mp hk))]
    exact hcnt p
  have h5 : ∃ st5, st5 = (if st4.round = 0 then EvictPath P c.evict st4 else st4) ∧
      Dum P st5 ∧ (∀ q, (st5.storage q).count ≤ (st4.storage q).count) ∧
      st5.positionmap = st4.positionmap ∧ st5.round = st4.round ∧
      st5.G = (if st4.round = 0 then st4.G + 1 else st4.G) := by
    by_cases hr : st4.round = 0
    · obtain ⟨b3, b4, _, b5, b6, b7⟩ := EvictPath_light P c.evict hev st4 hd4
      refine ⟨EvictPath P c.evict st4, by rw [if_pos hr], b3, b4, b5, b6, ?_⟩
      rw [if_pos hr]; exact b7
    · refine ⟨st4, by rw [if_neg hr], hd4, fun _ => le_rfl, rfl, rfl, ?_⟩
      rw [if_neg hr]
  obtain ⟨st5, e0, e2, e4, e5, e6, e7⟩ := h5
  rw [← e0] at hacc
  obtain ⟨f3, f4, f5, f6, f7, f8⟩ := EarlyReshuffle_loop_light P hS c.reshuffle hre
    (st.positionmap i.toNat) (List.range (P.L + 1)) st5 e2
  refine ⟨_, EarlyReshuffle P c.reshuffle (st.positionmap i.toNat) st5, hacc, ?_, f3, ?_, ?_, ?_⟩
  · intro k hk
    have : (EarlyReshuffle P c.reshuffle (st.positionmap i.toNat) st5).positionmap =
        Function.update st.positionmap i.toNat c.leaf := (f6.trans e5).trans hpm4
    rw [this]
    by_cases hki : k = i.toNat
    · subst hki; rw [Function.update_same]; exact hleafc
    · rw [Function.update_noteq hki]; exact hpm k hk
  · intro p
    by_cases hpath : ∃ k, k ≤ P.L ∧ p = Path_bucket P (st.positionmap i.toNat) k
    · obtain ⟨k, hk, rfl⟩ := hpath
      exact f5 k ((hmem k).mpr hk)
    · push_neg at hpath
      exact lt_of_le_of_lt (le_trans (f4 p) (e4 p)) (hoff4 p hpath)
  · exact (f7.trans e6).trans hr4
  · exact (f8.trans e7).trans (by rw [hG4, hr4])

end RingORAM

namespace RingORAM

/-! ## Reachable states -/

theorem filterMap_eq_nil_of_forall {α β : Type} (f : α → Option β) (l : List α)
    (h : ∀ x ∈ l, f x = none) : l.filterMap f = [] := by
  induction l with
  | nil => rfl
  | cons a t ih =>
    rw [List.filterMap_cons, h a (by simp)]
    exact ih (fun x hx => h x (by simp [hx]))

theorem bucket_init_ptrs (P : Params) (j : Nat) (hj : j < P.maxblockEachbkt) :
    (bucket.init P).ptrs.getD j 0 = -1 := by
  simp [bucket.init, List.getD_eq_getElem?_getD, List.getElem?_replicate, hj]

theorem bucket_init_valids (P : Params) (j : Nat) (hj : j < P.maxblockEachbkt) :
    (bucket.init P).valids.getD j false = true := by
  simp [bucket.init, List.getD_eq_getElem?_getD, List.getElem?_replicate, hj]

theorem bucket_init_WF (P : Params) : (bucket.init P).WF P := by
  refine ⟨by simp [bucket.init], by simp [bucket.init], ?_⟩
  simp [bucket.init, dummyBlock]

theorem drain_init (P : Params) : drain P (bucket.init P) = [] := by
  unfold drain
  apply filterMap_eq_nil_of_forall
  intro j hj
  exact slotEntry_of_dummy P _ j (bucket_init_ptrs P j (List.mem_range.mp hj))

theorem validDummies_init (P : Params) : validDummies P (bucket.init P) = P.maxblockEachbkt := by
  unfold validDummies
  have : (List.range P.maxblockEachbkt).countP
      (fun i => (bucket.init P).ptrs.getD i 0 == -1 && (bucket.init P).valids.getD i false) =
      (List.range P.maxblockEachbkt).length := by
    rw [List.countP_eq_length]
    intro j hj
    rw [bucket_init_ptrs P j (List.mem_range.mp hj), bucket_init_valids P j (List.mem_range.mp hj)]
    rfl
  rw [this, List.length_range]

theorem view_init (P : Params) (leaves : Nat → Int) (U : Finset Nat) :
    view P (ringoram.init P leaves) U = 0 := by
  unfold view heldIn ringoram.init
  simp [drain_init]

/-- The constructed ORAM satisfies the structural invariant. -/
theorem init_Inv (P : Params) (leaves : Nat → Int)
    (h : ∀ i, i < P.N → ValidLeaf P (leaves i)) (U : Finset Nat) :
    Inv P (ringoram.init P leaves) U := by
  constructor
  · intro p; exact bucket_init_WF P
  · rw [view_init]; intro e he; exact absurd he (Multiset.not_mem_zero e)
  · rw [view_init]; intro e he; exact absurd he (Multiset.not_mem_zero e)
  · intro p _ e he
    have : drain P ((ringoram.init P leaves).storage p) = [] := drain_init P
    rw [this] at he
    exact absurd he (List.not_mem_nil e)
  · rw [view_init]; simp
  · exact h

theorem init_Dum (P : Params) (leaves : Nat → Int) : Dum P (ringoram.init P leaves) := by
  intro p
  have : (ringoram.init P leaves).storage p = bucket.init P := rfl
  rw [this, validDummies_init]
  unfold Params.maxblockEachbkt
  omega

theorem init_Cnt (P : Params) (hS : 1 ≤ P.dummyBlockEachbkt) (leaves : Nat → Int) :
    Cnt P (ringoram.init P leaves) := by
  intro p
  have : ((ringoram.init P leaves).storage p).count = 0 := rfl
  omega

/-- An invalid index is rejected without any effect. -/
theorem access_invalid (P : Params) (c : Coins) (i : Int) (op : Operation) (d : Bytes)
    (st : ringoram) (hi : i < 0 ∨ i ≥ (P.N : Int)) :
    access P c i op d st = some ([], st) := by
  unfold access
  rw [if_pos hi]

/-- Every reachable state has valid leaves in its position map, respects the dummy budget and
has every count below `S`. -/
theorem reachable_light (P : Params) (hS : 1 ≤ P.dummyBlockEachbkt) (st : ringoram)
    (hr : Reachable P st) : PmValid P st ∧ Dum P st ∧ Cnt P st := by
  induction hr with
  | init leaves h => exact ⟨h, init_Dum P leaves, init_Cnt P hS leaves⟩
  | step st st2 c i op d out _ hc hacc ih =>
    obtain ⟨h1, h2, h3⟩ := ih
    by_cases hi : i < 0 ∨ i ≥ (P.N : Int)
    · rw [access_invalid P c i op d st hi] at hacc
      obtain ⟨_, rfl⟩ := Prod.mk.inj (Option.some.inj hacc)
      exact ⟨h1, h2, h3⟩
    · push_neg at hi
      obtain ⟨out2, st3, e1, e2, e3, e4, _, _⟩ :=
        access_light P hS c hc i op d st hi.1 hi.2 h1 h2 h3
      rw [e1] at hacc
      obtain ⟨_, rfl⟩ := Prod.mk.inj (Option.some.inj hacc)
      exact ⟨e2, e3, e4⟩

/-- Every reachable state satisfies the structural invariant, for a correct cipher. -/
theorem reachable_Inv (P : Params) (hc : CipherCorrect P) (hS : 1 ≤ P.dummyBlockEachbkt)
    (st : ringoram) (hr : Reachable P st) : Inv P st (Finset.range P.num_bucket) := by
  induction hr with
  | init leaves h => exact init_Inv P leaves h _
  | step st st2 c i op d out hreach hco hacc ih =>
    obtain ⟨_, h2, h3⟩ := reachable_light P hS st hreach
    by_cases hi : i < 0 ∨ i ≥ (P.N : Int)
    · rw [access_invalid P c i op d st hi] at hacc
      obtain ⟨_, rfl⟩ := Prod.mk.inj (Option.some.inj hacc)
      exact ih
    · push_neg at hi
      obtain ⟨st3, e1, e2, _⟩ := access_spec P hc hS c hco i op d st hi.1 hi.2 ih h2 h3
      rw [e1] at hacc
      obtain ⟨_, rfl⟩ := Prod.mk.inj (Option.some.inj hacc)
      exact e2

/-- The counter `round` of a reachable state is below `EvictRound`. -/
theorem reachable_round (P : Params) (hS : 1 ≤ P.dummyBlockEachbkt) (hA : 1 ≤ P.EvictRound)
    (st : ringoram) (hr : Reachable P st) : st.round < P.EvictRound := by
  induction hr with
  | init leaves h => exact hA
  | step st st2 c i op d out hreach hco hacc ih =>
    obtain ⟨h1, h2, h3⟩ := reachable_light P hS st hreach
    by_cases hi : i < 0 ∨ i ≥ (P.N : Int)
    · rw [access_invalid P c i op d st hi] at hacc
      obtain ⟨_, rfl⟩ := Prod.mk.inj (Option.some.inj hacc)
      exact ih
    · push_neg at hi
      obtain ⟨out2, st3, e1, _, _, _, e5, _⟩ :=
        access_light P hS c hco i op d st hi.1 hi.2 h1 h2 h3
      rw [e1] at hacc
      obtain ⟨_, rfl⟩ := Prod.mk.inj (Option.some.inj hacc)
      rw [e5]
      exact Nat.mod_lt _ (by omega)

end RingORAM

namespace RingORAM

/-! ## The cipher assumption -/

/-- The assumption `CipherCorrect` follows from the contract of `CryptoUtils`: decryption
undoes encryption, and a ciphertext is a whole number of 16-byte blocks at least as long as
the plaintext. -/
theorem cipherCorrect_of_contract (P : Params)
    (hround : ∀ x, P.decrypt (P.encrypt x) = some x)
    (hsize : ∀ x, (P.encrypt x).length % 16 = 0)
    (hlen : ∀ x, x.length ≤ (P.encrypt x).length) : CipherCorrect P := by
  intro x
  unfold encrypt_data
  by_cases hx : x.isEmpty = true
  · rw [if_pos hx]
    unfold decrypt_data
    rw [if_pos hx]
  · rw [if_neg hx]
    have hne : (P.encrypt x).isEmpty = false := by
      cases he : P.encrypt x with
      | nil =>
        exfalso
        have := hlen x
        rw [he] at this
        cases x with
        | nil => exact hx rfl
        | cons a t => simp at this
      | cons a t => rfl
    unfold decrypt_data
    simp only [hne, Bool.false_eq_true, if_false, hsize x, ne_eq, not_true_eq_false, hround x]

end RingORAM

namespace RingORAM

/-! ## Facts about the scenario configuration -/

theorem scenario_cipher : CipherCorrect scenarioParams := by
  intro x
  unfold decrypt_data encrypt_data
  simp only [scenarioParams]
  split_ifs <;> rfl

theorem scenario_coins : ValidCoins scenarioParams scenarioCoins := by
  refine ⟨by decide, ?_, ?_⟩
  · intro i l; exact List.Perm.refl l
  · intro i l; exact List.Perm.refl l

theorem scenario_leaf_two : ValidLeaf scenarioParams 2 := by decide

theorem scenario_leaves :
    ∀ i, i < scenarioParams.N → ValidLeaf scenarioParams ((fun _ => 2 : Nat → Int) i) :=
  fun _ _ => scenario_leaf_two

theorem scenario_reachable : Reachable scenarioParams scenarioInit :=
  Reachable.init _ scenario_leaves

end RingORAM

namespace RingORAM

/-! ## Sequences of accesses -/

/-- An access to index `i` does not change what is stored for another index. -/
theorem stored_frame (P : Params) (st st2 : ringoram) (new : block) (i j : Int)
    (hn : ((view P st (Finset.range P.num_bucket)).map (fun e => e.blockindex)).Nodup)
    (hn2 : ((view P st2 (Finset.range P.num_bucket)).map (fun e => e.blockindex)).Nodup)
    (hv : view P st2 (Finset.range P.num_bucket) =
      new ::ₘ (view P st (Finset.range P.num_bucket)).filter (fun e => e.blockindex ≠ i))
    (hnew : new.blockindex = i) (hji : j ≠ i) : stored P st2 j = stored P st j := by
  by_cases hex : ∃ e ∈ view P st (Finset.range P.num_bucket), e.blockindex = j
  · obtain ⟨e, he, hej⟩ := hex
    have he2 : e ∈ view P st2 (Finset.range P.num_bucket) := by
      rw [hv]
      apply Multiset.mem_cons_of_mem
      rw [Multiset.mem_filter]
      exact ⟨he, by rw [hej]; exact hji⟩
    rw [← hej, stored_of_mem P st hn e he, stored_of_mem P st2 hn2 e he2]
  · push_neg at hex
    rw [stored_of_not_mem P st j hex]
    apply stored_of_not_mem
    intro e he
    rw [hv] at he
    rcases Multiset.mem_cons.mp he with rfl | he
    · rw [hnew]; exact hji.symm
    · exact hex e (Multiset.mem_of_mem_filter he)

/-- After an access to index `i` the payload stored for `i` is the payload returned. -/
theorem stored_new (P : Params) (st2 : ringoram) (new : block) (rest : Multiset block)
    (hn2 : ((view P st2 (Finset.range P.num_bucket)).map (fun e => e.blockindex)).Nodup)
    (hv : view P st2 (Finset.range P.num_bucket) = new ::ₘ rest) :
    stored P st2 new.blockindex = new.data :=
  stored_of_mem P st2 hn2 new (by rw [hv]; exact Multiset.mem_cons_self _ _)

/-- A run of accesses with valid indices answers like a plain array, from any state that
satisfies the invariant and stores, for every index, the most recent write of the history. -/
theorem run_refines (P : Params) (hc : CipherCorrect P) (hS : 1 ≤ P.dummyBlockEachbkt)
    (crs : List (Coins × Request)) (st : ringoram) (hist : List Request)
    (hv : ∀ cr ∈ crs, ValidCoins P cr.1 ∧ 0 ≤ cr.2.blockindex ∧ cr.2.blockindex < (P.N : Int))
    (h : Inv P st (Finset.range P.num_bucket)) (hd : Dum P st) (hcnt : Cnt P st)
    (hst : ∀ j, stored P st j = mostRecentWrite j hist) :
    ∃ st2, run P st crs = some (arrayOutputs hist (crs.map Prod.snd), st2) := by
  induction crs generalizing st hist with
  | nil => exact ⟨st, rfl⟩
  | cons cr rest ih =>
    obtain ⟨hco, hi0, hiN⟩ := hv cr (by simp)
    obtain ⟨st1, e1, e2, e3, e4, e5, _, _, _⟩ :=
      access_spec P hc hS cr.1 hco cr.2.blockindex cr.2.op cr.2.data st hi0 hiN h hd hcnt
    have hst1 : ∀ j, stored P st1 j = mostRecentWrite j (cr.2 :: hist) := by
      intro j
      unfold mostRecentWrite
      by_cases hj : j = cr.2.blockindex
      · subst hj
        have := stored_new P st1 _ _ e2.nodup e5
        simp only at this
        rw [this]
        by_cases hw : cr.2.op = Operation.WRITE
        · simp [hw]
        · simp only [hw, if_false, false_and]
          exact hst _
      · have hne : ¬ (cr.2.op = Operation.WRITE ∧ cr.2.blockindex = j) :=
          fun hh => hj hh.2.symm
        rw [if_neg hne, ← hst j]
        exact stored_frame P st st1 _ cr.2.blockindex j h.nodup e2.nodup e5 rfl hj
    obtain ⟨st2, f1⟩ := ih st1 (cr.2 :: hist) (fun x hx => hv x (by simp [hx])) e2 e3 e4 hst1
    refine ⟨st2, ?_⟩
    unfold run
    rw [e1]
    simp only [f1, List.map_cons, arrayOutputs]
    rw [hst]

theorem schedule_arith (A r n : Nat) (hA : 1 ≤ A) (hr : r < A) :
    (if (r + 1) % A = 0 then 1 else 0) + ((r + 1) % A + n) / A = (r + (n + 1)) / A ∧
      ((r + 1) % A + n) % A = (r + (n + 1)) % A := by
  by_cases h : r + 1 = A
  · have h0 : (r + 1) % A = 0 := by rw [h]; exact Nat.mod_self A
    rw [h0, if_pos rfl]
    have e : r + (n + 1) = A + n := by omega
    rw [e, Nat.zero_add]
    constructor
    · rw [Nat.add_div_left n (by omega)]
      omega
    · rw [Nat.add_mod_left]
  · have hlt : r + 1 < A := by omega
    have h0 : (r + 1) % A = r + 1 := Nat.mod_eq_of_lt hlt
    rw [h0, if_neg (by omega)]
    have e : r + 1 + n = r + (n + 1) := by omega
    rw [e]
    exact ⟨by omega, rfl⟩

/-- A run of accesses with valid indices returns; afterwards `G` has advanced by the number
of times `round` wrapped to zero. -/
theorem run_schedule (P : Params) (hS : 1 ≤ P.dummyBlockEachbkt) (hA : 1 ≤ P.EvictRound)
    (crs : List (Coins × Request)) (st : ringoram)
    (hv : ∀ cr ∈ crs, ValidCoins P cr.1 ∧ 0 ≤ cr.2.blockindex ∧ cr.2.blockindex < (P.N : Int))
    (hpm : PmValid P st) (hd : Dum P st) (hcnt : Cnt P st) (hr : st.round < P.EvictRound) :
    ∃ outs st2, run P st crs = some (outs, st2) ∧ outs.length = crs.length ∧
      st2.G = st.G + (st.round + crs.length) / P.EvictRound ∧
      st2.round = (st.round + crs.length) % P.EvictRound := by
  induction crs generalizing st with
  | nil =>
    refine ⟨[], st, rfl, rfl, ?_, ?_⟩
    · simp only [List.length_nil, Nat.add_zero]
      rw [Nat.div_eq_of_lt hr]
      rfl
    · simp only [List.length_nil, Nat.add_zero]
      exact (Nat.mod_eq_of_lt hr).symm
  | cons cr rest ih =>
    obtain ⟨hco, hi0, hiN⟩ := hv cr (by simp)
    obtain ⟨out, st1, e1, e2, e3, e4, e5, e6⟩ :=
      access_light P hS cr.1 hco cr.2.blockindex cr.2.op cr.2.data st hi0 hiN hpm hd hcnt
    have hr1 : st1.round < P.EvictRound := by
      rw [e5]; exact Nat.mod_lt _ (by omega)
    obtain ⟨outs, st2, f1, f2, f3, f4⟩ := ih st1 (fun x hx => hv x (by simp [hx])) e2 e3 e4 hr1
    obtain ⟨g1, g2⟩ := schedule_arith P.EvictRound st.round rest.length hA hr
    refine ⟨out :: outs, st2, ?_, by simp [f2], ?_, ?_⟩
    · unfold run
      rw [e1]
      simp only [f1]
    · rw [f3, e6, e5, List.length_cons, ← g1]
      split_ifs <;> omega
    · rw [f4, e5, List.length_cons, ← g2]

end RingORAM

namespace RingORAM

/-! ## Properties of the specification -/

/-- C1 (round trip): in every reachable state, for every valid block index `i`, every payload
`d` and every random outcome of the two calls, `access(i, WRITE, d)` followed immediately by
`access(i, READ, x)` returns `d`, for a cipher whose decryption undoes its encryption. -/
theorem C1_write_then_read_returns_written (P : Params) (hc : CipherCorrect P)
    (hS : 1 ≤ P.dummyBlockEachbkt) (st : ringoram) (hr : Reachable P st) (i : Int)
    (hi0 : 0 ≤ i) (hiN : i < (P.N : Int)) (d x : Bytes) (c1 c2 : Coins)
    (h1 : ValidCoins P c1) (h2 : ValidCoins P c2) :
    ∃ out1 st1 st2, access P c1 i Operation.WRITE d st = some (out1, st1) ∧
      access P c2 i Operation.READ x st1 = some (d, st2) := by
  obtain ⟨_, hd, hcnt⟩ := reachable_light P hS st hr
  have h := reachable_Inv P hc hS st hr
  obtain ⟨st1, e1, e2, e3, e4, e5, _⟩ :=
    access_spec P hc hS c1 h1 i Operation.WRITE d st hi0 hiN h hd hcnt
  obtain ⟨st2, f1, _⟩ := access_spec P hc hS c2 h2 i Operation.READ x st1 hi0 hiN e2 e3 e4
  have hst : stored P st1 i = d := by
    have := stored_new P st1 _ _ e2.nodup e5
    simpa using this
  refine ⟨_, st1, st2, e1, ?_⟩
  rw [f1]
  simp [hst]

/-- Scenario S1 of the spec: write block 3, then read block 3. -/
theorem C1_write_then_read_returns_written_witness :
    ∃ out1 st1 st2,
      access scenarioParams scenarioCoins 3 Operation.WRITE (scenarioPayload 1) scenarioInit =
        some (out1, st1) ∧
      access scenarioParams scenarioCoins 3 Operation.READ [] st1 =
        some (scenarioPayload 1, st2) :=
  C1_write_then_read_returns_written scenarioParams scenario_cipher (by decide) scenarioInit
    scenario_reachable 3 (by decide) (by decide) (scenarioPayload 1) [] scenarioCoins
    scenarioCoins scenario_coins scenario_coins

/-- C2 (plain array): every sequence of `access` calls with valid indices on a freshly
constructed ORAM returns, for every random outcome, and its answers are those of a plain
array: a write answers its data, a read answers the data of the most recent earlier write to
the same index (the empty payload when there was none), whatever happened to other indices in
between. -/
theorem C2_behaves_like_plain_array (P : Params) (hc : CipherCorrect P)
    (hS : 1 ≤ P.dummyBlockEachbkt) (leaves : Nat → Int)
    (hl : ∀ i, i < P.N → ValidLeaf P (leaves i)) (crs : List (Coins × Request))
    (hv : ∀ cr ∈ crs, ValidCoins P cr.1 ∧ 0 ≤ cr.2.blockindex ∧
      cr.2.blockindex < (P.N : Int)) :
    ∃ st2, run P (ringoram.init P leaves) crs =
      some (arrayOutputs [] (crs.map Prod.snd), st2) := by
  apply run_refines P hc hS crs _ [] hv (init_Inv P leaves hl _) (init_Dum P leaves)
    (init_Cnt P hS leaves)
  intro j
  apply stored_of_not_mem
  intro e he
  rw [view_init] at he
  exact absurd he (Multiset.not_mem_zero e)

/-- Scenario S2 of the spec, with a read of an unwritten block in between. -/
theorem C2_behaves_like_plain_array_witness :
    ∃ st2, run scenarioParams (ringoram.init scenarioParams (fun _ => 2))
        [(scenarioCoins, ⟨3, Operation.WRITE, scenarioPayload 1⟩),
          (scenarioCoins, ⟨3, Operation.WRITE, scenarioPayload 2⟩),
          (scenarioCoins, ⟨5, Operation.READ, []⟩),
          (scenarioCoins, ⟨3, Operation.READ, []⟩)] =
      some ([scenarioPayload 1, scenarioPayload 2, [], scenarioPayload 2], st2) :=
  C2_behaves_like_plain_array scenarioParams scenario_cipher (by decide) (fun _ => 2)
    scenario_leaves _ (by
      intro cr hcr
      simp only [List.mem_cons, List.mem_singleton, List.not_mem_nil, or_false] at hcr
      rcases hcr with rfl | rfl | rfl | rfl <;> exact ⟨scenario_coins, by decide, by decide⟩)

/-- C3 (invalid index): for every block index below zero or at least `N`, every operation and
every data, `access` returns the empty payload and the state (position map, stash, buckets,
`round`, `G`) is unchanged. -/
theorem C3_invalid_index_rejected (P : Params) (c : Coins) (i : Int) (op : Operation)
    (d : Bytes) (st : ringoram) (hi : i < 0 ∨ i ≥ (P.N : Int)) :
    access P c i op d st = some ([], st) := by
  unfold access
  rw [if_pos hi]

/-- Block index 16 on an ORAM of 16 blocks. -/
theorem C3_invalid_index_rejected_witness :
    access scenarioParams scenarioCoins 16 Operation.WRITE (scenarioPayload 1) scenarioInit =
      some ([], scenarioInit) :=
  C3_invalid_index_rejected scenarioParams scenarioCoins 16 Operation.WRITE (scenarioPayload 1)
    scenarioInit (by decide)

/-- C4 (return value): in every reachable state and for every valid index `i`,
`access(i, WRITE, d)` returns exactly `d`, and `access(i, READ, d)` returns the plaintext
stored for `i` before the call, whatever its data argument `d` is. -/
theorem C4_return_value (P : Params) (hc : CipherCorrect P) (hS : 1 ≤ P.dummyBlockEachbkt)
    (st : ringoram) (hr : Reachable P st) (i : Int) (hi0 : 0 ≤ i) (hiN : i < (P.N : Int))
    (d : Bytes) (c : Coins) (hco : ValidCoins P c) :
    (∃ st2, access P c i Operation.WRITE d st = some (d, st2)) ∧
      (∃ st2, access P c i Operation.READ d st = some (stored P st i, st2)) := by
  obtain ⟨_, hd, hcnt⟩ := reachable_light P hS st hr
  have h := reachable_Inv P hc hS st hr
  obtain ⟨st1, e1, _⟩ := access_spec P hc hS c hco i Operation.WRITE d st hi0 hiN h hd hcnt
  obtain ⟨st2, f1, _⟩ := access_spec P hc hS c hco i Operation.READ d st hi0 hiN h hd hcnt
  exact ⟨⟨st1, by simpa using e1⟩, ⟨st2, by simpa using f1⟩⟩

/-- A write and a read of block 3 on the constructed ORAM of the scenario configuration. -/
theorem C4_return_value_witness :
    (∃ st2, access scenarioParams scenarioCoins 3 Operation.WRITE (scenarioPayload 1)
        scenarioInit = some (scenarioPayload 1, st2)) ∧
      (∃ st2, access scenarioParams scenarioCoins 3 Operation.READ (scenarioPayload 1)
        scenarioInit = some (stored scenarioParams scenarioInit 3, st2)) :=
  C4_return_value scenarioParams scenario_cipher (by decide) scenarioInit scenario_reachable 3
    (by decide) (by decide) (scenarioPayload 1) scenarioCoins scenario_coins

/-- C5 (eviction schedule): a run of `access` calls with valid indices from a reachable state
returns; `G`, which `EvictPath` alone increments (once per call), advances by the number of
multiples of `A = EvictRound` that `round` passes. So over any `A` consecutive valid accesses
`EvictPath` runs exactly once, and from `round = 0` it has run `n / A` times after `n` valid
accesses: on the `A`-th, `2A`-th, ... access and on no other. -/
theorem C5_eviction_schedule (P : Params) (hS : 1 ≤ P.dummyBlockEachbkt)
    (hA : 1 ≤ P.EvictRound) (st : ringoram) (hr : Reachable P st)
    (crs : List (Coins × Request))
    (hv : ∀ cr ∈ crs, ValidCoins P cr.1 ∧ 0 ≤ cr.2.blockindex ∧
      cr.2.blockindex < (P.N : Int)) :
    ∃ outs st2, run P st crs = some (outs, st2) ∧
      st2.G = st.G + (st.round + crs.length) / P.EvictRound ∧
      st2.round = (st.round + crs.length) % P.EvictRound ∧
      (crs.length = P.EvictRound → st2.G = st.G + 1) ∧
      (st.round = 0 → st2.G = st.G + crs.length / P.EvictRound) := by
  obtain ⟨hpm, hd, hcnt⟩ := reachable_light P hS st hr
  have hround := reachable_round P hS hA st hr
  obtain ⟨outs, st2, e1, _, e3, e4⟩ := run_schedule P hS hA crs st hv hpm hd hcnt hround
  refine ⟨outs, st2, e1, e3, e4, ?_, ?_⟩
  · intro hlen
    rw [e3, hlen, Nat.add_div_right _ (by omega), Nat.div_eq_of_lt hround]
  · intro h0
    rw [e3, h0, Nat.zero_add]

/-- Scenario S5 of the spec: after `A = 3` accesses `G` has advanced by exactly one. -/
theorem C5_eviction_schedule_witness :
    ∃ outs st2, run scenarioParams scenarioInit
        [(scenarioCoins, ⟨3, Operation.WRITE, scenarioPayload 1⟩),
          (scenarioCoins, ⟨4, Operation.READ, []⟩),
          (scenarioCoins, ⟨3, Operation.READ, []⟩)] = some (outs, st2) ∧
      st2.G = scenarioInit.G + (scenarioInit.round + 3) / 3 ∧
      st2.round = (scenarioInit.round + 3) % 3 ∧
      (3 = 3 → st2.G = scenarioInit.G + 1) ∧
      (scenarioInit.round = 0 → st2.G = scenarioInit.G + 3 / 3) :=
  C5_eviction_schedule scenarioParams (by decide) (by decide) scenarioInit scenario_reachable
    [(scenarioCoins, ⟨3, Operation.WRITE, scenarioPayload 1⟩),
      (scenarioCoins, ⟨4, Operation.READ, []⟩),
      (scenarioCoins, ⟨3, Operation.READ, []⟩)] (by
      intro cr hcr
      simp only [List.mem_cons, List.mem_singleton, List.not_mem_nil, or_false] at hcr
      rcases hcr with rfl | rfl | rfl <;> exact ⟨scenario_coins, by decide, by decide⟩)

end RingORAM

namespace RingORAM

theorem filter_ne_eq_erase (s : Multiset block) (e : block) (he : e ∈ s)
    (hn : (s.map (fun x => x.blockindex)).Nodup) :
    s.filter (fun x => x.blockindex ≠ e.blockindex) = s.erase e := by
  have hs : e ::ₘ s.erase e = s := Multiset.cons_erase he
  have hn2 := hn
  rw [← hs, Multiset.map_cons, Multiset.nodup_cons] at hn2
  conv_lhs => rw [← hs]
  rw [Multiset.filter_cons_of_neg _ (by simp), Multiset.filter_eq_self]
  intro x hx hxe
  exact hn2.1 (Multiset.mem_map.mpr ⟨x, hx, hxe⟩)

theorem pairs_filter (P : Params) (st : ringoram) (i : Int) :
    (pairs P st).filter (fun q => q.1 ≠ i) =
      ((view P st (Finset.range P.num_bucket)).filter (fun e => e.blockindex ≠ i)).map
        (fun e => (e.blockindex, e.data)) := by
  unfold pairs
  rw [Multiset.filter_map]
  rfl

/-- C6 as the specification states it fails on the first access to a block: a `READ` of block 0 on
the freshly constructed ORAM adds the pair `(0, empty)` to the multiset, which was empty. -/
theorem C6_first_access_adds_a_pair :
    ∃ out st2, access scenarioParams scenarioCoins 0 Operation.READ [] scenarioInit =
        some (out, st2) ∧
      pairs scenarioParams scenarioInit = 0 ∧
      pairs scenarioParams st2 ≠ pairs scenarioParams scenarioInit := by
  obtain ⟨_, hd, hcnt⟩ := reachable_light scenarioParams (by decide) scenarioInit
    scenario_reachable
  have h := reachable_Inv scenarioParams scenario_cipher (by decide) scenarioInit
    scenario_reachable
  obtain ⟨st2, e1, _, _, _, e5, _⟩ := access_spec scenarioParams scenario_cipher (by decide)
    scenarioCoins scenario_coins 0 Operation.READ [] scenarioInit (by decide) (by decide)
    h hd hcnt
  have h0 : pairs scenarioParams scenarioInit = 0 := by
    unfold pairs scenarioInit
    rw [view_init]
    rfl
  refine ⟨_, st2, e1, h0, ?_⟩
  rw [h0]
  unfold pairs
  rw [e5, Multiset.map_cons]
  exact Multiset.cons_ne_zero

/-- C6 (amended): in every reachable state, a call of `access` with a valid index `i` returns
and leaves as multiset of `(block_index, plaintext)` pairs the one before the call with the
pairs of index `i` removed and the pair `(i, returned payload)` added; the returned payload is
the written data on `WRITE` and the plaintext stored for `i` on `READ`. When a pair for `i`
was held before the call, a `READ` leaves the multiset unchanged and a `WRITE` replaces the
pair of `i` by `(i, written data)`. -/
theorem C6_pairs_after_access (P : Params) (hc : CipherCorrect P)
    (hS : 1 ≤ P.dummyBlockEachbkt) (st : ringoram) (hr : Reachable P st) (i : Int)
    (hi0 : 0 ≤ i) (hiN : i < (P.N : Int)) (op : Operation) (d : Bytes) (c : Coins)
    (hco : ValidCoins P c) :
    ∃ out st2, access P c i op d st = some (out, st2) ∧
      out = (if op = Operation.WRITE then d else stored P st i) ∧
      pairs P st2 = (i, out) ::ₘ (pairs P st).filter (fun q => q.1 ≠ i) ∧
      ((∃ x, (i, x) ∈ pairs P st) → op = Operation.READ → pairs P st2 = pairs P st) ∧
      ((∃ x, (i, x) ∈ pairs P st) → op = Operation.WRITE →
        pairs P st2 = (i, d) ::ₘ (pairs P st).erase (i, stored P st i)) := by
  obtain ⟨_, hd, hcnt⟩ := reachable_light P hS st hr
  have h := reachable_Inv P hc hS st hr
  obtain ⟨st2, e1, _, _, _, e5, _⟩ := access_spec P hc hS c hco i op d st hi0 hiN h hd hcnt
  have hp : pairs P st2 = (i, if op = Operation.WRITE then d else stored P st i) ::ₘ
      (pairs P st).filter (fun q => q.1 ≠ i) := by
    rw [pairs_filter]
    conv_lhs => unfold pairs
    rw [e5, Multiset.map_cons]
  have hheld : (∃ x, (i, x) ∈ pairs P st) →
      (pairs P st).filter (fun q => q.1 ≠ i) = (pairs P st).erase (i, stored P st i) ∧
      (i, stored P st i) ∈ pairs P st := by
    rintro ⟨x, hx⟩
    unfold pairs at hx
    obtain ⟨e, he, hex⟩ := Multiset.mem_map.mp hx
    have hei : e.blockindex = i := (Prod.mk.inj hex).1
    have hst : stored P st i = e.data := by
      rw [← hei]; exact stored_of_mem P st h.nodup e he
    have hfe := filter_ne_eq_erase _ e he h.nodup
    rw [hei] at hfe
    have hs : e ::ₘ (view P st (Finset.range P.num_bucket)).erase e =
        view P st (Finset.range P.num_bucket) := Multiset.cons_erase he
    have hpe : pairs P st = (i, stored P st i) ::ₘ
        ((view P st (Finset.range P.num_bucket)).erase e).map
          (fun e => (e.blockindex, e.data)) := by
      conv_lhs => unfold pairs
      conv_lhs => rw [← hs]
      rw [Multiset.map_cons, hei, hst]
    constructor
    · rw [pairs_filter, hfe]
      conv_rhs => rw [hpe]
      rw [Multiset.erase_cons_head]
    · rw [hpe]
      exact Multiset.mem_cons_self _ _
  refine ⟨_, st2, e1, rfl, hp, ?_, ?_⟩
  · intro hx hop
    obtain ⟨h1, h2⟩ := hheld hx
    rw [hp, h1, hop]
    simp only [reduceCtorEq, if_false]
    exact Multiset.cons_erase h2
  · intro hx hop
    obtain ⟨h1, _⟩ := hheld hx
    rw [hp, h1, hop]
    simp only [if_true]

/-- The first write of block 3 on the constructed ORAM of the scenario configuration. -/
theorem C6_pairs_after_access_witness :
    ∃ out st2, access scenarioParams scenarioCoins 3 Operation.WRITE (scenarioPayload 1)
        scenarioInit = some (out, st2) ∧
      out = (if Operation.WRITE = Operation.WRITE then scenarioPayload 1
        else stored scenarioParams scenarioInit 3) ∧
      pairs scenarioParams st2 =
        (3, out) ::ₘ (pairs scenarioParams scenarioInit).filter (fun q => q.1 ≠ 3) ∧
      ((∃ x, (3, x) ∈ pairs scenarioParams scenarioInit) → Operation.WRITE = Operation.READ →
        pairs scenarioParams st2 = pairs scenarioParams scenarioInit) ∧
      ((∃ x, (3, x) ∈ pairs scenarioParams scenarioInit) → Operation.WRITE = Operation.WRITE →
        pairs scenarioParams st2 = (3, scenarioPayload 1) ::ₘ
          (pairs scenarioParams scenarioInit).erase (3, stored scenarioParams scenarioInit 3)) :=
  C6_pairs_after_access scenarioParams scenario_cipher (by decide) scenarioInit
    scenario_reachable 3 (by decide) (by decide) Operation.WRITE (scenarioPayload 1)
    scenarioCoins scenario_coins

/-- C7, evaluated on the code: on the freshly constructed ORAM of the scenario configuration
`ReadPath(2, 3)` returns and leaves the counts `2, 2, 2, 2, 2` in the five buckets of the path
of leaf 2 (positions 0, 1, 3, 8, 17), which were all zero: each count grew by two, not by
one, because the loop body increments `count` twice. The bucket at position 2, off the path,
keeps count zero. -/
theorem C7_readpath_increments_count_twice :
    (ReadPath scenarioParams 2 3 scenarioInit).map
        (fun r => ([0, 1, 3, 8, 17].map (fun p => (r.2.storage p).count),
          (r.2.storage 2).count)) = some ([2, 2, 2, 2, 2], 0) ∧
      [0, 1, 2, 3, 4].map (fun k => Path_bucket scenarioParams 2 k) = [0, 1, 3, 8, 17] ∧
      [0, 1, 3, 8, 17].map (fun p => (scenarioInit.storage p).count) = [0, 0, 0, 0, 0] := by
  decide

end RingORAM

namespace RingORAM

theorem lt_length_of_getD_true (l : List Bool) (k : Nat) (h : l.getD k false = true) :
    k < l.length := by
  by_contra hk
  rw [List.getD_eq_default l false (by omega)] at h
  exact absurd h (by simp)

/-- In a reachable state `ReadPath` on a valid leaf returns, and it adds two to the count of
every bucket on the path: the body of its loop increments `count` twice. -/
theorem ReadPath_count_delta (P : Params) (hS : 1 ≤ P.dummyBlockEachbkt) (st : ringoram)
    (hr : Reachable P st) (leaf : Int) (hleaf : ValidLeaf P leaf) (i : Int) :
    ∃ blk st2, ReadPath P leaf i st = some (blk, st2) ∧
      (∀ k, k ≤ P.L → (st2.storage (Path_bucket P leaf k)).count =
        (st.storage (Path_bucket P leaf k)).count + 2) ∧
      (∀ p, (∀ k, k ≤ P.L → p ≠ Path_bucket P leaf k) → st2.storage p = st.storage p) := by
  obtain ⟨_, hd, hcnt⟩ := reachable_light P hS st hr
  have hmem : ∀ k, k ∈ List.range (P.L + 1) ↔ k ≤ P.L := by
    intro k; rw [List.mem_range]; omega
  obtain ⟨blk, st2, r1, _, _, _, _, r7, r8⟩ := ReadPath_loop_struct P leaf i hleaf
    (List.range (P.L + 1)) (List.nodup_range _) (fun k hk => (hmem k).mp hk) (dummyBlock, st)
    (fun k _ => by
      have h1 := hd (Path_bucket P leaf k)
      have h2 := hcnt (Path_bucket P leaf k)
      simp only
      omega)
  refine ⟨blk, st2, r1, ?_, ?_⟩
  · intro k hk
    obtain ⟨off, _, _, _, h4⟩ := r8 k ((hmem k).mpr hk)
    rw [h4]
    rfl
  · intro p hp
    exact r7 p (fun k hk => hp k ((hmem k).mp hk))

/-- C8 (invalid-slot discipline): in every reachable state, for every valid leaf and every
block index `i`, `ReadPath(leaf, i)` returns; in each of the `L + 1` buckets of the path
(which lie at pairwise different positions) exactly one slot, the one `GetBlockOffset`
selects, goes from valid to invalid and every other flag of the bucket is kept; the selected
slot holds `i`, or is a dummy slot when no valid slot of the bucket holds `i`; every bucket
off the path is unchanged. -/
theorem C8_readpath_invalidates_one_slot_per_bucket (P : Params)
    (hS : 1 ≤ P.dummyBlockEachbkt) (st : ringoram) (hr : Reachable P st) (leaf : Int)
    (hleaf : ValidLeaf P leaf) (i : Int) :
    ∃ blk st2, ReadPath P leaf i st = some (blk, st2) ∧
      (∀ k, k ≤ P.L → ∃ off,
        GetBlockOffset P (st.storage (Path_bucket P leaf k)) i = some off ∧
        off < (st.storage (Path_bucket P leaf k)).valids.length ∧
        (st.storage (Path_bucket P leaf k)).valids.getD off false = true ∧
        (st2.storage (Path_bucket P leaf k)).valids =
          (st.storage (Path_bucket P leaf k)).valids.set off false ∧
        ((st.storage (Path_bucket P leaf k)).ptrs.getD off 0 = i ∨
          ((st.storage (Path_bucket P leaf k)).ptrs.getD off 0 = -1 ∧
            ∀ j, j < P.maxblockEachbkt →
              ¬ ((st.storage (Path_bucket P leaf k)).ptrs.getD j 0 = i ∧
                (st.storage (Path_bucket P leaf k)).valids.getD j false = true)))) ∧
      (∀ p, (∀ k, k ≤ P.L → p ≠ Path_bucket P leaf k) → st2.storage p = st.storage p) ∧
      (∀ k1 k2, k1 ≤ P.L → k2 ≤ P.L → Path_bucket P leaf k1 = Path_bucket P leaf k2 →
        k1 = k2) := by
  obtain ⟨_, hd, hcnt⟩ := reachable_light P hS st hr
  have hmem : ∀ k, k ∈ List.range (P.L + 1) ↔ k ≤ P.L := by
    intro k; rw [List.mem_range]; omega
  obtain ⟨blk, st2, r1, _, _, _, _, r7, r8⟩ := ReadPath_loop_struct P leaf i hleaf
    (List.range (P.L + 1)) (List.nodup_range _) (fun k hk => (hmem k).mp hk) (dummyBlock, st)
    (fun k _ => by
      have h1 := hd (Path_bucket P leaf k)
      have h2 := hcnt (Path_bucket P leaf k)
      simp only
      omega)
  refine ⟨blk, st2, r1, ?_, ?_, ?_⟩
  · intro k hk
    obtain ⟨off, h1, _, h3, h4⟩ := r8 k ((hmem k).mpr hk)
    simp only at h1 h3 h4
    refine ⟨off, h1, lt_length_of_getD_true _ off h3, h3, ?_, (GetBlockOffset_some P _ i off h1).2.2⟩
    rw [h4]
    exact List.set_set false false _ off
  · intro p hp
    exact r7 p (fun k hk => hp k ((hmem k).mp hk))
  · intro k1 k2 h1 h2 he
    exact Path_bucket_inj P leaf k1 k2 hleaf h1 h2 he

/-- The path of leaf 2 read for block 3 on the constructed ORAM of the scenario. -/
theorem C8_readpath_invalidates_one_slot_per_bucket_witness :
    ∃ blk st2, ReadPath scenarioParams 2 3 scenarioInit = some (blk, st2) ∧
      (∀ k, k ≤ scenarioParams.L → ∃ off,
        GetBlockOffset scenarioParams (scenarioInit.storage (Path_bucket scenarioParams 2 k)) 3 =
          some off ∧
        off < (scenarioInit.storage (Path_bucket scenarioParams 2 k)).valids.length ∧
        (scenarioInit.storage (Path_bucket scenarioParams 2 k)).valids.getD off false = true ∧
        (st2.storage (Path_bucket scenarioParams 2 k)).valids =
          (scenarioInit.storage (Path_bucket scenarioParams 2 k)).valids.set off false ∧
        ((scenarioInit.storage (Path_bucket scenarioParams 2 k)).ptrs.getD off 0 = 3 ∨
          ((scenarioInit.storage (Path_bucket scenarioParams 2 k)).ptrs.getD off 0 = -1 ∧
            ∀ j, j < scenarioParams.maxblockEachbkt →
              ¬ ((scenarioInit.storage (Path_bucket scenarioParams 2 k)).ptrs.getD j 0 = 3 ∧
                (scenarioInit.storage (Path_bucket scenarioParams 2 k)).valids.getD j false =
                  true)))) ∧
      (∀ p, (∀ k, k ≤ scenarioParams.L → p ≠ Path_bucket scenarioParams 2 k) →
        st2.storage p = scenarioInit.storage p) ∧
      (∀ k1 k2, k1 ≤ scenarioParams.L → k2 ≤ scenarioParams.L →
        Path_bucket scenarioParams 2 k1 = Path_bucket scenarioParams 2 k2 → k1 = k2) :=
  C8_readpath_invalidates_one_slot_per_bucket scenarioParams (by decide) scenarioInit
    scenario_reachable 2 scenario_leaf_two 3

/-- C9 (reshuffle bound): in every state reachable from construction by `access` calls, that
is at the start and at the end of every `access`, no bucket has `count > S`. -/
theorem C9_count_never_exceeds_S (P : Params) (hS : 1 ≤ P.dummyBlockEachbkt) (st : ringoram)
    (hr : Reachable P st) (p : Nat) : ¬ (st.storage p).count > P.dummyBlockEachbkt := by
  obtain ⟨_, _, hcnt⟩ := reachable_light P hS st hr
  have := hcnt p
  omega

/-- The root bucket of the constructed ORAM of the scenario configuration. -/
theorem C9_count_never_exceeds_S_witness :
    ¬ (scenarioInit.storage 0).count > scenarioParams.dummyBlockEachbkt :=
  C9_count_never_exceeds_S scenarioParams (by decide) scenarioInit scenario_reachable 0

/-- C10 (shape of a written bucket): for every position, every stash and every outcome of the
shuffle, after `WriteBucket(pos)` the bucket at `pos` has exactly `Z + S` blocks, at most `Z`
of them non-dummy, `ptrs` and `valids` have `Z + S` entries, `ptrs[k]` is the index of
`blocks[k]` and `valids[k]` is true for every slot `k`, and `count` is zero; every other
bucket is unchanged. -/
theorem C10_written_bucket_shape (P : Params) (shuffle : Shuffle) (hs : IsShuffle shuffle)
    (pos : Nat) (st : ringoram) :
    ((WriteBucket P shuffle pos st).storage pos).blocks.length =
        P.realBlockEachbkt + P.dummyBlockEachbkt ∧
      ((WriteBucket P shuffle pos st).storage pos).blocks.countP
        (fun blk => !blk.IsDummy) ≤ P.realBlockEachbkt ∧
      ((WriteBucket P shuffle pos st).storage pos).ptrs.length =
        P.realBlockEachbkt + P.dummyBlockEachbkt ∧
      ((WriteBucket P shuffle pos st).storage pos).valids.length =
        P.realBlockEachbkt + P.dummyBlockEachbkt ∧
      (∀ k, k < P.realBlockEachbkt + P.dummyBlockEachbkt →
        ((WriteBucket P shuffle pos st).storage pos).ptrs.getD k 0 =
            (((WriteBucket P shuffle pos st).storage pos).blocks.getD k dummyBlock).blockindex ∧
          ((WriteBucket P shuffle pos st).storage pos).valids.getD k false = true) ∧
      ((WriteBucket P shuffle pos st).storage pos).count = 0 ∧
      (∀ q, q ≠ pos → (WriteBucket P shuffle pos st).storage q = st.storage q) := by
  obtain ⟨taken, dropped, blocks, e1, e2, e3, _, e5, _⟩ := WriteBucket_blocks P shuffle hs pos st
  have hlen : blocks.length = P.maxblockEachbkt := by
    rw [e2.length_eq]; exact length_padded P taken e3
  have hwf := freshBucket_WF P blocks hlen
  rw [e1]
  refine ⟨hlen, ?_, ?_, ?_, ?_, rfl, ?_⟩
  · show blocks.countP (fun blk => !blk.IsDummy) ≤ _
    rw [e2.countP_eq, List.countP_append]
    have h1 : (List.replicate (P.maxblockEachbkt - taken.length) dummyBlock).countP
        (fun blk => !blk.IsDummy) = 0 := by
      rw [List.countP_eq_zero]
      intro x hx
      rw [List.eq_of_mem_replicate hx]
      decide
    have h2 : (taken.map (encryptBlock P)).countP (fun blk => !blk.IsDummy) ≤ taken.length := by
      refine le_trans (List.countP_le_length _) ?_
      simp
    omega
  · simp [freshBucket, Params.maxblockEachbkt]
  · simp [freshBucket, Params.maxblockEachbkt]
  · intro k hk
    constructor
    · exact WF_ptrs_getD P _ hwf k hk
    · simp [freshBucket, List.getD_eq_getElem?_getD, List.getElem?_replicate,
        Params.maxblockEachbkt, hk]
  · intro q hq
    exact WriteBucket_other P shuffle pos q st hq

/-- The root bucket written from the empty stash, without any shuffling. -/
theorem C10_written_bucket_shape_witness :
    ((WriteBucket scenarioParams (fun l => l) 0 scenarioInit).storage 0).blocks.length =
        scenarioParams.realBlockEachbkt + scenarioParams.dummyBlockEachbkt ∧
      ((WriteBucket scenarioParams (fun l => l) 0 scenarioInit).storage 0).blocks.countP
        (fun blk => !blk.IsDummy) ≤ scenarioParams.realBlockEachbkt ∧
      ((WriteBucket scenarioParams (fun l => l) 0 scenarioInit).storage 0).ptrs.length =
        scenarioParams.realBlockEachbkt + scenarioParams.dummyBlockEachbkt ∧
      ((WriteBucket scenarioParams (fun l => l) 0 scenarioInit).storage 0).valids.length =
        scenarioParams.realBlockEachbkt + scenarioParams.dummyBlockEachbkt ∧
      (∀ k, k < scenarioParams.realBlockEachbkt + scenarioParams.dummyBlockEachbkt →
        ((WriteBucket scenarioParams (fun l => l) 0 scenarioInit).storage 0).ptrs.getD k 0 =
            (((WriteBucket scenarioParams (fun l => l) 0 scenarioInit).storage 0).blocks.getD k
              dummyBlock).blockindex ∧
          ((WriteBucket scenarioParams (fun l => l) 0 scenarioInit).storage 0).valids.getD k
            false = true) ∧
      ((WriteBucket scenarioParams (fun l => l) 0 scenarioInit).storage 0).count = 0 ∧
      (∀ q, q ≠ 0 →
        (WriteBucket scenarioParams (fun l => l) 0 scenarioInit).storage q =
          scenarioInit.storage q) :=
  C10_written_bucket_shape scenarioParams (fun l => l) (fun l => List.Perm.refl l) 0
    scenarioInit

end RingORAM

namespace RingORAM

/-! ## Path arithmetic, decryption and bucket draining -/

/-- The value `Path_bucket` computes before its bounds check, on a valid leaf and a level of
the tree. -/
theorem Path_bucket_raw (P : Params) (leaf : Int) (level : Nat) (hleaf : ValidLeaf P leaf) :
    (2 : Int) ^ level - 1 + (leaf >>> (P.L - level)) =
      ((2 ^ level - 1 + leaf.toNat / 2 ^ (P.L - level) : ℕ) : Int) := by
  obtain ⟨h0, _⟩ := hleaf
  lift leaf to ℕ using h0
  have hp : 1 ≤ 2 ^ level := Nat.one_le_two_pow
  simp only [Int.shiftRight_eq_div_pow, Int.toNat_ofNat]
  push_cast [Nat.cast_sub hp]
  ring

/-- C12 (path arithmetic in range): for every valid leaf and every level `0 ≤ level ≤ L` the
value computed by `Path_bucket` before its bounds check lies in `[0, num_bucket)`, so the
fallback branch is not taken, and `Path_bucket(leaf, level)` equals
`(2^level - 1) + floor(leaf / 2^(L - level))`; for any leaf and level at all the returned
value lies in `[0, num_bucket)`, where `num_bucket = 2^(L+1) - 1` and `num_leaves = 2^L`. -/
theorem C12_path_arithmetic_in_range (P : Params) (leaf : Int) (level : Nat) :
    (ValidLeaf P leaf → level ≤ P.L →
      (0 ≤ (2 : Int) ^ level - 1 + (leaf >>> (P.L - level)) ∧
        (2 : Int) ^ level - 1 + (leaf >>> (P.L - level)) < (P.num_bucket : Int) ∧
        Path_bucket P leaf level = 2 ^ level - 1 + leaf.toNat / 2 ^ (P.L - level))) ∧
      Path_bucket P leaf level < P.num_bucket ∧
      P.num_bucket = 2 ^ (P.L + 1) - 1 ∧ P.num_leaves = 2 ^ P.L := by
  refine ⟨?_, Path_bucket_lt P leaf level, rfl, rfl⟩
  intro hleaf hl
  have heq := Path_bucket_eq P leaf level hleaf hl
  have hlt := Path_bucket_lt P leaf level
  rw [heq] at hlt
  rw [Path_bucket_raw P leaf level hleaf]
  refine ⟨Int.ofNat_nonneg _, ?_, heq⟩
  exact_mod_cast hlt

/-- Leaf 5 at level 2 of the scenario tree: bucket `3 + 5 / 4 = 4`. -/
theorem C12_path_arithmetic_in_range_witness :
    (0 ≤ (2 : Int) ^ 2 - 1 + ((5 : Int) >>> (scenarioParams.L - 2)) ∧
        (2 : Int) ^ 2 - 1 + ((5 : Int) >>> (scenarioParams.L - 2)) <
          (scenarioParams.num_bucket : Int) ∧
        Path_bucket scenarioParams 5 2 =
          2 ^ 2 - 1 + (5 : Int).toNat / 2 ^ (scenarioParams.L - 2)) ∧
      Path_bucket scenarioParams 5 2 < scenarioParams.num_bucket :=
  ⟨(C12_path_arithmetic_in_range scenarioParams 5 2).1 (by decide) (by decide),
    (C12_path_arithmetic_in_range scenarioParams 5 2).2.1⟩

/-- C13 (decryption never fails): `decrypt_data(c)` returns `c` unchanged when `c` is empty,
when its length is not a multiple of 16, and when the cipher raises an error on `c`;
otherwise it returns the decryption the cipher computes. It is a total function: no input
makes it raise. -/
theorem C13_decrypt_data_never_fails (P : Params) (c : Bytes) :
    (c = [] → decrypt_data P c = c) ∧
      (c.length % 16 ≠ 0 → decrypt_data P c = c) ∧
      (P.decrypt c = none → decrypt_data P c = c) ∧
      (∀ p, c ≠ [] → c.length % 16 = 0 → P.decrypt c = some p → decrypt_data P c = p) := by
  unfold decrypt_data
  refine ⟨?_, ?_, ?_, ?_⟩
  · intro h; subst h; rfl
  · intro h
    split_ifs <;> rfl
  · intro h
    rw [h]
    split_ifs <;> rfl
  · intro p h1 h2 h3
    have : c.isEmpty = false := by
      cases c with
      | nil => exact absurd rfl h1
      | cons a t => rfl
    simp [this, h2, h3]

/-- The empty input is returned unchanged; a payload of 16 bytes is decrypted by the
cipher of the scenario configuration. -/
theorem C13_decrypt_data_never_fails_witness :
    decrypt_data scenarioParams [] = [] ∧
      decrypt_data scenarioParams (scenarioPayload 1) = scenarioPayload 1 :=
  ⟨(C13_decrypt_data_never_fails scenarioParams []).1 rfl,
    (C13_decrypt_data_never_fails scenarioParams (scenarioPayload 1)).2.2.2 (scenarioPayload 1)
      (by decide) (by decide) rfl⟩

/-- C14 (draining without mutating): `ReadBucket(pos)` leaves every bucket, the one at `pos`
included, the position map and the counters unchanged, keeps the stash entries in place, and
appends to the stash, in slot order, one entry `block(leaf_id, block_index, decrypt(data))`
for each slot `k` with `ptrs[k] != -1`, `valids[k]` true and a non-dummy block, and nothing
for any other slot. -/
theorem C14_ReadBucket_drains_without_mutating (P : Params) (pos : Nat) (st : ringoram) :
    (ReadBucket P pos st).storage = st.storage ∧
      (ReadBucket P pos st).positionmap = st.positionmap ∧
      (ReadBucket P pos st).round = st.round ∧ (ReadBucket P pos st).G = st.G ∧
      (ReadBucket P pos st).stash = st.stash ++
        (List.range (P.realBlockEachbkt + P.dummyBlockEachbkt)).filterMap (fun k =>
          if (st.storage pos).ptrs.getD k 0 ≠ -1 ∧ (st.storage pos).valids.getD k false = true ∧
              ((st.storage pos).blocks.getD k dummyBlock).IsDummy = false then
            some ⟨((st.storage pos).blocks.getD k dummyBlock).leaf_id,
              ((st.storage pos).blocks.getD k dummyBlock).blockindex,
              decrypt_data P ((st.storage pos).blocks.getD k dummyBlock).data⟩
          else none) := by
  rw [ReadBucket_eq]
  exact ⟨rfl, rfl, rfl, rfl, rfl⟩

/-- The root bucket of the constructed ORAM of the scenario holds dummies only: nothing is
appended to the stash. -/
theorem C14_ReadBucket_drains_without_mutating_witness :
    (ReadBucket scenarioParams 0 scenarioInit).storage = scenarioInit.storage ∧
      (ReadBucket scenarioParams 0 scenarioInit).stash = [] :=
  ⟨(C14_ReadBucket_drains_without_mutating scenarioParams 0 scenarioInit).1, by decide⟩

/-- C19 (level and path arithmetic agree): for every valid leaf and every level
`0 ≤ level ≤ L`, `GetlevelFromPos(Path_bucket(leaf, level)) = level`; for `level < L` the
bucket `Path_bucket(leaf, level)` is the binary-heap parent
`(Path_bucket(leaf, level + 1) - 1) / 2`; `Path_bucket(leaf, 0) = 0`; and two valid leaves
with the same bucket at level `L` are equal. -/
theorem C19_level_and_path_agree (P : Params) (leaf : Int) (hleaf : ValidLeaf P leaf) :
    (∀ level, level ≤ P.L → GetlevelFromPos (Path_bucket P leaf level) = level) ∧
      (∀ level, level < P.L →
        Path_bucket P leaf level = (Path_bucket P leaf (level + 1) - 1) / 2) ∧
      Path_bucket P leaf 0 = 0 ∧
      (∀ leaf2, ValidLeaf P leaf2 → Path_bucket P leaf P.L = Path_bucket P leaf2 P.L →
        leaf = leaf2) := by
  have hn : leaf.toNat < 2 ^ P.L := by
    obtain ⟨h0, h1⟩ := hleaf
    unfold Params.num_leaves at h1
    have : ((leaf.toNat : ℕ) : Int) < ((2 ^ P.L : ℕ) : Int) := by
      rw [Int.toNat_of_nonneg h0]; exact h1
    exact_mod_cast this
  refine ⟨fun level hl => GetlevelFromPos_Path_bucket P leaf level hleaf hl, ?_, ?_, ?_⟩
  · intro level hl
    rw [Path_bucket_eq P leaf level hleaf (by omega),
      Path_bucket_eq P leaf (level + 1) hleaf (by omega)]
    have hd : leaf.toNat / 2 ^ (P.L - level) = leaf.toNat / 2 ^ (P.L - (level + 1)) / 2 := by
      rw [Nat.div_div_eq_div_mul, ← pow_succ]
      congr 2
      omega
    rw [hd]
    have hs : 2 ^ (level + 1) = 2 * 2 ^ level := by rw [pow_succ]; ring
    rw [hs]
    have hp : 1 ≤ 2 ^ level := Nat.one_le_two_pow
    generalize leaf.toNat / 2 ^ (P.L - (level + 1)) = a
    generalize 2 ^ level = t at hp
    omega
  · rw [Path_bucket_eq P leaf 0 hleaf (by omega)]
    simp only [pow_zero, Nat.sub_self, Nat.zero_add, Nat.sub_zero]
    exact Nat.div_eq_of_lt hn
  · intro leaf2 hleaf2 he
    rw [Path_bucket_eq P leaf P.L hleaf le_rfl, Path_bucket_eq P leaf2 P.L hleaf2 le_rfl] at he
    simp only [Nat.sub_self, pow_zero, Nat.div_one] at he
    have h1 : leaf.toNat = leaf2.toNat := by omega
    have := hleaf.1
    have := hleaf2.1
    omega

/-- Leaf 5 of the scenario tree: its path is 0, 1, 4, 9, 20. -/
theorem C19_level_and_path_agree_witness :
    (∀ level, level ≤ scenarioParams.L →
        GetlevelFromPos (Path_bucket scenarioParams 5 level) = level) ∧
      (∀ level, level < scenarioParams.L →
        Path_bucket scenarioParams 5 level =
          (Path_bucket scenarioParams 5 (level + 1) - 1) / 2) ∧
      Path_bucket scenarioParams 5 0 = 0 ∧
      (∀ leaf2, ValidLeaf scenarioParams leaf2 →
        Path_bucket scenarioParams 5 scenarioParams.L =
          Path_bucket scenarioParams leaf2 scenarioParams.L → 5 = leaf2) :=
  C19_level_and_path_agree scenarioParams 5 (by decide)

end RingORAM

namespace RingORAM

/-! ## Postconditions of eviction and early reshuffle -/

theorem WriteBucket_fresh (P : Params) (shuffle : Shuffle) (p : Nat) (st : ringoram) :
    ((WriteBucket P shuffle p st).storage p).valids =
        List.replicate (P.realBlockEachbkt + P.dummyBlockEachbkt) true ∧
      ((WriteBucket P shuffle p st).storage p).count = 0 := by
  rw [WriteBucket_eq]
  simp only [SetBucket, Function.update_same]
  exact ⟨rfl, rfl⟩

/-- The second loop of `EvictPath` over any list of levels: the visited buckets end up with
all slots valid and count zero, every other bucket is untouched. -/
theorem foldl_WriteBucket_frame (P : Params) (l : Int) (shuffles : Nat → Shuffle)
    (js : List Nat) (st : ringoram) :
    (∀ q, (∀ j ∈ js, q ≠ Path_bucket P l j) →
        ((js.foldl (fun s i => resetCount (Path_bucket P l i)
          (WriteBucket P (shuffles i) (Path_bucket P l i) s)) st).storage q) = st.storage q) ∧
      (∀ j ∈ js,
        ((js.foldl (fun s i => resetCount (Path_bucket P l i)
          (WriteBucket P (shuffles i) (Path_bucket P l i) s)) st).storage
            (Path_bucket P l j)).valids =
          List.replicate (P.realBlockEachbkt + P.dummyBlockEachbkt) true ∧
        ((js.foldl (fun s i => resetCount (Path_bucket P l i)
          (WriteBucket P (shuffles i) (Path_bucket P l i) s)) st).storage
            (Path_bucket P l j)).count = 0) := by
  induction js generalizing st with
  | nil => exact ⟨fun _ _ => rfl, fun j hj => absurd hj (by simp)⟩
  | cons j0 rest ih =>
    obtain ⟨e1, e2⟩ := ih (WriteBucket P (shuffles j0) (Path_bucket P l j0) st)
    rw [List.foldl_cons, resetCount_WriteBucket]
    refine ⟨?_, ?_⟩
    · intro q hq
      rw [e1 q (fun j hj => hq j (by simp [hj]))]
      exact WriteBucket_other P _ _ q st (hq j0 (by simp))
    · intro j hj
      by_cases hex : ∃ k ∈ rest, Path_bucket P l k = Path_bucket P l j
      · obtain ⟨k, hk, hkj⟩ := hex
        rw [← hkj]
        exact e2 k hk
      · push_neg at hex
        rcases List.mem_cons.mp hj with rfl | hj
        · rw [e1 _ (fun k hk => (hex k hk).symm)]
          exact WriteBucket_fresh P _ _ st
        · exact absurd rfl (hex j hj)

theorem foldl_WriteBucket_fields (P : Params) (l : Int) (shuffles : Nat → Shuffle)
    (js : List Nat) (st : ringoram) :
    (js.foldl (fun s i => resetCount (Path_bucket P l i)
        (WriteBucket P (shuffles i) (Path_bucket P l i) s)) st).positionmap = st.positionmap ∧
      (js.foldl (fun s i => resetCount (Path_bucket P l i)
        (WriteBucket P (shuffles i) (Path_bucket P l i) s)) st).round = st.round ∧
      (js.foldl (fun s i => resetCount (Path_bucket P l i)
        (WriteBucket P (shuffles i) (Path_bucket P l i) s)) st).G = st.G := by
  induction js generalizing st with
  | nil => exact ⟨rfl, rfl, rfl⟩
  | cons j0 rest ih =>
    obtain ⟨e1, e2, e3⟩ := ih (WriteBucket P (shuffles j0) (Path_bucket P l j0) st)
    rw [List.foldl_cons, resetCount_WriteBucket]
    exact ⟨e1.trans rfl, e2.trans rfl, e3.trans rfl⟩

end RingORAM

namespace RingORAM

/-- One iteration of `EarlyReshuffle`, on the storage: only the bucket of its level can
change; it is rebuilt when its count reached `S` and kept otherwise. -/
theorem EarlyReshuffle_step_storage (P : Params) (shuffles : Nat → Shuffle) (l : Int)
    (k : Nat) (st : ringoram) :
    (∀ q, q ≠ Path_bucket P l k →
        (EarlyReshuffle.step P shuffles l st k).storage q = st.storage q) ∧
      (P.dummyBlockEachbkt ≤ (st.storage (Path_bucket P l k)).count →
        ((EarlyReshuffle.step P shuffles l st k).storage (Path_bucket P l k)).valids =
            List.replicate (P.realBlockEachbkt + P.dummyBlockEachbkt) true ∧
          ((EarlyReshuffle.step P shuffles l st k).storage (Path_bucket P l k)).count = 0) ∧
      ((st.storage (Path_bucket P l k)).count < P.dummyBlockEachbkt →
        EarlyReshuffle.step P shuffles l st k = st) := by
  unfold EarlyReshuffle.step
  split_ifs with hcnt
  · rw [resetCount_WriteBucket]
    refine ⟨?_, fun _ => WriteBucket_fresh P _ _ _, fun h => absurd hcnt (by omega)⟩
    intro q hq
    rw [WriteBucket_other P _ _ q _ hq, ReadBucket_storage]
  · exact ⟨fun _ _ => rfl, fun h => absurd h hcnt, fun _ => rfl⟩

/-- The loop of `EarlyReshuffle` over pairwise different levels of the path of a valid
leaf. -/
theorem EarlyReshuffle_loop_storage (P : Params) (shuffles : Nat → Shuffle) (l : Int)
    (hl : ValidLeaf P l) (ks : List Nat) (hnd : ks.Nodup) (hks : ∀ k ∈ ks, k ≤ P.L)
    (st : ringoram) :
    (∀ q, (∀ k ∈ ks, q ≠ Path_bucket P l k) →
        (ks.foldl (EarlyReshuffle.step P shuffles l) st).storage q = st.storage q) ∧
      (∀ k ∈ ks, P.dummyBlockEachbkt ≤ (st.storage (Path_bucket P l k)).count →
        ((ks.foldl (EarlyReshuffle.step P shuffles l) st).storage (Path_bucket P l k)).valids =
            List.replicate (P.realBlockEachbkt + P.dummyBlockEachbkt) true ∧
          ((ks.foldl (EarlyReshuffle.step P shuffles l) st).storage
            (Path_bucket P l k)).count = 0) ∧
      (∀ k ∈ ks, (st.storage (Path_bucket P l k)).count < P.dummyBlockEachbkt →
        (ks.foldl (EarlyReshuffle.step P shuffles l) st).storage (Path_bucket P l k) =
          st.storage (Path_bucket P l k)) := by
  induction ks generalizing st with
  | nil =>
    exact ⟨fun _ _ => rfl, fun k hk => absurd hk (by simp), fun k hk => absurd hk (by simp)⟩
  | cons k0 rest ih =>
    have hne := Path_bucket_ne P l hl k0 rest hnd hks
    obtain ⟨a1, a2, a3⟩ := EarlyReshuffle_step_storage P shuffles l k0 st
    obtain ⟨b1, b2, b3⟩ := ih (List.nodup_cons.mp hnd).2 (fun k hk => hks k (by simp [hk]))
      (EarlyReshuffle.step P shuffles l st k0)
    rw [List.foldl_cons]
    refine ⟨?_, ?_, ?_⟩
    · intro q hq
      rw [b1 q (fun k hk => hq k (by simp [hk])), a1 q (hq k0 (by simp))]
    · intro k hk hc
      rcases List.mem_cons.mp hk with rfl | hk
      · rw [b1 _ (fun k2 hk2 => (hne k2 hk2).symm)]
        exact a2 hc
      · exact b2 k hk (by rw [a1 _ (hne k hk)]; exact hc)
    · intro k hk hc
      rcases List.mem_cons.mp hk with rfl | hk
      · rw [b1 _ (fun k2 hk2 => (hne k2 hk2).symm), a3 hc]
      · rw [b3 k hk (by rw [a1 _ (hne k hk)]; exact hc), a1 _ (hne k hk)]

end RingORAM

namespace RingORAM

/-! ## Which stash entries `WriteBucket` moves -/

theorem fitsAt_iff (P : Params) (position level : Nat) (e : block) :
    fitsAt P position level e = true ↔
      Path_bucket P e.leaf_id level = position ∧ e.IsDummy = false := by
  unfold fitsAt
  simp

/-- The first loop of `WriteBucket`, exactly: it moves the first entries that fit the
position, as many as the bucket still has room for, erases some dummy entries, and keeps the
other entries in their order. -/
theorem collect_sharp (P : Params) (position level : Nat) (s acc : List block) :
    (WriteBucket.collect P position level s acc).1 =
        acc ++ ((s.filter (fitsAt P position level)).take
          (P.realBlockEachbkt - acc.length)).map (encryptBlock P) ∧
      (∃ dropped : List block,
        List.Perm s ((s.filter (fitsAt P position level)).take
          (P.realBlockEachbkt - acc.length) ++ dropped ++
            (WriteBucket.collect P position level s acc).2) ∧
        ∀ e ∈ dropped, e.IsDummy = true) ∧
      (WriteBucket.collect P position level s acc).2.filter (fitsAt P position level) =
        (s.filter (fitsAt P position level)).drop (P.realBlockEachbkt - acc.length) ∧
      List.Sublist (WriteBucket.collect P position level s acc).2 s := by
  induction s generalizing acc with
  | nil =>
    refine ⟨by simp [WriteBucket.collect], ⟨[], by simp [WriteBucket.collect], by simp⟩,
      by simp [WriteBucket.collect], by simp [WriteBucket.collect]⟩
  | cons it rest ih =>
    unfold WriteBucket.collect
    split_ifs with h1 h2 h3
    · -- the entry fits and there is room
      have hfit : fitsAt P position level it = true := (fitsAt_iff P position level it).mpr ⟨h2, h3⟩
      obtain ⟨e1, ⟨dropped, e2, e3⟩, e4, e5⟩ := ih (acc ++ [encryptBlock P it])
      have hn : P.realBlockEachbkt - acc.length =
          (P.realBlockEachbkt - (acc ++ [encryptBlock P it]).length) + 1 := by
        simp only [List.length_append, List.length_singleton]
        omega
      rw [List.filter_cons_of_pos hfit, hn, List.take_succ_cons, List.drop_succ_cons]
      refine ⟨?_, ⟨dropped, ?_, e3⟩, e4, ?_⟩
      · rw [show (⟨it.leaf_id, it.blockindex, encrypt_data P it.data⟩ : block) =
          encryptBlock P it from rfl, e1]
        simp
      · simpa using e2
      · exact List.Sublist.cons _ e5
    · -- a dummy entry that matches the position is erased
      have hfit : ¬ fitsAt P position level it = true := by
        rw [fitsAt_iff]
        exact fun h => h3 h.2
      obtain ⟨e1, ⟨dropped, e2, e3⟩, e4, e5⟩ := ih acc
      rw [List.filter_cons_of_neg hfit]
      refine ⟨e1, ⟨it :: dropped, ?_, ?_⟩, e4, List.Sublist.cons _ e5⟩
      · have : List.Perm (it :: rest)
            (it :: ((rest.filter (fitsAt P position level)).take
              (P.realBlockEachbkt - acc.length) ++ dropped ++
                (WriteBucket.collect P position level rest acc).2)) :=
          List.Perm.cons it e2
        refine this.trans ?_
        simp only [List.append_assoc]
        exact (List.perm_middle).symm
      · intro e he
        rcases List.mem_cons.mp he with rfl | he
        · simpa using h3
        · exact e3 e he
    · -- the entry belongs elsewhere and stays
      have hfit : ¬ fitsAt P position level it = true := by
        rw [fitsAt_iff]
        exact fun h => h2 h.1
      obtain ⟨e1, ⟨dropped, e2, e3⟩, e4, e5⟩ := ih acc
      rw [List.filter_cons_of_neg hfit]
      refine ⟨e1, ⟨dropped, ?_, e3⟩, ?_, List.Sublist.cons₂ _ e5⟩
      · have : List.Perm (it :: rest)
            (it :: ((rest.filter (fitsAt P position level)).take
              (P.realBlockEachbkt - acc.length) ++ dropped ++
                (WriteBucket.collect P position level rest acc).2)) :=
          List.Perm.cons it e2
        refine this.trans ?_
        exact (List.perm_middle).symm
      · rw [List.filter_cons_of_neg hfit]
        exact e4
    · -- the bucket is full: the loop stops
      have hn : P.realBlockEachbkt - acc.length = 0 := by omega
      rw [hn]
      refine ⟨by simp, ⟨[], by simp, by simp⟩, by simp, List.Sublist.refl _⟩

/-- The effect of `WriteBucket` in terms of the entries that fit the position: the first `Z`
of them are moved into the bucket, encrypted; nothing else leaves the stash but dummies. -/
theorem WriteBucket_sharp (P : Params) (shuffle : Shuffle) (hs : IsShuffle shuffle)
    (p : Nat) (st : ringoram) :
    List.Perm ((WriteBucket P shuffle p st).storage p).blocks
        (((st.stash.filter (fitsAt P p (GetlevelFromPos p))).take P.realBlockEachbkt).map
            (encryptBlock P) ++
          List.replicate (P.realBlockEachbkt + P.dummyBlockEachbkt -
            ((st.stash.filter (fitsAt P p (GetlevelFromPos p))).take
              P.realBlockEachbkt).length) dummyBlock) ∧
      (∃ dropped : List block,
        List.Perm st.stash ((st.stash.filter (fitsAt P p (GetlevelFromPos p))).take
          P.realBlockEachbkt ++ dropped ++ (WriteBucket P shuffle p st).stash) ∧
        ∀ e ∈ dropped, e.IsDummy = true) ∧
      (WriteBucket P shuffle p st).stash.filter (fitsAt P p (GetlevelFromPos p)) =
        (st.stash.filter (fitsAt P p (GetlevelFromPos p))).drop P.realBlockEachbkt ∧
      List.Sublist (WriteBucket P shuffle p st).stash st.stash := by
  obtain ⟨e1, e2, e3, e4⟩ := collect_sharp P p (GetlevelFromPos p) st.stash []
  simp only [List.nil_append, List.length_nil, Nat.sub_zero] at e1 e2 e3
  refine ⟨?_, ?_, ?_, ?_⟩
  · rw [WriteBucket_eq]
    simp only [SetBucket, Function.update_same, freshBucket]
    refine (hs _).trans ?_
    rw [e1]
    simp
  · rw [WriteBucket_eq]; exact e2
  · rw [WriteBucket_eq]; exact e3
  · rw [WriteBucket_eq]; exact e4

/-- An entry that fits the position and is left in the stash by `WriteBucket`: the bucket
written holds exactly `Z` non-dummy blocks. -/
theorem WriteBucket_leftover (P : Params) (shuffle : Shuffle) (hs : IsShuffle shuffle)
    (p : Nat) (st : ringoram) (e : block) (he : e ∈ (WriteBucket P shuffle p st).stash)
    (hfit : fitsAt P p (GetlevelFromPos p) e = true) :
    ((WriteBucket P shuffle p st).storage p).blocks.countP (fun blk => !blk.IsDummy) =
      P.realBlockEachbkt := by
  obtain ⟨e1, _, e3, _⟩ := WriteBucket_sharp P shuffle hs p st
  have hmem : e ∈ (st.stash.filter (fitsAt P p (GetlevelFromPos p))).drop P.realBlockEachbkt := by
    rw [← e3]
    exact List.mem_filter.mpr ⟨he, hfit⟩
  have hlen : P.realBlockEachbkt < (st.stash.filter (fitsAt P p (GetlevelFromPos p))).length := by
    by_contra hcon
    rw [List.drop_eq_nil_of_le (by omega)] at hmem
    exact absurd hmem (List.not_mem_nil e)
  have htake : ((st.stash.filter (fitsAt P p (GetlevelFromPos p))).take
      P.realBlockEachbkt).length = P.realBlockEachbkt := by
    rw [List.length_take]
    omega
  rw [e1.countP_eq, List.countP_append]
  have h1 : (List.replicate (P.realBlockEachbkt + P.dummyBlockEachbkt -
      ((st.stash.filter (fitsAt P p (GetlevelFromPos p))).take P.realBlockEachbkt).length)
        dummyBlock).countP (fun blk => !blk.IsDummy) = 0 := by
    rw [List.countP_eq_zero]
    intro x hx
    rw [List.eq_of_mem_replicate hx]
    decide
  have h2 : (((st.stash.filter (fitsAt P p (GetlevelFromPos p))).take
      P.realBlockEachbkt).map (encryptBlock P)).countP (fun blk => !blk.IsDummy) =
      ((st.stash.filter (fitsAt P p (GetlevelFromPos p))).take P.realBlockEachbkt).length := by
    rw [List.countP_map, List.countP_eq_length]
    intro x hx
    have hx2 := List.mem_of_mem_take hx
    have := (fitsAt_iff P p (GetlevelFromPos p) x).mp (List.mem_filter.mp hx2).2
    simp only [Function.comp, encryptBlock, block.IsDummy] at this ⊢
    simpa using this.2
  rw [h1, h2, htake, Nat.add_zero]

end RingORAM

namespace RingORAM

/-- For a correct cipher the real slots of the bucket `WriteBucket` installs decrypt to the
entries it moved. -/
theorem WriteBucket_drain_sharp (P : Params) (hc : CipherCorrect P) (shuffle : Shuffle)
    (hs : IsShuffle shuffle) (p : Nat) (st : ringoram) :
    List.Perm (drain P ((WriteBucket P shuffle p st).storage p))
      ((st.stash.filter (fitsAt P p (GetlevelFromPos p))).take P.realBlockEachbkt) := by
  obtain ⟨e1, _, _, _⟩ := WriteBucket_sharp P shuffle hs p st
  have hfresh : (WriteBucket P shuffle p st).storage p =
      freshBucket P ((WriteBucket P shuffle p st).storage p).blocks := by
    rw [WriteBucket_eq]
    simp only [SetBucket, Function.update_same]
    rfl
  have htl : ((st.stash.filter (fitsAt P p (GetlevelFromPos p))).take
      P.realBlockEachbkt).length ≤ P.realBlockEachbkt := by
    rw [List.length_take]; omega
  have hlen : ((WriteBucket P shuffle p st).storage p).blocks.length = P.maxblockEachbkt := by
    rw [e1.length_eq]
    exact length_padded P _ htl
  rw [hfresh, drain_freshBucket P _ hlen]
  refine (e1.filterMap (plainOf P)).trans ?_
  rw [List.filterMap_append, filterMap_plainOf_replicate, List.append_nil,
    filterMap_plainOf_taken P hc]
  intro x hx
  have hx2 := List.mem_of_mem_take hx
  exact ((fitsAt_iff P p (GetlevelFromPos p) x).mp (List.mem_filter.mp hx2).2).2

/-- C11 (no block is dropped by `WriteBucket`): for every position, every stash and every
outcome of the shuffle, `WriteBucket(pos)` moves exactly the first `Z` stash entries that fit
`pos` (all of them when there are fewer). The non-dummy entries of the stash before the call
are, counted with multiplicity, the moved entries together with the non-dummy entries of the
stash after the call, which is a sublist of the old stash. The new bucket holds, up to the
shuffle, one block per moved entry, with the same `leaf_id` and `block_index` and the
encrypted payload, and dummies otherwise; for a correct cipher the real slots of the new
bucket decrypt to exactly the moved entries. The entries that fit `pos` beyond the first `Z` are all still in the stash. -/
theorem C11_WriteBucket_never_drops (P : Params) (shuffle : Shuffle) (hs : IsShuffle shuffle)
    (pos : Nat) (st : ringoram) :
    List.Perm (st.stash.filter (fun e => !e.IsDummy))
        ((st.stash.filter (fitsAt P pos (GetlevelFromPos pos))).take P.realBlockEachbkt ++
          (WriteBucket P shuffle pos st).stash.filter (fun e => !e.IsDummy)) ∧
      List.Sublist (WriteBucket P shuffle pos st).stash st.stash ∧
      List.Perm ((WriteBucket P shuffle pos st).storage pos).blocks
        (((st.stash.filter (fitsAt P pos (GetlevelFromPos pos))).take P.realBlockEachbkt).map
            (fun e => (⟨e.leaf_id, e.blockindex, encrypt_data P e.data⟩ : block)) ++
          List.replicate (P.realBlockEachbkt + P.dummyBlockEachbkt -
            ((st.stash.filter (fitsAt P pos (GetlevelFromPos pos))).take
              P.realBlockEachbkt).length) dummyBlock) ∧
      (CipherCorrect P → List.Perm (drain P ((WriteBucket P shuffle pos st).storage pos))
        ((st.stash.filter (fitsAt P pos (GetlevelFromPos pos))).take P.realBlockEachbkt)) ∧
      ((st.stash.filter (fitsAt P pos (GetlevelFromPos pos))).take P.realBlockEachbkt).length =
        min P.realBlockEachbkt (st.stash.filter (fitsAt P pos (GetlevelFromPos pos))).length ∧
      (WriteBucket P shuffle pos st).stash.filter (fitsAt P pos (GetlevelFromPos pos)) =
        (st.stash.filter (fitsAt P pos (GetlevelFromPos pos))).drop P.realBlockEachbkt := by
  obtain ⟨e1, ⟨dropped, e2, e3⟩, e4, e5⟩ := WriteBucket_sharp P shuffle hs pos st
  refine ⟨?_, e5, e1, fun hc => WriteBucket_drain_sharp P hc shuffle hs pos st,
    List.length_take _ _, e4⟩
  have hf := e2.filter (fun e => !e.IsDummy)
  refine hf.trans ?_
  rw [List.filter_append, List.filter_append]
  have h1 : ((st.stash.filter (fitsAt P pos (GetlevelFromPos pos))).take
      P.realBlockEachbkt).filter (fun e => !e.IsDummy) =
      (st.stash.filter (fitsAt P pos (GetlevelFromPos pos))).take P.realBlockEachbkt := by
    rw [List.filter_eq_self]
    intro x hx
    have hx2 := List.mem_of_mem_take hx
    have := (fitsAt_iff P pos (GetlevelFromPos pos) x).mp (List.mem_filter.mp hx2).2
    simp [this.2]
  have h2 : dropped.filter (fun e => !e.IsDummy) = [] := by
    rw [List.filter_eq_nil_iff]
    intro x hx
    simp [e3 x hx]
  rw [h1, h2, List.append_nil]

/-- Six stash entries that fit the root, `Z = 4`: four are moved and two stay. -/
theorem C11_WriteBucket_never_drops_witness :
    (WriteBucket scenarioParams (fun l => l) 0 scenarioFullStash).stash =
        [⟨8, 4, []⟩, ⟨8, 5, []⟩] ∧
      List.Perm (scenarioFullStash.stash.filter (fun e => !e.IsDummy))
        ((scenarioFullStash.stash.filter (fitsAt scenarioParams 0 (GetlevelFromPos 0))).take
            scenarioParams.realBlockEachbkt ++
          (WriteBucket scenarioParams (fun l => l) 0 scenarioFullStash).stash.filter
            (fun e => !e.IsDummy)) ∧
      ((scenarioFullStash.stash.filter (fitsAt scenarioParams 0 (GetlevelFromPos 0))).take
          scenarioParams.realBlockEachbkt).length = 4 :=
  ⟨by decide,
    (C11_WriteBucket_never_drops scenarioParams (fun l => l) (fun l => List.Perm.refl l) 0
      scenarioFullStash).1,
    by decide⟩

/-- The second loop of `EvictPath` is greedy: an entry left in the stash that could go into a
bucket the loop wrote finds that bucket full. -/
theorem foldl_WriteBucket_greedy (P : Params) (l : Int) (hl : ValidLeaf P l)
    (shuffles : Nat → Shuffle) (hs : ∀ i, IsShuffle (shuffles i)) (js : List Nat)
    (hnd : js.Nodup) (hjs : ∀ j ∈ js, j ≤ P.L) (st : ringoram) :
    List.Sublist (js.foldl (fun s i => resetCount (Path_bucket P l i)
        (WriteBucket P (shuffles i) (Path_bucket P l i) s)) st).stash st.stash ∧
      (∀ j ∈ js, ∀ e ∈ (js.foldl (fun s i => resetCount (Path_bucket P l i)
          (WriteBucket P (shuffles i) (Path_bucket P l i) s)) st).stash,
        e.IsDummy = false → Path_bucket P e.leaf_id j = Path_bucket P l j →
        ((js.foldl (fun s i => resetCount (Path_bucket P l i)
          (WriteBucket P (shuffles i) (Path_bucket P l i) s)) st).storage
            (Path_bucket P l j)).blocks.countP (fun blk => !blk.IsDummy) =
          P.realBlockEachbkt) := by
  induction js generalizing st with
  | nil => exact ⟨List.Sublist.refl _, fun j hj => absurd hj (by simp)⟩
  | cons j0 rest ih =>
    have hne := Path_bucket_ne P l hl j0 rest hnd hjs
    obtain ⟨a1, a2⟩ := ih (List.nodup_cons.mp hnd).2 (fun k hk => hjs k (by simp [hk]))
      (WriteBucket P (shuffles j0) (Path_bucket P l j0) st)
    obtain ⟨f1, _⟩ := foldl_WriteBucket_frame P l shuffles rest
      (WriteBucket P (shuffles j0) (Path_bucket P l j0) st)
    obtain ⟨_, _, _, s4⟩ := WriteBucket_sharp P (shuffles j0) (hs j0) (Path_bucket P l j0) st
    rw [List.foldl_cons, resetCount_WriteBucket]
    refine ⟨a1.trans s4, ?_⟩
    intro j hj e he hnd2 hpath
    rcases List.mem_cons.mp hj with rfl | hj
    · rw [f1 _ (fun k hk => (hne k hk).symm)]
      apply WriteBucket_leftover P (shuffles j) (hs j) (Path_bucket P l j) st e (a1.subset he)
      rw [fitsAt_iff, GetlevelFromPos_Path_bucket P l j hl (hjs j (by simp))]
      exact ⟨hpath, hnd2⟩
    · exact a2 j hj e he hnd2 hpath

/-- C18 (eviction is greedy): immediately after `EvictPath`, which evicts along the path of
`l = G mod 2^L`, for every non-dummy entry `e` left in the stash and every level `k ≤ L` with
`Path_bucket(e.leaf_id, k) = Path_bucket(l, k)`, the bucket at `Path_bucket(l, k)` holds
exactly `Z` non-dummy blocks; in particular, a non-dummy entry with a valid leaf left in the
stash means that the root bucket holds `Z` non-dummy blocks. -/
theorem C18_eviction_is_greedy (P : Params) (shuffles : Nat → Shuffle)
    (hs : ∀ i, IsShuffle (shuffles i)) (st : ringoram) (e : block)
    (he : e ∈ (EvictPath P shuffles st).stash) (hnd : e.IsDummy = false) :
    (∀ k, k ≤ P.L →
        Path_bucket P e.leaf_id k = Path_bucket P ((st.G % 2 ^ P.L : Nat) : Int) k →
        ((EvictPath P shuffles st).storage
          (Path_bucket P ((st.G % 2 ^ P.L : Nat) : Int) k)).blocks.countP
            (fun blk => !blk.IsDummy) = P.realBlockEachbkt) ∧
      (ValidLeaf P e.leaf_id →
        ((EvictPath P shuffles st).storage 0).blocks.countP (fun blk => !blk.IsDummy) =
          P.realBlockEachbkt) := by
  have hl := validLeaf_G P st.G
  have hmem : ∀ k, k ∈ (List.range (P.L + 1)).reverse ↔ k ≤ P.L := by
    intro k; rw [List.mem_reverse, List.mem_range]; omega
  obtain ⟨_, b2⟩ := foldl_WriteBucket_greedy P ((st.G % 2 ^ P.L : Nat) : Int) hl shuffles hs
    (List.range (P.L + 1)).reverse (List.nodup_reverse.mpr (List.nodup_range _))
    (fun k hk => (hmem k).mp hk)
    ((List.range (P.L + 1)).foldl
      (fun s i => ReadBucket P (Path_bucket P ((st.G % 2 ^ P.L : Nat) : Int) i) s)
      { st with G := st.G + 1 })
  have main : ∀ k, k ≤ P.L →
      Path_bucket P e.leaf_id k = Path_bucket P ((st.G % 2 ^ P.L : Nat) : Int) k →
      ((EvictPath P shuffles st).storage
        (Path_bucket P ((st.G % 2 ^ P.L : Nat) : Int) k)).blocks.countP
          (fun blk => !blk.IsDummy) = P.realBlockEachbkt :=
    fun k hk hp => b2 k ((hmem k).mpr hk) e he hnd hp
  refine ⟨main, ?_⟩
  intro hle
  have h0 : Path_bucket P ((st.G % 2 ^ P.L : Nat) : Int) 0 = 0 := by
    rw [Path_bucket_eq P _ 0 hl (by omega)]
    simp only [pow_zero, Nat.sub_self, Nat.zero_add, Nat.sub_zero, Int.toNat_ofNat]
    exact Nat.div_eq_of_lt (Nat.mod_lt _ (by positivity))
  have h1 : Path_bucket P e.leaf_id 0 = 0 := by
    have hn : e.leaf_id.toNat < 2 ^ P.L := by
      obtain ⟨g0, g1⟩ := hle
      unfold Params.num_leaves at g1
      have : ((e.leaf_id.toNat : ℕ) : Int) < ((2 ^ P.L : ℕ) : Int) := by
        rw [Int.toNat_of_nonneg g0]; exact g1
      exact_mod_cast this
    rw [Path_bucket_eq P _ 0 hle (by omega)]
    simp only [pow_zero, Nat.sub_self, Nat.zero_add, Nat.sub_zero]
    exact Nat.div_eq_of_lt hn
  have := main 0 (by omega) (by rw [h0, h1])
  rw [h0] at this
  exact this

/-- Six entries of leaf 8 in the stash and an eviction along the path of leaf 0: the paths
share the root only, which takes four entries; the entry of block 4 stays and finds the root
full. -/
theorem C18_eviction_is_greedy_witness :
    (∀ k, k ≤ scenarioParams.L →
        Path_bucket scenarioParams 8 k =
          Path_bucket scenarioParams ((scenarioFullStash.G % 2 ^ scenarioParams.L : Nat) : Int) k →
        ((EvictPath scenarioParams (fun _ l => l) scenarioFullStash).storage
          (Path_bucket scenarioParams
            ((scenarioFullStash.G % 2 ^ scenarioParams.L : Nat) : Int) k)).blocks.countP
              (fun blk => !blk.IsDummy) = scenarioParams.realBlockEachbkt) ∧
      (ValidLeaf scenarioParams 8 →
        ((EvictPath scenarioParams (fun _ l => l) scenarioFullStash).storage 0).blocks.countP
          (fun blk => !blk.IsDummy) = scenarioParams.realBlockEachbkt) :=
  C18_eviction_is_greedy scenarioParams (fun _ l => l) (fun _ l => List.Perm.refl l)
    scenarioFullStash ⟨8, 4, []⟩ (by decide) (by decide)

end RingORAM

namespace RingORAM

/-! ## The access pattern of `ReadPath` -/

end RingORAM

namespace RingORAM

/-! ## The structural invariant, independently of the cipher -/

/-- The invariant only depends on the leaves and indices of the held blocks. -/
theorem Inv_transfer (P : Params) (st st2 : ringoram) (U U2 : Finset Nat)
    (hwf : ∀ p, (st2.storage p).WF P) (hpm : st2.positionmap = st.positionmap)
    (hplace : ∀ p ∈ U2, ∀ e ∈ drain P (st2.storage p),
      Path_bucket P e.leaf_id (GetlevelFromPos p) = p)
    (htag : (view P st2 U2).map tagOf = (view P st U).map tagOf) (h : Inv P st U) :
    Inv P st2 U2 := by
  have hback : ∀ e ∈ view P st2 U2, ∃ e0 ∈ view P st U, tagOf e0 = tagOf e := by
    intro e he
    have : tagOf e ∈ (view P st U).map tagOf := by
      rw [← htag]
      exact Multiset.mem_map_of_mem tagOf he
    obtain ⟨e0, he0, ht⟩ := Multiset.mem_map.mp this
    exact ⟨e0, he0, ht⟩
  constructor
  · exact hwf
  · intro e he
    obtain ⟨e0, he0, ht⟩ := hback e he
    have h2 : e0.blockindex = e.blockindex := (Prod.mk.inj ht).2
    rw [← h2]
    exact h.idx e0 he0
  · intro e he
    obtain ⟨e0, he0, ht⟩ := hback e he
    have h1 : e0.leaf_id = e.leaf_id := (Prod.mk.inj ht).1
    have h2 : e0.blockindex = e.blockindex := (Prod.mk.inj ht).2
    rw [hpm, ← h1, ← h2]
    exact h.leaf e0 he0
  · exact hplace
  · have e1 : (view P st2 U2).map (fun e => e.blockindex) =
        ((view P st2 U2).map tagOf).map Prod.snd := by
      rw [Multiset.map_map]; rfl
    have e2 : (view P st U).map (fun e => e.blockindex) =
        ((view P st U).map tagOf).map Prod.snd := by
      rw [Multiset.map_map]; rfl
    rw [e1, htag, ← e2]
    exact h.nodup
  · rw [hpm]; exact h.pm

theorem filterMap_plainOf_taken_tag (P : Params) (taken : List block)
    (h : ∀ e ∈ taken, e.IsDummy = false) :
    ((taken.map (encryptBlock P)).filterMap (plainOf P)).map tagOf = taken.map tagOf := by
  induction taken with
  | nil => rfl
  | cons e t ih =>
    have hne : e.blockindex ≠ -1 := by
      have := h e (by simp)
      simpa [block.IsDummy] using this
    have hp : plainOf P (encryptBlock P e) =
        some ⟨e.leaf_id, e.blockindex, decrypt_data P (encrypt_data P e.data)⟩ := by
      unfold plainOf encryptBlock
      simp only [hne, ne_eq, not_false_eq_true, if_true]
    rw [List.map_cons, List.filterMap_cons, hp]
    simp only [List.map_cons]
    rw [ih (fun x hx => h x (by simp [hx]))]
    rfl

/-- The leaves and indices in the real slots of the bucket `WriteBucket` installs are those of
the entries that left the stash, whatever the cipher. -/
theorem WriteBucket_tags (P : Params) (shuffle : Shuffle) (hs : IsShuffle shuffle) (p : Nat)
    (st : ringoram) (hnd : ∀ e ∈ st.stash, e.IsDummy = false) :
    ∃ taken : List block,
      List.Perm st.stash (taken ++ (WriteBucket P shuffle p st).stash) ∧
      List.Perm ((drain P ((WriteBucket P shuffle p st).storage p)).map tagOf)
        (taken.map tagOf) ∧
      (∀ e ∈ taken, Path_bucket P e.leaf_id (GetlevelFromPos p) = p) ∧
      ((WriteBucket P shuffle p st).storage p).WF P := by
  obtain ⟨taken, dropped, blocks, e1, e2, e3, e4, e5, e6⟩ := WriteBucket_blocks P shuffle hs p st
  have hd : dropped = [] := by
    cases dropped with
    | nil => rfl
    | cons d ds =>
      exfalso
      have hm : d ∈ st.stash := e4.mem_iff.mpr (by simp)
      have := hnd d hm
      rw [e6 d (by simp)] at this
      exact absurd this (by simp)
  subst hd
  rw [List.append_nil] at e4
  have hlen : blocks.length = P.maxblockEachbkt := by
    rw [e2.length_eq]
    exact length_padded P taken e3
  refine ⟨taken, e4, ?_, fun e he => (e5 e he).1, ?_⟩
  · rw [e1, drain_freshBucket P blocks hlen]
    refine ((e2.filterMap (plainOf P)).map tagOf).trans ?_
    rw [List.filterMap_append, filterMap_plainOf_replicate, List.append_nil,
      filterMap_plainOf_taken_tag P taken (fun e he => (e5 e he).2)]
  · rw [e1]
    exact freshBucket_WF P blocks hlen

theorem WriteBucket_Inv_nc (P : Params) (shuffle : Shuffle) (hs : IsShuffle shuffle) (p : Nat)
    (st : ringoram) (U : Finset Nat) (hp : p ∉ U) (h : Inv P st U) :
    Inv P (WriteBucket P shuffle p st) (insert p U) := by
  have hnd := stash_not_dummy P st U h
  obtain ⟨taken, e1, e2, e3, e4⟩ := WriteBucket_tags P shuffle hs p st hnd
  apply Inv_transfer P st (WriteBucket P shuffle p st) U (insert p U) _ rfl _ _ h
  · intro q
    by_cases hq : q = p
    · subst hq; exact e4
    · rw [WriteBucket_other P shuffle p q st hq]; exact h.wf q
  · intro q hq e he
    by_cases hqp : q = p
    · subst hqp
      have hm : tagOf e ∈ (drain P ((WriteBucket P shuffle q st).storage q)).map tagOf :=
        List.mem_map_of_mem tagOf he
      obtain ⟨e0, he0, ht⟩ := List.mem_map.mp (e2.mem_iff.mp hm)
      have h1 : e0.leaf_id = e.leaf_id := (Prod.mk.inj ht).1
      rw [← h1]
      exact e3 e0 he0
    · rw [WriteBucket_other P shuffle p q st hqp] at he
      rcases Finset.mem_insert.mp hq with h1 | h1
      · exact absurd h1 hqp
      · exact h.place q h1 e he
  · unfold view heldIn
    rw [Finset.sum_insert hp]
    have h1 : ∑ q ∈ U, (drain P ((WriteBucket P shuffle p st).storage q) : Multiset block) =
        ∑ q ∈ U, (drain P (st.storage q) : Multiset block) := by
      apply Finset.sum_congr rfl
      intro q hq
      rw [WriteBucket_other P shuffle p q st (fun e => hp (e ▸ hq))]
    rw [h1, Multiset.map_add, Multiset.map_add, Multiset.map_add, ← add_assoc]
    congr 1
    rw [Multiset.map_coe, Multiset.map_coe, Multiset.map_coe, Multiset.coe_add,
      Multiset.coe_eq_coe]
    refine (List.Perm.append_left _ e2).trans ?_
    rw [← List.map_append]
    exact (List.perm_append_comm.trans e1.symm).map tagOf

end RingORAM

namespace RingORAM

theorem foldl_WriteBucket_Inv_nc (P : Params) (l : Int) (hl : ValidLeaf P l)
    (shuffles : Nat → Shuffle) (hs : ∀ i, IsShuffle (shuffles i)) (js : List Nat)
    (hnd : js.Nodup) (hjs : ∀ j ∈ js, j ≤ P.L) (V : Finset Nat) (st : ringoram)
    (hV : ∀ j ∈ js, Path_bucket P l j ∉ V) (h : Inv P st V) :
    Inv P (js.foldl (fun s i => resetCount (Path_bucket P l i)
        (WriteBucket P (shuffles i) (Path_bucket P l i) s)) st)
      (V ∪ (js.map (Path_bucket P l)).toFinset) := by
  induction js generalizing st V with
  | nil => simpa using h
  | cons j0 rest ih =>
    have hne := Path_bucket_ne P l hl j0 rest hnd hjs
    have h1 := WriteBucket_Inv_nc P (shuffles j0) (hs j0) (Path_bucket P l j0) st V
      (hV j0 (by simp)) h
    have e1 := ih (List.nodup_cons.mp hnd).2
      (fun k hk => hjs k (by simp [hk])) (insert (Path_bucket P l j0) V)
      (WriteBucket P (shuffles j0) (Path_bucket P l j0) st)
      (fun k hk hm => by
        rcases Finset.mem_insert.mp hm with h2 | h2
        · exact hne k hk h2
        · exact hV k (by simp [hk]) h2) h1
    have hset : insert (Path_bucket P l j0) V ∪ (rest.map (Path_bucket P l)).toFinset =
        V ∪ ((j0 :: rest).map (Path_bucket P l)).toFinset := by
      ext q
      simp only [Finset.mem_union, Finset.mem_insert, List.map_cons, List.toFinset_cons]
      tauto
    rw [hset] at e1
    rw [List.foldl_cons, resetCount_WriteBucket]
    exact e1

/-- The procedure `EvictPath` keeps the structural invariant, whatever the cipher. -/
theorem EvictPath_Inv_nc (P : Params) (shuffles : Nat → Shuffle)
    (hs : ∀ i, IsShuffle (shuffles i)) (st : ringoram)
    (h : Inv P st (Finset.range P.num_bucket)) :
    Inv P (EvictPath P shuffles st) (Finset.range P.num_bucket) := by
  have hl := validLeaf_G P st.G
  obtain ⟨st1, hst1⟩ : ∃ s : ringoram, s = { st with G := st.G + 1 } := ⟨_, rfl⟩
  have h1 : Inv P st1 (Finset.range P.num_bucket) := by
    rw [hst1]
    exact ⟨h.wf, h.idx, h.leaf, h.place, h.nodup, h.pm⟩
  have hmem : ∀ k, k ∈ List.range (P.L + 1) → k ≤ P.L := by
    intro k hk; rw [List.mem_range] at hk; omega
  obtain ⟨a1, _⟩ := foldl_ReadBucket_spec P _ hl (List.range (P.L + 1))
    (List.nodup_range _) hmem (Finset.range P.num_bucket) st1
    (fun k _ => Path_bucket_mem_range P _ k) h1
  have b1 := foldl_WriteBucket_Inv_nc P _ hl shuffles hs
    (List.range (P.L + 1)).reverse (List.nodup_reverse.mpr (List.nodup_range _))
    (fun k hk => hmem k (List.mem_reverse.mp hk)) _ _
    (fun j hj hm => by
      have := (Finset.mem_sdiff.mp hm).2
      apply this
      rw [List.mem_toFinset, List.mem_map]
      exact ⟨j, List.mem_reverse.mp hj, rfl⟩) a1
  have hset : Finset.range P.num_bucket \
        ((List.range (P.L + 1)).map (Path_bucket P ((st.G % 2 ^ P.L : Nat) : Int))).toFinset ∪
      ((List.range (P.L + 1)).reverse.map
        (Path_bucket P ((st.G % 2 ^ P.L : Nat) : Int))).toFinset =
      Finset.range P.num_bucket := by
    ext q
    simp only [Finset.mem_union, Finset.mem_sdiff, List.mem_toFinset, List.mem_map,
      List.mem_reverse]
    constructor
    · rintro (⟨hq, _⟩ | ⟨k, _, rfl⟩)
      · exact hq
      · exact Path_bucket_mem_range P _ k
    · intro hq
      by_cases hx : ∃ a, a ∈ List.range (P.L + 1) ∧
          Path_bucket P ((st.G % 2 ^ P.L : Nat) : Int) a = q
      · exact Or.inr hx
      · exact Or.inl ⟨hq, hx⟩
  rw [hset] at b1
  have hev : EvictPath P shuffles st = (List.range (P.L + 1)).reverse.foldl
      (fun s i => resetCount (Path_bucket P ((st.G % 2 ^ P.L : Nat) : Int) i)
        (WriteBucket P (shuffles i) (Path_bucket P ((st.G % 2 ^ P.L : Nat) : Int) i) s))
      ((List.range (P.L + 1)).foldl
        (fun s i => ReadBucket P (Path_bucket P ((st.G % 2 ^ P.L : Nat) : Int) i) s) st1) := by
    rw [hst1]; rfl
  rw [hev]
  exact b1

theorem EarlyReshuffle_step_Inv_nc (P : Params) (shuffles : Nat → Shuffle)
    (hs : ∀ i, IsShuffle (shuffles i)) (l : Int) (k : Nat) (st : ringoram)
    (h : Inv P st (Finset.range P.num_bucket)) :
    Inv P (EarlyReshuffle.step P shuffles l st k) (Finset.range P.num_bucket) := by
  unfold EarlyReshuffle.step
  split_ifs with hcnt
  · have hp := Path_bucket_mem_range P l k
    have h1 := ReadBucket_Inv P (Path_bucket P l k) st _ hp h
    have hne : Path_bucket P l k ∉ (Finset.range P.num_bucket).erase (Path_bucket P l k) :=
      Finset.not_mem_erase _ _
    have h2 := WriteBucket_Inv_nc P (shuffles k) (hs k) (Path_bucket P l k) _ _ hne h1
    rw [Finset.insert_erase hp] at h2
    rw [resetCount_WriteBucket]
    exact h2
  · exact h

theorem EarlyReshuffle_Inv_nc (P : Params) (shuffles : Nat → Shuffle)
    (hs : ∀ i, IsShuffle (shuffles i)) (l : Int) (ks : List Nat) (st : ringoram)
    (h : Inv P st (Finset.range P.num_bucket)) :
    Inv P (ks.foldl (EarlyReshuffle.step P shuffles l) st) (Finset.range P.num_bucket) := by
  induction ks generalizing st with
  | nil => exact h
  | cons k0 rest ih =>
    rw [List.foldl_cons]
    exact ih _ (EarlyReshuffle_step_Inv_nc P shuffles hs l k0 st h)

/-- A call of `access` with a valid index keeps the structural invariant, whatever the
cipher. -/
theorem access_Inv_nc (P : Params) (hS : 1 ≤ P.dummyBlockEachbkt) (c : Coins)
    (hcoins : ValidCoins P c) (i : Int) (op : Operation) (d : Bytes) (st : ringoram)
    (hi0 : 0 ≤ i) (hiN : i < (P.N : Int)) (h : Inv P st (Finset.range P.num_bucket))
    (hd : Dum P st) (hcnt : Cnt P st) :
    ∃ out st2, access P c i op d st = some (out, st2) ∧
      Inv P st2 (Finset.range P.num_bucket) := by
  obtain ⟨hleafc, hev, hre⟩ := hcoins
  obtain ⟨blk, st2, data, stash2, st4, a1, a2, a3, _, a5, _⟩ :=
    access_read_spec P hS c hleafc i op d st hi0 hiN h hd hcnt
  have hacc := access_unfold P c i op d st hi0 hiN blk st2 a1 data stash2 a2 st4 a3
  have h5 : Inv P (if st4.round = 0 then EvictPath P c.evict st4 else st4)
      (Finset.range P.num_bucket) := by
    split_ifs
    · exact EvictPath_Inv_nc P c.evict hev st4 a5
    · exact a5
  exact ⟨_, _, hacc, EarlyReshuffle_Inv_nc P c.reshuffle hre _ _ _ h5⟩

/-- Every reachable state satisfies the structural invariant, whatever the cipher. -/
theorem reachable_Inv_nc (P : Params) (hS : 1 ≤ P.dummyBlockEachbkt) (st : ringoram)
    (hr : Reachable P st) : Inv P st (Finset.range P.num_bucket) := by
  induction hr with
  | init leaves h => exact init_Inv P leaves h _
  | step st st2 c i op d out hreach hco hacc ih =>
    obtain ⟨_, h2, h3⟩ := reachable_light P hS st hreach
    by_cases hi : i < 0 ∨ i ≥ (P.N : Int)
    · rw [access_invalid P c i op d st hi] at hacc
      obtain ⟨_, rfl⟩ := Prod.mk.inj (Option.some.inj hacc)
      exact ih
    · push_neg at hi
      obtain ⟨out2, st3, e1, e2⟩ := access_Inv_nc P hS c hco i op d st hi.1 hi.2 ih h2 h3
      rw [e1] at hacc
      obtain ⟨_, rfl⟩ := Prod.mk.inj (Option.some.inj hacc)
      exact e2

end RingORAM

namespace RingORAM

/-! ## Placement of the blocks -/

theorem slotEntry_index (P : Params) (b : bucket) (hb : b.WF P) (j : Nat)
    (hj : j < P.maxblockEachbkt) :
    (slotEntry P b j).map (fun e => e.blockindex) =
      (if b.valids.getD j false = true ∧ b.ptrs.getD j 0 ≠ -1 then some (b.ptrs.getD j 0)
        else none) := by
  by_cases hv : b.valids.getD j false = true
  · by_cases hp : b.ptrs.getD j 0 = -1
    · rw [slotEntry_of_dummy P b j hp, if_neg (fun h => h.2 hp)]
      rfl
    · rw [slotEntry_of_valid P b hb j hj hv hp, if_pos ⟨hv, hp⟩]
      rfl
  · rw [if_neg (fun h => hv h.1)]
    unfold slotEntry
    rw [if_neg (fun h => hv h.2.1)]
    rfl

/-- The indices in the real slots of a well-formed bucket are those of its content. -/
theorem realIndices_eq (P : Params) (b : bucket) (hb : b.WF P) :
    realIndices P b = (drain P b).map (fun e => e.blockindex) := by
  unfold realIndices drain
  rw [List.map_filterMap]
  apply List.filterMap_congr
  intro j hj
  exact (slotEntry_index P b hb j (List.mem_range.mp hj)).symm

theorem heldIndices_eq (P : Params) (st : ringoram) (hwf : ∀ p, (st.storage p).WF P) :
    heldIndices P st = (viewList P st).map (fun e => e.blockindex) := by
  unfold heldIndices viewList
  rw [List.map_append, List.map_flatMap]
  congr 1
  apply List.flatMap_congr
  intro p _
  exact realIndices_eq P _ (hwf p)

/-- C20 (placement invariant): in every state reachable from construction by `access` calls,
(a) every slot `k` of the bucket at a position `p` with `valids[k]` true and `ptrs[k] != -1`
holds a block with a valid index equal to `ptrs[k]`, whose `leaf_id` is
`positionmap[block_index]` and satisfies `Path_bucket(leaf_id, GetlevelFromPos(p)) = p`;
(b) every stash entry has a valid index and `leaf_id = positionmap[block_index]`; (c) each
block index occurs at most once among the valid real slots and the stash entries together. -/
theorem C20_placement_invariant (P : Params) (hS : 1 ≤ P.dummyBlockEachbkt) (st : ringoram)
    (hr : Reachable P st) :
    (∀ p, p < P.num_bucket → ∀ k, k < P.realBlockEachbkt + P.dummyBlockEachbkt →
        (st.storage p).valids.getD k false = true → (st.storage p).ptrs.getD k 0 ≠ -1 →
        ((st.storage p).blocks.getD k dummyBlock).blockindex = (st.storage p).ptrs.getD k 0 ∧
        0 ≤ ((st.storage p).blocks.getD k dummyBlock).blockindex ∧
        ((st.storage p).blocks.getD k dummyBlock).blockindex < (P.N : Int) ∧
        ((st.storage p).blocks.getD k dummyBlock).leaf_id =
          st.positionmap ((st.storage p).blocks.getD k dummyBlock).blockindex.toNat ∧
        Path_bucket P ((st.storage p).blocks.getD k dummyBlock).leaf_id (GetlevelFromPos p) =
          p) ∧
      (∀ e ∈ st.stash, 0 ≤ e.blockindex ∧ e.blockindex < (P.N : Int) ∧
        e.leaf_id = st.positionmap e.blockindex.toNat) ∧
      (heldIndices P st).Nodup := by
  have h := reachable_Inv_nc P hS st hr
  have hview : view P st (Finset.range P.num_bucket) =
      (st.stash : Multiset block) + heldIn P st.storage (Finset.range P.num_bucket) := rfl
  refine ⟨?_, ?_, ?_⟩
  · intro p hp k hk hv hptr
    have hm := WF_ptrs_getD P (st.storage p) (h.wf p) k hk
    have hs := slotEntry_of_valid P (st.storage p) (h.wf p) k hk hv hptr
    have hmem := mem_drain_of_slot P (st.storage p) k _ hk hs
    have hv2 : (⟨(FindBlock (st.storage p) k).leaf_id, (st.storage p).ptrs.getD k 0,
        decrypt_data P (FindBlock (st.storage p) k).data⟩ : block) ∈
        view P st (Finset.range P.num_bucket) := by
      rw [hview]
      exact Multiset.mem_add.mpr (Or.inr ((mem_heldIn P _ _ _).mpr
        ⟨p, Finset.mem_range.mpr hp, hmem⟩))
    have h1 := h.idx _ hv2
    have h2 := h.leaf _ hv2
    have h3 := h.place p (Finset.mem_range.mpr hp) _ hmem
    simp only [FindBlock] at h1 h2 h3
    rw [← hm]
    exact ⟨rfl, h1.1, h1.2, h2, h3⟩
  · intro e he
    have hv2 : e ∈ view P st (Finset.range P.num_bucket) := by
      rw [hview]
      exact Multiset.mem_add.mpr (Or.inl (Multiset.mem_coe.mpr he))
    exact ⟨(h.idx e hv2).1, (h.idx e hv2).2, h.leaf e hv2⟩
  · rw [heldIndices_eq P st h.wf]
    have := h.nodup
    rw [← viewList_eq] at this
    simpa using this

/-- The state after the write of block 3 on the constructed ORAM of the scenario. -/
theorem C20_placement_invariant_witness :
    ∃ out st2, access scenarioParams scenarioCoins 3 Operation.WRITE (scenarioPayload 1)
        scenarioInit = some (out, st2) ∧
      (∀ e ∈ st2.stash, 0 ≤ e.blockindex ∧ e.blockindex < (scenarioParams.N : Int) ∧
        e.leaf_id = st2.positionmap e.blockindex.toNat) ∧
      (heldIndices scenarioParams st2).Nodup := by
  obtain ⟨hpm, hd, hcnt⟩ := reachable_light scenarioParams (by decide) scenarioInit
    scenario_reachable
  obtain ⟨out, st2, e1, _⟩ := access_light scenarioParams (by decide) scenarioCoins
    scenario_coins 3 Operation.WRITE (scenarioPayload 1) scenarioInit (by decide) (by decide)
    hpm hd hcnt
  have hr : Reachable scenarioParams st2 :=
    Reachable.step scenarioInit st2 scenarioCoins 3 Operation.WRITE (scenarioPayload 1) out
      scenario_reachable scenario_coins e1
  exact ⟨out, st2, e1, (C20_placement_invariant scenarioParams (by decide) st2 hr).2⟩

end RingORAM

namespace RingORAM

/-! ## Rebuilt buckets and conservation of the held blocks, on arbitrary states -/

/-- The bucket `WriteBucket` installs has the shape `bucket.Rebuilt`. -/
theorem WriteBucket_rebuilt (P : Params) (shuffle : Shuffle) (hs : IsShuffle shuffle) (p : Nat)
    (st : ringoram) : ((WriteBucket P shuffle p st).storage p).Rebuilt P p := by
  obtain ⟨taken, dropped, blocks, e1, e2, e3, _, e5, _⟩ := WriteBucket_blocks P shuffle hs p st
  have hlen : blocks.length = P.maxblockEachbkt := by
    rw [e2.length_eq]; exact length_padded P taken e3
  have hwf := freshBucket_WF P blocks hlen
  rw [e1]
  refine ⟨hlen, hwf.2.2, rfl, rfl, ?_, ?_⟩
  · show blocks.countP (fun blk => !blk.IsDummy) ≤ _
    rw [e2.countP_eq, List.countP_append]
    have h1 : (List.replicate (P.maxblockEachbkt - taken.length) dummyBlock).countP
        (fun blk => !blk.IsDummy) = 0 := by
      rw [List.countP_eq_zero]
      intro x hx
      rw [List.eq_of_mem_replicate hx]
      decide
    have h2 : (taken.map (encryptBlock P)).countP (fun blk => !blk.IsDummy) ≤ taken.length := by
      refine le_trans (List.countP_le_length _) ?_
      simp
    omega
  · intro blk hb hnd
    have hb2 : blk ∈ blocks := hb
    rcases List.mem_append.mp (e2.mem_iff.mp hb2) with h | h
    · obtain ⟨e, he, rfl⟩ := List.mem_map.mp h
      exact (e5 e he).1
    · rw [List.eq_of_mem_replicate h] at hnd
      exact absurd hnd (by decide)

/-- The entries `ReadBucket` drains from a bucket are not dummies. -/
theorem drain_not_dummy (P : Params) (b : bucket) (e : block) (he : e ∈ drain P b) :
    e.IsDummy = false := by
  unfold drain at he
  obtain ⟨j, _, hj⟩ := List.mem_filterMap.mp he
  unfold slotEntry at hj
  split_ifs at hj with h
  have := Option.some.inj hj
  subst this
  exact h.2.2

theorem ReadBucket_realView (P : Params) (p : Nat) (st : ringoram) (U : Finset Nat)
    (hp : p ∈ U) : realView P (ReadBucket P p st) (U.erase p) = realView P st U := by
  unfold realView
  rw [ReadBucket_view P p st U hp]

/-- The procedure `WriteBucket` keeps the non-dummy blocks the ORAM holds: what leaves the
stash is what the new bucket holds. -/
theorem WriteBucket_realView (P : Params) (hc : CipherCorrect P) (shuffle : Shuffle)
    (hs : IsShuffle shuffle) (p : Nat) (st : ringoram) (U : Finset Nat) (hp : p ∉ U) :
    realView P (WriteBucket P shuffle p st) (insert p U) = realView P st U := by
  obtain ⟨taken, dropped, blocks, e1, e2, e3, e4, e5, e6⟩ := WriteBucket_blocks P shuffle hs p st
  have hlen : blocks.length = P.maxblockEachbkt := by
    rw [e2.length_eq]; exact length_padded P taken e3
  have hdr : List.Perm (drain P ((WriteBucket P shuffle p st).storage p)) taken := by
    rw [e1, drain_freshBucket P blocks hlen]
    refine (e2.filterMap (plainOf P)).trans ?_
    rw [List.filterMap_append, filterMap_plainOf_replicate, List.append_nil,
      filterMap_plainOf_taken P hc taken (fun e he => (e5 e he).2)]
  unfold realView view heldIn
  rw [Finset.sum_insert hp]
  have h1 : ∑ q ∈ U, (drain P ((WriteBucket P shuffle p st).storage q) : Multiset block) =
      ∑ q ∈ U, (drain P (st.storage q) : Multiset block) := by
    apply Finset.sum_congr rfl
    intro q hq
    rw [WriteBucket_other P shuffle p q st (fun e => hp (e ▸ hq))]
  have h2 : ((dropped : List block) : Multiset block).filter (fun e => e.IsDummy = false) = 0 := by
    rw [Multiset.filter_eq_nil]
    intro a ha
    rw [e6 a (Multiset.mem_coe.mp ha)]
    simp
  rw [h1, Multiset.coe_eq_coe.mpr hdr, Multiset.coe_eq_coe.mpr e4, ← Multiset.coe_add,
    ← Multiset.coe_add]
  simp only [Multiset.filter_add, h2, add_zero]
  abel

/-- The first loop of `EvictPath`, on any state: the buckets of the path are appended to the
stash, level by level, and nothing else changes. -/
theorem foldl_ReadBucket_plain (P : Params) (l : Int) (hl : ValidLeaf P l) (ks : List Nat)
    (hnd : ks.Nodup) (hks : ∀ k ∈ ks, k ≤ P.L) (U : Finset Nat) (st : ringoram)
    (hU : ∀ k ∈ ks, Path_bucket P l k ∈ U) :
    view P (ks.foldl (fun s i => ReadBucket P (Path_bucket P l i) s) st)
        (U \ (ks.map (Path_bucket P l)).toFinset) = view P st U ∧
      (ks.foldl (fun s i => ReadBucket P (Path_bucket P l i) s) st).storage = st.storage ∧
      (ks.foldl (fun s i => ReadBucket P (Path_bucket P l i) s) st).positionmap =
        st.positionmap ∧
      (ks.foldl (fun s i => ReadBucket P (Path_bucket P l i) s) st).round = st.round ∧
      (ks.foldl (fun s i => ReadBucket P (Path_bucket P l i) s) st).G = st.G ∧
      (ks.foldl (fun s i => ReadBucket P (Path_bucket P l i) s) st).stash =
        st.stash ++ ks.flatMap (fun k => drain P (st.storage (Path_bucket P l k))) := by
  induction ks generalizing st U with
  | nil => simp
  | cons k0 rest ih =>
    have hne := Path_bucket_ne P l hl k0 rest hnd hks
    have hv1 := ReadBucket_view P (Path_bucket P l k0) st U (hU k0 (by simp))
    obtain ⟨e2, e3, e4, e5, e6, e7⟩ := ih (List.nodup_cons.mp hnd).2
      (fun k hk => hks k (by simp [hk])) (U.erase (Path_bucket P l k0))
      (ReadBucket P (Path_bucket P l k0) st)
      (fun k hk => Finset.mem_erase.mpr ⟨hne k hk, hU k (by simp [hk])⟩)
    have hset : U.erase (Path_bucket P l k0) \ (rest.map (Path_bucket P l)).toFinset =
        U \ ((k0 :: rest).map (Path_bucket P l)).toFinset := by
      ext q
      simp only [Finset.mem_sdiff, Finset.mem_erase, List.map_cons, List.toFinset_cons,
        Finset.mem_insert]
      tauto
    rw [hset] at e2
    rw [List.foldl_cons]
    refine ⟨e2.trans hv1, ?_, ?_, ?_, ?_, ?_⟩
    · rw [e3, ReadBucket_storage]
    · rw [e4, ReadBucket_eq]
    · rw [e5, ReadBucket_eq]
    · rw [e6, ReadBucket_eq]
    · rw [e7, ReadBucket_storage, List.flatMap_cons, ← List.append_assoc]
      congr 1
      rw [ReadBucket_eq]

/-- The second loop of `EvictPath`, on any state: every bucket it writes ends up with the
shape `bucket.Rebuilt`. -/
theorem foldl_WriteBucket_rebuilt (P : Params) (l : Int) (hl : ValidLeaf P l)
    (shuffles : Nat → Shuffle) (hs : ∀ i, IsShuffle (shuffles i)) (js : List Nat)
    (hnd : js.Nodup) (hjs : ∀ j ∈ js, j ≤ P.L) (st : ringoram) :
    ∀ j ∈ js, ((js.foldl (fun s i => resetCount (Path_bucket P l i)
        (WriteBucket P (shuffles i) (Path_bucket P l i) s)) st).storage
          (Path_bucket P l j)).Rebuilt P (Path_bucket P l j) := by
  induction js generalizing st with
  | nil => exact fun j hj => absurd hj (by simp)
  | cons j0 rest ih =>
    have hne := Path_bucket_ne P l hl j0 rest hnd hjs
    have a := ih (List.nodup_cons.mp hnd).2 (fun k hk => hjs k (by simp [hk]))
      (WriteBucket P (shuffles j0) (Path_bucket P l j0) st)
    obtain ⟨f1, _⟩ := foldl_WriteBucket_frame P l shuffles rest
      (WriteBucket P (shuffles j0) (Path_bucket P l j0) st)
    rw [List.foldl_cons, resetCount_WriteBucket]
    intro j hj
    rcases List.mem_cons.mp hj with rfl | hj
    · rw [f1 _ (fun k hk => (hne k hk).symm)]
      exact WriteBucket_rebuilt P (shuffles j) (hs j) (Path_bucket P l j) st
    · exact a j hj

/-- The second loop of `EvictPath`, on any state: the non-dummy blocks the ORAM holds are
kept. -/
theorem foldl_WriteBucket_realView (P : Params) (hc : CipherCorrect P) (l : Int)
    (hl : ValidLeaf P l) (shuffles : Nat → Shuffle) (hs : ∀ i, IsShuffle (shuffles i))
    (js : List Nat) (hnd : js.Nodup) (hjs : ∀ j ∈ js, j ≤ P.L) (V : Finset Nat) (st : ringoram)
    (hV : ∀ j ∈ js, Path_bucket P l j ∉ V) :
    realView P (js.foldl (fun s i => resetCount (Path_bucket P l i)
        (WriteBucket P (shuffles i) (Path_bucket P l i) s)) st)
      (V ∪ (js.map (Path_bucket P l)).toFinset) = realView P st V := by
  induction js generalizing st V with
  | nil => simp
  | cons j0 rest ih =>
    have hne := Path_bucket_ne P l hl j0 rest hnd hjs
    have hv1 := WriteBucket_realView P hc (shuffles j0) (hs j0) (Path_bucket P l j0) st V
      (hV j0 (by simp))
    have e2 := ih (List.nodup_cons.mp hnd).2
      (fun k hk => hjs k (by simp [hk])) (insert (Path_bucket P l j0) V)
      (WriteBucket P (shuffles j0) (Path_bucket P l j0) st)
      (fun k hk hm => by
        rcases Finset.mem_insert.mp hm with h2 | h2
        · exact hne k hk h2
        · exact hV k (by simp [hk]) h2)
    have hset : insert (Path_bucket P l j0) V ∪ (rest.map (Path_bucket P l)).toFinset =
        V ∪ ((j0 :: rest).map (Path_bucket P l)).toFinset := by
      ext q
      simp only [Finset.mem_union, Finset.mem_insert, List.map_cons, List.toFinset_cons]
      tauto
    rw [hset] at e2
    rw [List.foldl_cons, resetCount_WriteBucket]
    exact e2.trans hv1

/-- When `WriteBucket` leaves the bucket with fewer than `Z` non-dummy blocks, every stash
entry that fits the position went into the bucket. -/
theorem WriteBucket_kept (P : Params) (shuffle : Shuffle) (hs : IsShuffle shuffle) (p : Nat)
    (st : ringoram)
    (hlt : ((WriteBucket P shuffle p st).storage p).blocks.countP (fun blk => !blk.IsDummy) <
      P.realBlockEachbkt)
    (e : block) (he : e ∈ st.stash) (hfit : fitsAt P p (GetlevelFromPos p) e = true) :
    encryptBlock P e ∈ ((WriteBucket P shuffle p st).storage p).blocks := by
  obtain ⟨s1, ⟨dropped, s2, s3⟩, _, _⟩ := WriteBucket_sharp P shuffle hs p st
  have hnd := ((fitsAt_iff P p (GetlevelFromPos p) e).mp hfit).2
  rcases List.mem_append.mp (s2.mem_iff.mp he) with h | h
  · rcases List.mem_append.mp h with h | h
    · exact s1.mem_iff.mpr (List.mem_append.mpr (Or.inl (List.mem_map.mpr ⟨e, h, rfl⟩)))
    · rw [s3 e h] at hnd
      exact absurd hnd (by simp)
  · have := WriteBucket_leftover P shuffle hs p st e h hfit
    omega

/-- One iteration of `EarlyReshuffle`, on any state. A bucket whose count reached `S` is
rebuilt from the stash extended by its own real blocks; the non-dummy blocks the ORAM holds
are kept. -/
theorem EarlyReshuffle_step_rebuild (P : Params) (shuffles : Nat → Shuffle)
    (hs : ∀ i, IsShuffle (shuffles i)) (l : Int) (hl : ValidLeaf P l) (k : Nat) (hk : k ≤ P.L)
    (st : ringoram) :
    (P.dummyBlockEachbkt ≤ (st.storage (Path_bucket P l k)).count →
      ((EarlyReshuffle.step P shuffles l st k).storage (Path_bucket P l k)).Rebuilt P
        (Path_bucket P l k) ∧
      (((EarlyReshuffle.step P shuffles l st k).storage (Path_bucket P l k)).blocks.countP
          (fun blk => !blk.IsDummy) < P.realBlockEachbkt →
        ∀ e ∈ drain P (st.storage (Path_bucket P l k)),
          Path_bucket P e.leaf_id k = Path_bucket P l k →
          encryptBlock P e ∈
            ((EarlyReshuffle.step P shuffles l st k).storage (Path_bucket P l k)).blocks) ∧
      List.Sublist (EarlyReshuffle.step P shuffles l st k).stash
        (st.stash ++ drain P (st.storage (Path_bucket P l k)))) ∧
      (CipherCorrect P →
        realView P (EarlyReshuffle.step P shuffles l st k) (Finset.range P.num_bucket) =
          realView P st (Finset.range P.num_bucket)) ∧
      (EarlyReshuffle.step P shuffles l st k).positionmap = st.positionmap ∧
      (EarlyReshuffle.step P shuffles l st k).round = st.round ∧
      (EarlyReshuffle.step P shuffles l st k).G = st.G := by
  have hlev := GetlevelFromPos_Path_bucket P l k hl hk
  unfold EarlyReshuffle.step
  split_ifs with hcnt
  · rw [resetCount_WriteBucket]
    have hst : (ReadBucket P (Path_bucket P l k) st).stash =
        st.stash ++ drain P (st.storage (Path_bucket P l k)) := by rw [ReadBucket_eq]
    refine ⟨fun _ => ⟨WriteBucket_rebuilt P _ (hs k) _ _, ?_, ?_⟩, ?_, ?_, ?_, ?_⟩
    · intro hlt e he hfit
      apply WriteBucket_kept P (shuffles k) (hs k) (Path_bucket P l k) _ hlt e
      · rw [hst]; exact List.mem_append.mpr (Or.inr he)
      · rw [fitsAt_iff, hlev]
        exact ⟨hfit, drain_not_dummy P _ e he⟩
    · rw [← hst]
      exact (WriteBucket_sharp P (shuffles k) (hs k) (Path_bucket P l k) _).2.2.2
    · intro hc
      have hp := Path_bucket_mem_range P l k
      have hv1 := ReadBucket_realView P (Path_bucket P l k) st _ hp
      have hv2 := WriteBucket_realView P hc (shuffles k) (hs k) (Path_bucket P l k)
        (ReadBucket P (Path_bucket P l k) st)
        ((Finset.range P.num_bucket).erase (Path_bucket P l k)) (Finset.not_mem_erase _ _)
      rw [Finset.insert_erase hp] at hv2
      exact hv2.trans hv1
    · show (ReadBucket P (Path_bucket P l k) st).positionmap = _
      rw [ReadBucket_eq]
    · show (ReadBucket P (Path_bucket P l k) st).round = _
      rw [ReadBucket_eq]
    · show (ReadBucket P (Path_bucket P l k) st).G = _
      rw [ReadBucket_eq]
  · exact ⟨fun h => absurd h hcnt, fun _ => rfl, rfl, rfl, rfl⟩

/-- The loop of `EarlyReshuffle` over pairwise different levels of the path of a valid leaf,
on any state. -/
theorem EarlyReshuffle_loop_rebuild (P : Params) (shuffles : Nat → Shuffle)
    (hs : ∀ i, IsShuffle (shuffles i)) (l : Int) (hl : ValidLeaf P l) (ks : List Nat)
    (hnd : ks.Nodup) (hks : ∀ k ∈ ks, k ≤ P.L) (st : ringoram) :
    (∀ k ∈ ks, P.dummyBlockEachbkt ≤ (st.storage (Path_bucket P l k)).count →
      ((ks.foldl (EarlyReshuffle.step P shuffles l) st).storage (Path_bucket P l k)).Rebuilt P
        (Path_bucket P l k) ∧
      (((ks.foldl (EarlyReshuffle.step P shuffles l) st).storage
          (Path_bucket P l k)).blocks.countP (fun blk => !blk.IsDummy) < P.realBlockEachbkt →
        ∀ e ∈ drain P (st.storage (Path_bucket P l k)),
          Path_bucket P e.leaf_id k = Path_bucket P l k →
          encryptBlock P e ∈
            ((ks.foldl (EarlyReshuffle.step P shuffles l) st).storage
              (Path_bucket P l k)).blocks)) ∧
      List.Sublist (ks.foldl (EarlyReshuffle.step P shuffles l) st).stash
        (st.stash ++ ks.flatMap (fun k =>
          if P.dummyBlockEachbkt ≤ (st.storage (Path_bucket P l k)).count then
            drain P (st.storage (Path_bucket P l k)) else [])) ∧
      (CipherCorrect P →
        realView P (ks.foldl (EarlyReshuffle.step P shuffles l) st) (Finset.range P.num_bucket) =
          realView P st (Finset.range P.num_bucket)) ∧
      (ks.foldl (EarlyReshuffle.step P shuffles l) st).positionmap = st.positionmap ∧
      (ks.foldl (EarlyReshuffle.step P shuffles l) st).round = st.round ∧
      (ks.foldl (EarlyReshuffle.step P shuffles l) st).G = st.G ∧
      ((∀ k ∈ ks, (st.storage (Path_bucket P l k)).count < P.dummyBlockEachbkt) →
        ks.foldl (EarlyReshuffle.step P shuffles l) st = st) := by
  induction ks generalizing st with
  | nil =>
    exact ⟨fun k hk => absurd hk (by simp), by simp, fun _ => rfl, rfl, rfl, rfl, fun _ => rfl⟩
  | cons k0 rest ih =>
    have hne := Path_bucket_ne P l hl k0 rest hnd hks
    obtain ⟨a1, _, a3⟩ := EarlyReshuffle_step_storage P shuffles l k0 st
    obtain ⟨c1, c2, c3, c4, c5⟩ := EarlyReshuffle_step_rebuild P shuffles hs l hl k0
      (hks k0 (by simp)) st
    obtain ⟨f1, _, _⟩ := EarlyReshuffle_loop_storage P shuffles l hl rest
      (List.nodup_cons.mp hnd).2 (fun k hk => hks k (by simp [hk]))
      (EarlyReshuffle.step P shuffles l st k0)
    obtain ⟨b1, b2, b3, b4, b5, b6, b7⟩ := ih (List.nodup_cons.mp hnd).2
      (fun k hk => hks k (by simp [hk])) (EarlyReshuffle.step P shuffles l st k0)
    rw [List.foldl_cons]
    refine ⟨?_, ?_, fun hc => (b3 hc).trans (c2 hc), b4.trans c3, b5.trans c4, b6.trans c5, ?_⟩
    · intro k hk hcnt
      rcases List.mem_cons.mp hk with rfl | hk
      · rw [f1 _ (fun k2 hk2 => (hne k2 hk2).symm)]
        exact ⟨(c1 hcnt).1, (c1 hcnt).2.1⟩
      · have := b1 k hk (by rw [a1 _ (hne k hk)]; exact hcnt)
        rw [a1 _ (hne k hk)] at this
        exact this
    · have hfm : rest.flatMap (fun k =>
          if P.dummyBlockEachbkt ≤
              ((EarlyReshuffle.step P shuffles l st k0).storage (Path_bucket P l k)).count then
            drain P ((EarlyReshuffle.step P shuffles l st k0).storage (Path_bucket P l k))
          else []) =
          rest.flatMap (fun k =>
            if P.dummyBlockEachbkt ≤ (st.storage (Path_bucket P l k)).count then
              drain P (st.storage (Path_bucket P l k)) else []) := by
        apply List.flatMap_congr
        intro k hk
        rw [a1 _ (hne k hk)]
      rw [hfm] at b2
      refine b2.trans ?_
      rw [List.flatMap_cons, ← List.append_assoc]
      refine List.Sublist.append ?_ (List.Sublist.refl _)
      by_cases hcnt : P.dummyBlockEachbkt ≤ (st.storage (Path_bucket P l k0)).count
      · rw [if_pos hcnt]
        exact (c1 hcnt).2.2
      · rw [if_neg hcnt, List.append_nil, a3 (by omega)]
    · intro hall
      have h0 := a3 (hall k0 (by simp))
      rw [h0] at b7 ⊢
      exact b7 (fun k hk => hall k (by simp [hk]))

end RingORAM

namespace RingORAM

/-! ## Early reshuffle and eviction rebuild the buckets they visit -/

/-- C16 (early reshuffle, postcondition and frame): for every valid leaf `l`, after
`EarlyReshuffle(l)` every bucket on the path of `l` whose count was at least `S` beforehand
has been rebuilt: all `Z + S` slots are valid and the count is zero, it has `Z + S` blocks
mirrored by `ptrs`, at most `Z` of them non-dummy and each of these on the path of its leaf,
and when it ends with fewer than `Z` non-dummy blocks it holds again (encrypted) every real
block it held that belongs to its position. Every bucket on the path whose count was below
`S` is unchanged, and every bucket off the path is unchanged. The stash afterwards is a
sublist of the old stash followed by the real blocks of the reshuffled buckets, the whole
state is unchanged when no count on the path reached `S`, the position map, `round` and `G`
are unchanged, and for a correct cipher the non-dummy blocks held in the stash and the real
slots are the same multiset before and after. -/
theorem C16_EarlyReshuffle_postcondition (P : Params) (shuffles : Nat → Shuffle)
    (hs : ∀ i, IsShuffle (shuffles i)) (l : Int) (hl : ValidLeaf P l) (st : ringoram) :
    (∀ k, k ≤ P.L → P.dummyBlockEachbkt ≤ (st.storage (Path_bucket P l k)).count →
        ((EarlyReshuffle P shuffles l st).storage (Path_bucket P l k)).valids =
            List.replicate (P.realBlockEachbkt + P.dummyBlockEachbkt) true ∧
          ((EarlyReshuffle P shuffles l st).storage (Path_bucket P l k)).count = 0 ∧
          ((EarlyReshuffle P shuffles l st).storage (Path_bucket P l k)).Rebuilt P
            (Path_bucket P l k) ∧
          GetlevelFromPos (Path_bucket P l k) = k ∧
          (((EarlyReshuffle P shuffles l st).storage (Path_bucket P l k)).blocks.countP
              (fun blk => !blk.IsDummy) < P.realBlockEachbkt →
            ∀ e ∈ drain P (st.storage (Path_bucket P l k)),
              Path_bucket P e.leaf_id k = Path_bucket P l k →
              (⟨e.leaf_id, e.blockindex, encrypt_data P e.data⟩ : block) ∈
                ((EarlyReshuffle P shuffles l st).storage (Path_bucket P l k)).blocks)) ∧
      (∀ k, k ≤ P.L → (st.storage (Path_bucket P l k)).count < P.dummyBlockEachbkt →
        (EarlyReshuffle P shuffles l st).storage (Path_bucket P l k) =
          st.storage (Path_bucket P l k)) ∧
      (∀ q, (∀ k, k ≤ P.L → q ≠ Path_bucket P l k) →
        (EarlyReshuffle P shuffles l st).storage q = st.storage q) ∧
      List.Sublist (EarlyReshuffle P shuffles l st).stash
        (st.stash ++ (List.range (P.L + 1)).flatMap (fun k =>
          if P.dummyBlockEachbkt ≤ (st.storage (Path_bucket P l k)).count then
            drain P (st.storage (Path_bucket P l k)) else [])) ∧
      ((∀ k, k ≤ P.L → (st.storage (Path_bucket P l k)).count < P.dummyBlockEachbkt) →
        EarlyReshuffle P shuffles l st = st) ∧
      (EarlyReshuffle P shuffles l st).positionmap = st.positionmap ∧
      (EarlyReshuffle P shuffles l st).round = st.round ∧
      (EarlyReshuffle P shuffles l st).G = st.G ∧
      (CipherCorrect P →
        realView P (EarlyReshuffle P shuffles l st) (Finset.range P.num_bucket) =
          realView P st (Finset.range P.num_bucket)) := by
  have hmem : ∀ k, k ∈ List.range (P.L + 1) ↔ k ≤ P.L := by
    intro k; rw [List.mem_range]; omega
  obtain ⟨b1, _, b3⟩ := EarlyReshuffle_loop_storage P shuffles l hl (List.range (P.L + 1))
    (List.nodup_range _) (fun k hk => (hmem k).mp hk) st
  obtain ⟨c1, c2, c3, c4, c5, c6, c7⟩ := EarlyReshuffle_loop_rebuild P shuffles hs l hl
    (List.range (P.L + 1)) (List.nodup_range _) (fun k hk => (hmem k).mp hk) st
  refine ⟨?_, ?_, ?_, c2, ?_, c4, c5, c6, c3⟩
  · intro k hk hcnt
    obtain ⟨r, kept⟩ := c1 k ((hmem k).mpr hk) hcnt
    exact ⟨r.2.2.1, r.2.2.2.1, r, GetlevelFromPos_Path_bucket P l k hl hk, kept⟩
  · intro k hk hcnt
    exact b3 k ((hmem k).mpr hk) hcnt
  · intro q hq
    exact b1 q (fun k hk => hq k ((hmem k).mp hk))
  · intro hall
    exact c7 (fun k hk => hall k ((hmem k).mp hk))

/-- The scenario ORAM whose root was read three times (count 6, with `S = 5`), reshuffled
along the path of leaf 2: the root is rebuilt from the stash entry of block 5 and its own
valid block 3, the stale copy of block 5 is gone, the stash is empty, the bucket of level 1
is unchanged, and the held blocks are the same. -/
theorem C16_EarlyReshuffle_postcondition_witness :
    (EarlyReshuffle scenarioParams (fun _ l => l) 2 scenarioUsed).stash = [] ∧
      ((EarlyReshuffle scenarioParams (fun _ l => l) 2 scenarioUsed).storage 0).blocks =
        [⟨7, 5, scenarioPayload 2⟩, ⟨2, 3, scenarioPayload 1⟩] ++
          List.replicate 7 dummyBlock ∧
      ((EarlyReshuffle scenarioParams (fun _ l => l) 2 scenarioUsed).storage
        (Path_bucket scenarioParams 2 0)).Rebuilt scenarioParams (Path_bucket scenarioParams 2 0) ∧
      (EarlyReshuffle scenarioParams (fun _ l => l) 2 scenarioUsed).storage
          (Path_bucket scenarioParams 2 1) =
        scenarioUsed.storage (Path_bucket scenarioParams 2 1) ∧
      realView scenarioParams (EarlyReshuffle scenarioParams (fun _ l => l) 2 scenarioUsed)
          (Finset.range scenarioParams.num_bucket) =
        realView scenarioParams scenarioUsed (Finset.range scenarioParams.num_bucket) :=
  ⟨by decide, by decide,
    ((C16_EarlyReshuffle_postcondition scenarioParams (fun _ l => l)
      (fun _ l => List.Perm.refl l) 2 scenario_leaf_two scenarioUsed).1 0 (by decide)
        (by decide)).2.2.1,
    (C16_EarlyReshuffle_postcondition scenarioParams (fun _ l => l)
      (fun _ l => List.Perm.refl l) 2 scenario_leaf_two scenarioUsed).2.1 1 (by decide)
        (by decide),
    (C16_EarlyReshuffle_postcondition scenarioParams (fun _ l => l)
      (fun _ l => List.Perm.refl l) 2 scenario_leaf_two scenarioUsed).2.2.2.2.2.2.2.2
        scenario_cipher⟩

/-- C17 (eviction rebuilds one deterministic path): if `G = g` before the call, `EvictPath`
sets `G` to `g + 1` and leaves the position map and `round` alone; with `l = g mod 2^L` (a
valid leaf) each of the `L + 1` buckets `Path_bucket(l, 0..L)`, which lie at pairwise
different positions, is rebuilt: afterwards it has count zero and all `Z + S` slots valid,
`Z + S` blocks mirrored by `ptrs`, at most `Z` of them non-dummy and each of these on the
path of its leaf; every bucket off that path is unchanged. The stash afterwards is a sublist
of the old stash followed by the real blocks of the path buckets from the root down; a
non-dummy entry left in it finds every bucket of the path it could go to holding `Z`
non-dummy blocks; and for a correct cipher the non-dummy blocks held in the stash and the
real slots are the same multiset before and after. -/
theorem C17_EvictPath_rebuilds_one_path (P : Params) (shuffles : Nat → Shuffle)
    (hs : ∀ i, IsShuffle (shuffles i)) (st : ringoram) :
    (EvictPath P shuffles st).G = st.G + 1 ∧
      (EvictPath P shuffles st).positionmap = st.positionmap ∧
      (EvictPath P shuffles st).round = st.round ∧
      ValidLeaf P ((st.G % 2 ^ P.L : Nat) : Int) ∧
      (∀ k, k ≤ P.L →
        ((EvictPath P shuffles st).storage
          (Path_bucket P ((st.G % 2 ^ P.L : Nat) : Int) k)).count = 0 ∧
        ((EvictPath P shuffles st).storage
          (Path_bucket P ((st.G % 2 ^ P.L : Nat) : Int) k)).valids =
            List.replicate (P.realBlockEachbkt + P.dummyBlockEachbkt) true ∧
        ((EvictPath P shuffles st).storage
          (Path_bucket P ((st.G % 2 ^ P.L : Nat) : Int) k)).Rebuilt P
            (Path_bucket P ((st.G % 2 ^ P.L : Nat) : Int) k) ∧
        GetlevelFromPos (Path_bucket P ((st.G % 2 ^ P.L : Nat) : Int) k) = k) ∧
      (∀ q, (∀ k, k ≤ P.L → q ≠ Path_bucket P ((st.G % 2 ^ P.L : Nat) : Int) k) →
        (EvictPath P shuffles st).storage q = st.storage q) ∧
      (∀ k1 k2, k1 ≤ P.L → k2 ≤ P.L →
        Path_bucket P ((st.G % 2 ^ P.L : Nat) : Int) k1 =
          Path_bucket P ((st.G % 2 ^ P.L : Nat) : Int) k2 → k1 = k2) ∧
      List.Sublist (EvictPath P shuffles st).stash
        (st.stash ++ (List.range (P.L + 1)).flatMap (fun k =>
          drain P (st.storage (Path_bucket P ((st.G % 2 ^ P.L : Nat) : Int) k)))) ∧
      (∀ e ∈ (EvictPath P shuffles st).stash, e.IsDummy = false → ∀ k, k ≤ P.L →
        Path_bucket P e.leaf_id k = Path_bucket P ((st.G % 2 ^ P.L : Nat) : Int) k →
        ((EvictPath P shuffles st).storage
          (Path_bucket P ((st.G % 2 ^ P.L : Nat) : Int) k)).blocks.countP
            (fun blk => !blk.IsDummy) = P.realBlockEachbkt) ∧
      (CipherCorrect P →
        realView P (EvictPath P shuffles st) (Finset.range P.num_bucket) =
          realView P st (Finset.range P.num_bucket)) := by
  have hl := validLeaf_G P st.G
  obtain ⟨st1, hst1⟩ : ∃ s : ringoram, s = { st with G := st.G + 1 } := ⟨_, rfl⟩
  have hmem : ∀ k, k ∈ List.range (P.L + 1) ↔ k ≤ P.L := by
    intro k; rw [List.mem_range]; omega
  have hmemr : ∀ k, k ∈ (List.range (P.L + 1)).reverse ↔ k ≤ P.L := by
    intro k; rw [List.mem_reverse]; exact hmem k
  have hndr : (List.range (P.L + 1)).reverse.Nodup :=
    List.nodup_reverse.mpr (List.nodup_range _)
  obtain ⟨a1, a2, a3, a4, a5, a6⟩ := foldl_ReadBucket_plain P ((st.G % 2 ^ P.L : Nat) : Int) hl
    (List.range (P.L + 1)) (List.nodup_range _) (fun k hk => (hmem k).mp hk)
    (Finset.range P.num_bucket) st1 (fun k _ => Path_bucket_mem_range P _ k)
  obtain ⟨st2, hst2⟩ : ∃ s : ringoram, s = (List.range (P.L + 1)).foldl
      (fun s i => ReadBucket P (Path_bucket P ((st.G % 2 ^ P.L : Nat) : Int) i) s) st1 :=
    ⟨_, rfl⟩
  rw [← hst2] at a1 a2 a3 a4 a5 a6
  obtain ⟨b1, b2⟩ := foldl_WriteBucket_frame P ((st.G % 2 ^ P.L : Nat) : Int) shuffles
    (List.range (P.L + 1)).reverse st2
  obtain ⟨b5, b6, b7⟩ := foldl_WriteBucket_fields P ((st.G % 2 ^ P.L : Nat) : Int) shuffles
    (List.range (P.L + 1)).reverse st2
  have b8 := foldl_WriteBucket_rebuilt P ((st.G % 2 ^ P.L : Nat) : Int) hl shuffles hs
    (List.range (P.L + 1)).reverse hndr (fun k hk => (hmemr k).mp hk) st2
  obtain ⟨g1, g2⟩ := foldl_WriteBucket_greedy P ((st.G % 2 ^ P.L : Nat) : Int) hl shuffles hs
    (List.range (P.L + 1)).reverse hndr (fun k hk => (hmemr k).mp hk) st2
  have hev : EvictPath P shuffles st = (List.range (P.L + 1)).reverse.foldl
      (fun s i => resetCount (Path_bucket P ((st.G % 2 ^ P.L : Nat) : Int) i)
        (WriteBucket P (shuffles i) (Path_bucket P ((st.G % 2 ^ P.L : Nat) : Int) i) s))
      st2 := by
    rw [hst2, hst1]; rfl
  rw [hev]
  refine ⟨?_, ?_, ?_, hl, ?_, ?_, ?_, ?_, ?_, ?_⟩
  · rw [b7, a5, hst1]
  · rw [b5, a3, hst1]
  · rw [b6, a4, hst1]
  · intro k hk
    obtain ⟨h1, h2⟩ := b2 k ((hmemr k).mpr hk)
    exact ⟨h2, h1, b8 k ((hmemr k).mpr hk), GetlevelFromPos_Path_bucket P _ k hl hk⟩
  · intro q hq
    rw [b1 q (fun j hj => hq j ((hmemr j).mp hj)), a2, hst1]
  · intro k1 k2 h1 h2 he
    exact Path_bucket_inj P _ k1 k2 hl h1 h2 he
  · refine g1.trans ?_
    rw [a6, hst1]
  · intro e he hnd k hk hp
    exact g2 k ((hmemr k).mpr hk) e he hnd hp
  · intro hc
    have r1 := foldl_WriteBucket_realView P hc ((st.G % 2 ^ P.L : Nat) : Int) hl shuffles hs
      (List.range (P.L + 1)).reverse hndr (fun k hk => (hmemr k).mp hk)
      (Finset.range P.num_bucket \
        ((List.range (P.L + 1)).map (Path_bucket P ((st.G % 2 ^ P.L : Nat) : Int))).toFinset)
      st2
      (fun j hj hm => by
        have := (Finset.mem_sdiff.mp hm).2
        apply this
        rw [List.mem_toFinset, List.mem_map]
        exact ⟨j, List.mem_reverse.mp hj, rfl⟩)
    have hset : Finset.range P.num_bucket \
          ((List.range (P.L + 1)).map (Path_bucket P ((st.G % 2 ^ P.L : Nat) : Int))).toFinset ∪
        ((List.range (P.L + 1)).reverse.map
          (Path_bucket P ((st.G % 2 ^ P.L : Nat) : Int))).toFinset =
        Finset.range P.num_bucket := by
      ext q
      simp only [Finset.mem_union, Finset.mem_sdiff, List.mem_toFinset, List.mem_map,
        List.mem_reverse]
      constructor
      · rintro (⟨hq, _⟩ | ⟨k, _, rfl⟩)
        · exact hq
        · exact Path_bucket_mem_range P _ k
      · intro hq
        by_cases hx : ∃ a, a ∈ List.range (P.L + 1) ∧
            Path_bucket P ((st.G % 2 ^ P.L : Nat) : Int) a = q
        · exact Or.inr hx
        · exact Or.inl ⟨hq, hx⟩
    rw [hset] at r1
    rw [r1]
    unfold realView
    rw [a1, hst1]
    rfl

/-- The scenario ORAM with block 3 (leaf 2) in the root and block 5 (leaf 7) in the stash,
evicted along the path of leaf `0 = G mod 16`: `G` becomes 1, block 3 goes down to the bucket
at position 3 (level 2) and block 5 to the bucket at position 1 (level 1), the root is left
with dummies only, the stash is empty, and the held blocks are the same. -/
theorem C17_EvictPath_rebuilds_one_path_witness :
    (EvictPath scenarioParams (fun _ l => l) scenarioUsed).G = 1 ∧
      (EvictPath scenarioParams (fun _ l => l) scenarioUsed).stash = [] ∧
      ((EvictPath scenarioParams (fun _ l => l) scenarioUsed).storage 3).blocks =
        [⟨2, 3, scenarioPayload 1⟩] ++ List.replicate 8 dummyBlock ∧
      ((EvictPath scenarioParams (fun _ l => l) scenarioUsed).storage 1).blocks =
        [⟨7, 5, scenarioPayload 2⟩] ++ List.replicate 8 dummyBlock ∧
      ((EvictPath scenarioParams (fun _ l => l) scenarioUsed).storage 0).blocks =
        List.replicate 9 dummyBlock ∧
      ((EvictPath scenarioParams (fun _ l => l) scenarioUsed).storage
        (Path_bucket scenarioParams ((scenarioUsed.G % 2 ^ scenarioParams.L : Nat) : Int)
          2)).Rebuilt scenarioParams
        (Path_bucket scenarioParams ((scenarioUsed.G % 2 ^ scenarioParams.L : Nat) : Int) 2) ∧
      realView scenarioParams (EvictPath scenarioParams (fun _ l => l) scenarioUsed)
          (Finset.range scenarioParams.num_bucket) =
        realView scenarioParams scenarioUsed (Finset.range scenarioParams.num_bucket) :=
  ⟨(C17_EvictPath_rebuilds_one_path scenarioParams (fun _ l => l)
      (fun _ l => List.Perm.refl l) scenarioUsed).1,
    by decide, by decide, by decide, by decide,
    ((C17_EvictPath_rebuilds_one_path scenarioParams (fun _ l => l)
      (fun _ l => List.Perm.refl l) scenarioUsed).2.2.2.2.1 2 (by decide)).2.2.1,
    (C17_EvictPath_rebuilds_one_path scenarioParams (fun _ l => l)
      (fun _ l => List.Perm.refl l) scenarioUsed).2.2.2.2.2.2.2.2.2 scenario_cipher⟩

end RingORAM

